import Mathlib

/-!
# go-endian: structured binary encoding and decoding

A shallow embedding of the traversal engine of `nokute78/go-endian`
(`tag.go`, `size.go`, `decode.go`, `encode.go`) together with theorems about it.

Conventions of the embedding.

* A `reflect.Value` is a `Value`: a tree carrying the dynamic contents.  The two
  reflection flags the code inspects, `CanInterface` and `CanSet`, are passed next
  to the value as Booleans.
* The cursor `*index` is passed in and returned (`Outcome.index`).
* A Go run-time panic (index out of range, `reflect` misuse) is the result `none`.
  An `error` return value is `Outcome.err`; the mutated value / buffer and the
  cursor at the moment of the return are kept in the outcome, because Go does not
  roll them back.
* Bytes and scalars are natural numbers; conversions to `byte` are `% 256`.
  A scalar `uintN x` is well formed when `x < 2^N` and a buffer when its bytes are
  below 256; the theorems that need it say so.  `int` overflow of the cursor is not
  modelled (sizes are bounded by memory).
* Buffers are lists with capacity equal to length, as the buffers `Read` and
  `Write` allocate with `make([]byte, n)`.
* Values of named types (`type T uint8`) are not modelled.
-/

namespace Endian

/-! ## Byte order (external collaborator) -/

/-- Modelled from the spec: the `ByteOrder` capability and its two canonical
instances.  The declaration (`ByteOrder`, `LittleEndian`, `BigEndian`) lives in a
file of the package that is not among the sources; the spec describes it as a
capability with fixed-width read and write operations and an identity usable for
equality comparison, analogous to the standard library's helpers. -/
inductive ByteOrder where
  | LittleEndian
  | BigEndian
deriving DecidableEq, Repr

/-- Conversion `byte(x)` of an unsigned integer. -/
def byte (x : Nat) : Nat := x % 256

/-- Modelled from the spec: `order.Uint16(b)` on a byte window, following
the standard library (`b[0] | b[1]<<8` for little-endian, mirrored for big-endian). -/
def ByteOrder.Uint16 (o : ByteOrder) (b : List Nat) : Nat :=
  match o with
  | .LittleEndian => b.getD 0 0 ||| (b.getD 1 0 <<< 8)
  | .BigEndian => b.getD 1 0 ||| (b.getD 0 0 <<< 8)

/-- Modelled from the spec: `order.Uint32(b)` on a byte window. -/
def ByteOrder.Uint32 (o : ByteOrder) (b : List Nat) : Nat :=
  match o with
  | .LittleEndian =>
    b.getD 0 0 ||| (b.getD 1 0 <<< 8) ||| (b.getD 2 0 <<< 16) ||| (b.getD 3 0 <<< 24)
  | .BigEndian =>
    b.getD 3 0 ||| (b.getD 2 0 <<< 8) ||| (b.getD 1 0 <<< 16) ||| (b.getD 0 0 <<< 24)

/-- Modelled from the spec: `order.Uint64(b)` on a byte window. -/
def ByteOrder.Uint64 (o : ByteOrder) (b : List Nat) : Nat :=
  match o with
  | .LittleEndian =>
    b.getD 0 0 ||| (b.getD 1 0 <<< 8) ||| (b.getD 2 0 <<< 16) ||| (b.getD 3 0 <<< 24) |||
      (b.getD 4 0 <<< 32) ||| (b.getD 5 0 <<< 40) ||| (b.getD 6 0 <<< 48) |||
      (b.getD 7 0 <<< 56)
  | .BigEndian =>
    b.getD 7 0 ||| (b.getD 6 0 <<< 8) ||| (b.getD 5 0 <<< 16) ||| (b.getD 4 0 <<< 24) |||
      (b.getD 3 0 <<< 32) ||| (b.getD 2 0 <<< 40) ||| (b.getD 1 0 <<< 48) |||
      (b.getD 0 0 <<< 56)

/-- Modelled from the spec: `order.PutUint16(bs, v)` on a fresh two-byte
window; the result is the window's contents. -/
def ByteOrder.PutUint16 (o : ByteOrder) (v : Nat) : List Nat :=
  match o with
  | .LittleEndian => [byte v, byte (v >>> 8)]
  | .BigEndian => [byte (v >>> 8), byte v]

/-- Modelled from the spec: `order.PutUint32(bs, v)` on a fresh four-byte window. -/
def ByteOrder.PutUint32 (o : ByteOrder) (v : Nat) : List Nat :=
  match o with
  | .LittleEndian => [byte v, byte (v >>> 8), byte (v >>> 16), byte (v >>> 24)]
  | .BigEndian => [byte (v >>> 24), byte (v >>> 16), byte (v >>> 8), byte v]

/-- Modelled from the spec: `order.PutUint64(bs, v)` on a fresh eight-byte window. -/
def ByteOrder.PutUint64 (o : ByteOrder) (v : Nat) : List Nat :=
  match o with
  | .LittleEndian =>
    [byte v, byte (v >>> 8), byte (v >>> 16), byte (v >>> 24),
     byte (v >>> 32), byte (v >>> 40), byte (v >>> 48), byte (v >>> 56)]
  | .BigEndian =>
    [byte (v >>> 56), byte (v >>> 48), byte (v >>> 40), byte (v >>> 32),
     byte (v >>> 24), byte (v >>> 16), byte (v >>> 8), byte v]

/-! ## Field policy resolver (`tag.go`) -/

/-- Constant `Endian_Type_BLANK` (`iota` = 0). -/
def Endian_Type_BLANK : Nat := 0
/-- Constant `Endian_Type_LE`. -/
def Endian_Type_LE : Nat := 1
/-- Constant `Endian_Type_BE`. -/
def Endian_Type_BE : Nat := 2

/-- The parsed struct tag of one field. -/
structure tagConfig where
  ignore : Bool
  skip : Bool
  endian : Nat
deriving DecidableEq, Repr

/-- Inner loop of `strings.Split(s, ",")`: `acc` holds the current token reversed. -/
def splitComma : List Char → List Char → List String
  | acc, [] => [String.mk acc.reverse]
  | acc, c :: cs =>
    if c = ',' then String.mk acc.reverse :: splitComma [] cs else splitComma (c :: acc) cs

/-- The call `strings.Split(s, ",")`. -/
def stringsSplit (s : String) : List String := splitComma [] s.data

/-- The `for _, v := range strs` loop of `parseStructTag`, started with the
configuration `ret` built so far. -/
def parseTokens : List String → tagConfig → tagConfig
  | [], ret => ret
  | v :: strs, ret =>
    if v = "-" then tagConfig.mk true ret.skip ret.endian
    else if v = "skip" then tagConfig.mk ret.ignore true ret.endian
    else if v = "BE" then parseTokens strs (tagConfig.mk ret.ignore ret.skip Endian_Type_BE)
    else if v = "LE" then parseTokens strs (tagConfig.mk ret.ignore ret.skip Endian_Type_LE)
    else parseTokens strs ret

/-- Function `parseStructTag`.  The argument is the result of
`t.Lookup("endian")`: `none` when the key is absent. -/
def parseStructTag (t : Option String) : Option tagConfig :=
  match t with
  | none => none
  | some s => some (parseTokens (stringsSplit s) (tagConfig.mk false false Endian_Type_BLANK))

/-! ## Values -/

/-- Static description of one struct field: the value of its `endian` tag key (if
present) and whether the field is exported. -/
structure StructField where
  Tag : Option String
  exported : Bool
deriving DecidableEq, Repr

/-- A value handled through reflection.  `array slice elems` is a Go array
(`slice = false`) or slice (`slice = true`); `other bits` is a value of any other
kind, `bits` being the result of `Type().Bits()` (`none` when that call panics,
as for `bool` or `string`, `some 32` for `int32`). -/
inductive Value where
  | uint8 (x : Nat)
  | uint16 (x : Nat)
  | uint32 (x : Nat)
  | uint64 (x : Nat)
  | array (slice : Bool) (elems : List Value)
  | struct (fields : List (StructField × Value))
  | other (bits : Option Nat)
deriving Repr

/-- The test `v.Kind() == reflect.Uint8`. -/
def Value.isUint8 : Value → Bool
  | .uint8 _ => true
  | _ => false

/-- An `error` value: the three errors the engine creates (`errCannotInterface`,
`fmt.Errorf("Not Supported ...")`, `fmt.Errorf("can not set ...")`), the short-read
error of `Read`, `io.EOF`, and any other error of a reader or writer, told apart
by a code. -/
inductive Error where
  | errCannotInterface
  | notSupported
  | canNotSet
  | shortRead
  | eof
  | external (code : Nat)
deriving DecidableEq, Repr

/-- State left behind by a call that returned: the mutated object (decoded value
or output buffer), the cursor and the returned `error` (`none` is `nil`). -/
structure Outcome (α : Type) where
  val : α
  index : Nat
  err : Option Error
deriving DecidableEq, Repr

/-- The test `err != nil && err != errCannotInterface` guarding every `return err`
inside the loops. -/
def fatal (err : Option Error) : Bool :=
  match err with
  | none => false
  | some .errCannotInterface => false
  | some _ => true

/-! ## Size calculator (`size.go`) -/

mutual
/-- Function `sizeOfValueRecursive`: returns the new contents of `*c`. -/
def sizeOfValueRecursive (c : Nat) : Value → Bool → Option Nat
  | .struct fields, structtag => sizeOfFields c fields structtag
  | .array _ [], _ => some c
  | .array _ (e :: es), structtag =>
    match sizeOfValueRecursive 0 e structtag with
    | none => none
    | some elemSize => some (c + elemSize * (es.length + 1))
  | .uint8 _, _ => some (c + 8 / 8)
  | .uint16 _, _ => some (c + 16 / 8)
  | .uint32 _, _ => some (c + 32 / 8)
  | .uint64 _, _ => some (c + 64 / 8)
  | .other bits, _ =>
    match bits with
    | none => none
    | some n => some (c + n / 8)
/-- The two field loops of `sizeOfValueRecursive` on the remaining fields. -/
def sizeOfFields (c : Nat) : List (StructField × Value) → Bool → Option Nat
  | [], _ => some c
  | (f, x) :: rest, true =>
    match parseStructTag f.Tag with
    | some cnf =>
      if cnf.ignore then sizeOfFields c rest true
      else
        match sizeOfValueRecursive c x true with
        | none => none
        | some c1 => sizeOfFields c1 rest true
    | none =>
      match sizeOfValueRecursive c x true with
      | none => none
      | some c1 => sizeOfFields c1 rest true
  | (_, x) :: rest, false =>
    match sizeOfValueRecursive c x false with
    | none => none
    | some c1 => sizeOfFields c1 rest false
end

/-- Function `sizeOfValue`. -/
def sizeOfValue (v : Value) (structtag : Bool) : Option Nat :=
  sizeOfValueRecursive 0 v structtag

/-! ## Decoding (`decode.go`) -/

/-- The slice expression `b[lo:hi]`; `none` is the out-of-range panic. -/
def slice (b : List Nat) (lo hi : Nat) : Option (List Nat) :=
  if hi ≤ b.length then some ((b.drop lo).take (hi - lo)) else none

/-- The tail of `read` for primitives: `if v.CanSet() { v.Set(val) } else { return
fmt.Errorf("can not set ...") }`, reached with the cursor already advanced. -/
def setPrimitive (v val : Value) (canSet : Bool) (index : Nat) : Outcome Value :=
  if canSet then ⟨val, index, none⟩ else ⟨v, index, some .canNotSet⟩

/-- The loop `v.Index(i).Set(reflect.ValueOf(src[i]))` over the elements of a byte
array; `Set` panics on an element that is not a `uint8`. -/
def setBytes : List Value → List Nat → Option (List Value)
  | [], _ => some []
  | _ :: _, [] => none
  | e :: es, x :: xs =>
    match e with
    | .uint8 _ =>
      match setBytes es xs with
      | none => none
      | some es1 => some (.uint8 x :: es1)
    | _ => none

/-- The byte order named by a non-blank `cnf.endian`: `BigEndian` for
`Endian_Type_BE`, `LittleEndian` otherwise (the test `cnf.endian == Endian_Type_BE`
of `encode.go`). -/
def forcedOrder (endian : Nat) : ByteOrder :=
  if endian = Endian_Type_BE then .BigEndian else .LittleEndian

mutual
/-- Function `read`.  `canInterface` and `canSet` are `v.CanInterface()` and
`v.CanSet()`.  The forced-order branch of the struct loop does not type-check in the
source: `decode.go` tests `cnf.endian != nil` and passes `cnf.endian` as the
`ByteOrder`, while `endian` is an `int` in `tag.go`.  The branch is written here as
its counterpart in `encode.go` (the test against `Endian_Type_BLANK`, the order that
the constant names) so that the function is defined on every field; no theorem about
the decoding of a field with an order token is claimed of the source. -/
def read (b : List Nat) (order : ByteOrder) :
    Value → Bool → Bool → Nat → Option (Outcome Value)
  | v, false, _, index =>
    match sizeOfValue v false with
    | none => none
    | some n => some ⟨v, index + n, some .errCannotInterface⟩
  | .uint8 x, true, canSet, index =>
    match b[index]? with
    | none => none
    | some y => some (setPrimitive (.uint8 x) (.uint8 y) canSet (index + 1))
  | .uint16 x, true, canSet, index =>
    match slice b index (index + 2) with
    | none => none
    | some w => some (setPrimitive (.uint16 x) (.uint16 (order.Uint16 w)) canSet (index + 2))
  | .uint32 x, true, canSet, index =>
    match slice b index (index + 4) with
    | none => none
    | some w => some (setPrimitive (.uint32 x) (.uint32 (order.Uint32 w)) canSet (index + 4))
  | .uint64 x, true, canSet, index =>
    match slice b index (index + 8) with
    | none => none
    | some w => some (setPrimitive (.uint64 x) (.uint64 (order.Uint64 w)) canSet (index + 8))
  | .array s [], true, canSet, index =>
    -- falls through to `v.Set(val)` with the zero `reflect.Value`
    if canSet then none else some ⟨.array s [], index, some .canNotSet⟩
  | .array s (e :: es), true, canSet, index =>
    if e.isUint8 then
      match slice b index (index + (es.length + 1)) with
      | none => none
      | some ret =>
        if s || canSet then
          match setBytes (e :: es) (if order = .BigEndian then ret.reverse else ret) with
          | none => none
          | some elems => some ⟨.array s elems, index + (es.length + 1), none⟩
        else some ⟨.array s (e :: es), index + (es.length + 1), none⟩
    else
      match readElems b order (e :: es) (s || canSet) index with
      | none => none
      | some r => some ⟨.array s r.val, r.index, r.err⟩
  | .struct fields, true, canSet, index =>
    match readFields b order fields canSet index with
    | none => none
    | some r => some ⟨.struct r.val, r.index, r.err⟩
  | .other bits, true, _, index => some ⟨.other bits, index, some .notSupported⟩
/-- The element loop of `read` on a non-byte array, on the remaining elements. -/
def readElems (b : List Nat) (order : ByteOrder) :
    List Value → Bool → Nat → Option (Outcome (List Value))
  | [], _, index => some ⟨[], index, none⟩
  | e :: es, canSet, index =>
    match read b order e true canSet index with
    | none => none
    | some r =>
      if fatal r.err then some ⟨r.val :: es, r.index, r.err⟩
      else
        match readElems b order es canSet r.index with
        | none => none
        | some rs => some ⟨r.val :: rs.val, rs.index, rs.err⟩
/-- The field loop of `read` on a struct, on the remaining fields. -/
def readFields (b : List Nat) (order : ByteOrder) :
    List (StructField × Value) → Bool → Nat → Option (Outcome (List (StructField × Value)))
  | [], _, index => some ⟨[], index, none⟩
  | (f, x) :: rest, canSet, index =>
    match parseStructTag f.Tag with
    | some cnf =>
      if cnf.ignore then
        match readFields b order rest canSet index with
        | none => none
        | some rs => some ⟨(f, x) :: rs.val, rs.index, rs.err⟩
      else if cnf.skip then
        match sizeOfValue x true with
        | none => none
        | some n =>
          match readFields b order rest canSet n with
          | none => none
          | some rs => some ⟨(f, x) :: rs.val, rs.index, rs.err⟩
      else if cnf.endian ≠ Endian_Type_BLANK then
        match read b (forcedOrder cnf.endian) x f.exported (canSet && f.exported) index with
        | none => none
        | some r =>
          if fatal r.err then some ⟨(f, r.val) :: rest, r.index, r.err⟩
          else
            match readFields b order rest canSet r.index with
            | none => none
            | some rs => some ⟨(f, r.val) :: rs.val, rs.index, rs.err⟩
      else
        match read b order x f.exported (canSet && f.exported) index with
        | none => none
        | some r =>
          if fatal r.err then some ⟨(f, r.val) :: rest, r.index, r.err⟩
          else
            match readFields b order rest canSet r.index with
            | none => none
            | some rs => some ⟨(f, r.val) :: rs.val, rs.index, rs.err⟩
    | none =>
      match read b order x f.exported (canSet && f.exported) index with
      | none => none
      | some r =>
        if fatal r.err then some ⟨(f, r.val) :: rest, r.index, r.err⟩
        else
          match readFields b order rest canSet r.index with
          | none => none
          | some rs => some ⟨(f, r.val) :: rs.val, rs.index, rs.err⟩
end

/-- What one call `r.Read(barr)` returns: the bytes it stored at the start of
`barr` (their number is `n`) and its `error`. -/
structure ReadReply where
  data : List Nat
  err : Option Error
deriving DecidableEq, Repr

/-- What `Read` leaves to its caller: the target value after the call and the
returned `error`. -/
structure Decoded where
  val : Value
  err : Option Error

/-- The pointer case of `Read` on the pointed-to value `v`.  The reader `r` maps the
length of the buffer it is handed to its reply.  The buffer is `barr[0:n]` followed
by the bytes `make` zeroed; `read` only runs when `n = c`. -/
def ReadValue (r : Nat → ReadReply) (order : ByteOrder) (v : Value) : Option Decoded :=
  match sizeOfValue v true with
  | none => none
  | some c =>
    match (r c).err with
    | some e => some ⟨v, some e⟩
    | none =>
      if (r c).data.length ≠ c then some ⟨v, some .shortRead⟩
      else
        match read ((r c).data ++ List.replicate (c - (r c).data.length) 0) order v true true 0 with
        | none => none
        | some res =>
          if res.err ≠ some .eof ∧ res.err ≠ some .errCannotInterface then
            some ⟨res.val, res.err⟩
          else some ⟨res.val, none⟩

/-! ## Encoding (`encode.go`) -/

/-- The assignment `b[i] = x`; `none` is the index-out-of-range panic. -/
def setIdx (b : List Nat) (i x : Nat) : Option (List Nat) :=
  if i < b.length then some (b.set i x) else none

/-- The assignments `b[*index] = bs[0]; b[*index+1] = bs[1]; ...` copying a
window `bs` into `b` one byte at a time. -/
def putWindow (b : List Nat) (index : Nat) : List Nat → Option (List Nat)
  | [] => some b
  | x :: bs =>
    match setIdx b index x with
    | none => none
    | some b1 => putWindow b1 (index + 1) bs

/-- The call `v.Uint()`; it panics unless the kind is an unsigned integer. -/
def Value.Uint : Value → Option Nat
  | .uint8 x => some x
  | .uint16 x => some x
  | .uint32 x => some x
  | .uint64 x => some x
  | _ => none

/-- The loops `b[pos i] = byte(v.Index(i).Uint())` of the byte-array case, on the
remaining elements, `i` being the index of the first of them. -/
def putBytes (pos : Nat → Nat) : List Value → Nat → List Nat → Option (List Nat)
  | [], _, b => some b
  | e :: es, i, b =>
    match e.Uint with
    | none => none
    | some x =>
      match setIdx b (pos i) (byte x) with
      | none => none
      | some b1 => putBytes pos es (i + 1) b1

mutual
/-- Function `write`.  `canInterface` is `v.CanInterface()`. -/
def write : Value → ByteOrder → List Nat → Bool → Nat → Option (Outcome (List Nat))
  | v, _, b, false, index =>
    match sizeOfValue v false with
    | none => none
    | some n => some ⟨b, index + n, some .errCannotInterface⟩
  | .uint8 x, _, b, true, index =>
    match setIdx b index x with
    | none => none
    | some b1 => some ⟨b1, index + 1, none⟩
  | .uint16 x, order, b, true, index =>
    match putWindow b index (order.PutUint16 x) with
    | none => none
    | some b1 => some ⟨b1, index + 2, none⟩
  | .uint32 x, order, b, true, index =>
    match putWindow b index (order.PutUint32 x) with
    | none => none
    | some b1 => some ⟨b1, index + 4, none⟩
  | .uint64 x, order, b, true, index =>
    match putWindow b index (order.PutUint64 x) with
    | none => none
    | some b1 => some ⟨b1, index + 8, none⟩
  | .array _ [], _, b, true, index => some ⟨b, index, none⟩
  | .array _ (e :: es), order, b, true, index =>
    if e.isUint8 then
      match putBytes
          (if order = .BigEndian then fun i => index + (es.length + 1) - 1 - i
           else fun i => index + i)
          (e :: es) 0 b with
      | none => none
      | some b1 => some ⟨b1, index + (es.length + 1), none⟩
    else writeElems (e :: es) order b index
  | .struct fields, order, b, true, index => writeFields fields order b index
  | .other _, _, b, true, index => some ⟨b, index, some .notSupported⟩
/-- The element loop of `write` on a non-byte array, on the remaining elements. -/
def writeElems : List Value → ByteOrder → List Nat → Nat → Option (Outcome (List Nat))
  | [], _, b, index => some ⟨b, index, none⟩
  | e :: es, order, b, index =>
    match write e order b true index with
    | none => none
    | some r => if fatal r.err then some r else writeElems es order r.val r.index
/-- The field loop of `write` on a struct, on the remaining fields. -/
def writeFields :
    List (StructField × Value) → ByteOrder → List Nat → Nat → Option (Outcome (List Nat))
  | [], _, b, index => some ⟨b, index, none⟩
  | (f, x) :: rest, order, b, index =>
    match parseStructTag f.Tag with
    | some cnf =>
      if cnf.ignore then writeFields rest order b index
      else if cnf.skip then
        match sizeOfValue x true with
        | none => none
        | some n => writeFields rest order b (index + n)
      else if cnf.endian ≠ Endian_Type_BLANK then
        match (if cnf.endian = Endian_Type_BE then write x .BigEndian b f.exported index
               else write x .LittleEndian b f.exported index) with
        | none => none
        | some r => if fatal r.err then some r else writeFields rest order r.val r.index
      else
        match write x order b f.exported index with
        | none => none
        | some r => if fatal r.err then some r else writeFields rest order r.val r.index
    | none =>
      match write x order b f.exported index with
      | none => none
      | some r => if fatal r.err then some r else writeFields rest order r.val r.index
end

/-- The argument `input interface{}` of `Write` as far as its kind matters: a
pointer to a value, or a value passed directly. -/
inductive Input where
  | ptr (v : Value)
  | val (v : Value)

/-- Function `Read`.  The reader `r` and the standard library codec `binaryRead`
used when `data` is not a pointer are parameters. -/
def Read (r : Nat → ReadReply) (binaryRead : ByteOrder → Value → Option Decoded)
    (order : ByteOrder) (data : Input) : Option Decoded :=
  match data with
  | .ptr v => ReadValue r order v
  | .val v => binaryRead order v

/-- What `Write` hands to its caller: the bytes passed to the writer and the
returned `error`. -/
structure Emitted where
  bytes : List Nat
  err : Option Error
deriving DecidableEq, Repr

/-- The engine part of `Write` on the value `vv`: allocate
`sizeOfValue(vv, true)` bytes, run `write` from cursor 0, pass the buffer to
`w.Write` and return the writer's error (the error of `write` is overwritten). -/
def WriteValue (w : List Nat → Option Error) (order : ByteOrder) (vv : Value) : Option Emitted :=
  match sizeOfValue vv true with
  | none => none
  | some n =>
    match write vv order (List.replicate n 0) true 0 with
    | none => none
    | some r => some ⟨r.val, w r.val⟩

/-- Function `Write`.  The writer `w` (its verdict on the bulk write) and the
standard library codec `binaryWrite` used for bare scalars are parameters. -/
def Write (w : List Nat → Option Error) (binaryWrite : ByteOrder → Value → Option Emitted)
    (order : ByteOrder) (input : Input) : Option Emitted :=
  match input with
  | .ptr v => WriteValue w order v
  | .val (.array s elems) => WriteValue w order (.array s elems)
  | .val (.struct fields) => WriteValue w order (.struct fields)
  | .val v => binaryWrite order v

/-! ## Decidable equality of values -/

mutual
/-- Decision procedure for equality of values. -/
def Value.decEq : (a b : Value) → Decidable (a = b)
  | .uint8 x, .uint8 y =>
    if h : x = y then isTrue (by rw [h]) else isFalse (by intro e; cases e; exact h rfl)
  | .uint16 x, .uint16 y =>
    if h : x = y then isTrue (by rw [h]) else isFalse (by intro e; cases e; exact h rfl)
  | .uint32 x, .uint32 y =>
    if h : x = y then isTrue (by rw [h]) else isFalse (by intro e; cases e; exact h rfl)
  | .uint64 x, .uint64 y =>
    if h : x = y then isTrue (by rw [h]) else isFalse (by intro e; cases e; exact h rfl)
  | .other x, .other y =>
    if h : x = y then isTrue (by rw [h]) else isFalse (by intro e; cases e; exact h rfl)
  | .array s es, .array t fs =>
    if h : s = t then
      match Value.decEqList es fs with
      | isTrue h2 => isTrue (by rw [h, h2])
      | isFalse h2 => isFalse (by intro e; cases e; exact h2 rfl)
    else isFalse (by intro e; cases e; exact h rfl)
  | .struct es, .struct fs =>
    match Value.decEqFields es fs with
    | isTrue h2 => isTrue (by rw [h2])
    | isFalse h2 => isFalse (by intro e; cases e; exact h2 rfl)
  | .uint8 _, .uint16 _ | .uint8 _, .uint32 _ | .uint8 _, .uint64 _ | .uint8 _, .array _ _
  | .uint8 _, .struct _ | .uint8 _, .other _
  | .uint16 _, .uint8 _ | .uint16 _, .uint32 _ | .uint16 _, .uint64 _ | .uint16 _, .array _ _
  | .uint16 _, .struct _ | .uint16 _, .other _
  | .uint32 _, .uint8 _ | .uint32 _, .uint16 _ | .uint32 _, .uint64 _ | .uint32 _, .array _ _
  | .uint32 _, .struct _ | .uint32 _, .other _
  | .uint64 _, .uint8 _ | .uint64 _, .uint16 _ | .uint64 _, .uint32 _ | .uint64 _, .array _ _
  | .uint64 _, .struct _ | .uint64 _, .other _
  | .array _ _, .uint8 _ | .array _ _, .uint16 _ | .array _ _, .uint32 _
  | .array _ _, .uint64 _ | .array _ _, .struct _ | .array _ _, .other _
  | .struct _, .uint8 _ | .struct _, .uint16 _ | .struct _, .uint32 _ | .struct _, .uint64 _
  | .struct _, .array _ _ | .struct _, .other _
  | .other _, .uint8 _ | .other _, .uint16 _ | .other _, .uint32 _ | .other _, .uint64 _
  | .other _, .array _ _ | .other _, .struct _ => isFalse (by intro e; cases e)
/-- Decision procedure for equality of element lists. -/
def Value.decEqList : (a b : List Value) → Decidable (a = b)
  | [], [] => isTrue rfl
  | [], _ :: _ | _ :: _, [] => isFalse (by intro e; cases e)
  | x :: xs, y :: ys =>
    match Value.decEq x y with
    | isTrue h1 =>
      match Value.decEqList xs ys with
      | isTrue h2 => isTrue (by rw [h1, h2])
      | isFalse h2 => isFalse (by intro e; cases e; exact h2 rfl)
    | isFalse h1 => isFalse (by intro e; cases e; exact h1 rfl)
/-- Decision procedure for equality of field lists. -/
def Value.decEqFields : (a b : List (StructField × Value)) → Decidable (a = b)
  | [], [] => isTrue rfl
  | [], _ :: _ | _ :: _, [] => isFalse (by intro e; cases e)
  | (f, x) :: xs, (g, y) :: ys =>
    if h0 : f = g then
      match Value.decEq x y with
      | isTrue h1 =>
        match Value.decEqFields xs ys with
        | isTrue h2 => isTrue (by rw [h0, h1, h2])
        | isFalse h2 => isFalse (by intro e; cases e; exact h2 rfl)
      | isFalse h1 => isFalse (by intro e; cases e; exact h1 rfl)
    else isFalse (by intro e; cases e; exact h0 rfl)
end

instance : DecidableEq Value := Value.decEq

/-! ## Specification-level notions

The definitions below are not part of the program: they name the shapes, the
reference byte strings and the side conditions that the theorems speak about. -/

/-- Does the field carry the ignore directive (`cnf != nil && cnf.ignore`)? -/
def StructField.ignored (f : StructField) : Bool :=
  match parseStructTag f.Tag with
  | some cnf => cnf.ignore
  | none => false

/-- Does the field carry the skip directive (reached only when `ignore` is unset)? -/
def StructField.skipped (f : StructField) : Bool :=
  match parseStructTag f.Tag with
  | some cnf => !cnf.ignore && cnf.skip
  | none => false

/-- The byte order in force for a field processed under the ambient order `o`:
the forced order when the tag names one, the ambient order otherwise. -/
def StructField.orderUnder (f : StructField) (o : ByteOrder) : ByteOrder :=
  match parseStructTag f.Tag with
  | some cnf => if cnf.endian ≠ Endian_Type_BLANK then forcedOrder cnf.endian else o
  | none => o

mutual
/-- The zero value of the shape of a value: every scalar 0, same lengths, same
fields. -/
def Value.zero : Value → Value
  | .uint8 _ => .uint8 0
  | .uint16 _ => .uint16 0
  | .uint32 _ => .uint32 0
  | .uint64 _ => .uint64 0
  | .array s es => .array s (zeroElems es)
  | .struct fs => .struct (zeroFields fs)
  | .other bits => .other bits
/-- Zero values of a list of elements. -/
def zeroElems : List Value → List Value
  | [] => []
  | e :: es => e.zero :: zeroElems es
/-- Zero values of a list of fields. -/
def zeroFields : List (StructField × Value) → List (StructField × Value)
  | [] => []
  | (f, x) :: rest => (f, x.zero) :: zeroFields rest
end

/-- The bytes `byte(e.Uint())` of the elements of a byte array. -/
def bytesOf : List Value → List Nat
  | [] => []
  | e :: es => byte (e.Uint.getD 0) :: bytesOf es

mutual
/-- Reference encoding: the byte string of a value under an order, for values
whose fields are accessible and carry no skip directive.  An ignored field has no
bytes, a forced-order field is encoded under its own order, a byte array is
reversed as a whole under big-endian. -/
def enc (o : ByteOrder) : Value → List Nat
  | .uint8 x => [x]
  | .uint16 x => o.PutUint16 x
  | .uint32 x => o.PutUint32 x
  | .uint64 x => o.PutUint64 x
  | .array _ [] => []
  | .array _ (e :: es) =>
    if e.isUint8 then
      (if o = .BigEndian then (bytesOf (e :: es)).reverse else bytesOf (e :: es))
    else encElems o (e :: es)
  | .struct fs => encFields o fs
  | .other _ => []
/-- Reference encoding of a list of elements: concatenation in index order. -/
def encElems (o : ByteOrder) : List Value → List Nat
  | [] => []
  | e :: es => enc o e ++ encElems o es
/-- Reference encoding of a list of fields: concatenation in declaration order. -/
def encFields (o : ByteOrder) : List (StructField × Value) → List Nat
  | [] => []
  | (f, x) :: rest =>
    (if f.ignored then [] else
      enc (f.orderUnder o) x) ++ encFields o rest
end

mutual
/-- The value `overlay v t` is the target `t` after the transmitted data of `v`
has been stored in it: it is `v` except in ignored fields, where it is `t`. -/
def overlay : Value → Value → Value
  | .array _ es, .array s ts => .array s (overlayElems es ts)
  | .struct fs, .struct gs => .struct (overlayFields fs gs)
  | .uint8 x, _ => .uint8 x
  | .uint16 x, _ => .uint16 x
  | .uint32 x, _ => .uint32 x
  | .uint64 x, _ => .uint64 x
  | .other bits, _ => .other bits
  | .array s es, _ => .array s es
  | .struct fs, _ => .struct fs
/-- Overlay of element lists, position by position. -/
def overlayElems : List Value → List Value → List Value
  | e :: es, t :: ts => overlay e t :: overlayElems es ts
  | _, _ => []
/-- Overlay of field lists, position by position. -/
def overlayFields :
    List (StructField × Value) → List (StructField × Value) → List (StructField × Value)
  | (f, x) :: fs, (g, y) :: gs =>
    (g, if f.ignored then y else overlay x y) :: overlayFields fs gs
  | _, _ => []
end

mutual
/-- The value `v.erased` is `v` with every ignored field replaced by the zero value
of its shape. -/
def Value.erased : Value → Value
  | .uint8 x => .uint8 x
  | .uint16 x => .uint16 x
  | .uint32 x => .uint32 x
  | .uint64 x => .uint64 x
  | .array s es => .array s (erasedElems es)
  | .struct fs => .struct (erasedFields fs)
  | .other bits => .other bits
/-- Erasure of a list of elements. -/
def erasedElems : List Value → List Value
  | [] => []
  | e :: es => e.erased :: erasedElems es
/-- Erasure of a list of fields. -/
def erasedFields : List (StructField × Value) → List (StructField × Value)
  | [] => []
  | (f, x) :: rest => (f, if f.ignored then x.zero else x.erased) :: erasedFields rest
end

mutual
/-- Values whose bytes on the wire are given by the reference encoder `enc`: scalars
in the range of their type, non-empty arrays whose elements all have the shape of the
first, and structs whose fields are exported and carry no skip directive; a field may
be untagged, ignored or forced to an order.  The contents of an ignored field are
unconstrained. -/
def Coded : Value → Bool
  | .uint8 x => decide (x < 256)
  | .uint16 x => decide (x < 65536)
  | .uint32 x => decide (x < 4294967296)
  | .uint64 x => decide (x < 18446744073709551616)
  | .array _ [] => false
  | .array _ (e :: es) => Coded e && CodedElems e.zero es
  | .struct fs => CodedFields fs
  | .other _ => false
/-- All elements are `Coded` and have the zero value `z`. -/
def CodedElems (z : Value) : List Value → Bool
  | [] => true
  | e :: es => Coded e && decide (e.zero = z) && CodedElems z es
/-- All fields are exported, none is skipped, and each one is ignored or `Coded`. -/
def CodedFields : List (StructField × Value) → Bool
  | [] => true
  | (f, x) :: rest => f.exported && !f.skipped && (f.ignored || Coded x) && CodedFields rest
end

mutual
/-- Directive-free values: scalars in the range of their type, non-empty arrays
and slices whose elements all have the shape of the first (the typing of Go gives
this for arrays, not for slices of slices), and structs whose fields are all
exported and carry no `endian` tag. -/
def Plain : Value → Bool
  | .uint8 x => decide (x < 256)
  | .uint16 x => decide (x < 65536)
  | .uint32 x => decide (x < 4294967296)
  | .uint64 x => decide (x < 18446744073709551616)
  | .array _ [] => false
  | .array _ (e :: es) => Plain e && PlainElems e.zero es
  | .struct fs => PlainFields fs
  | .other _ => false
/-- All elements are `Plain` and have the zero value `z`. -/
def PlainElems (z : Value) : List Value → Bool
  | [] => true
  | e :: es => Plain e && decide (e.zero = z) && PlainElems z es
/-- All fields are exported, untagged and `Plain`. -/
def PlainFields : List (StructField × Value) → Bool
  | [] => true
  | (f, x) :: rest => f.exported && decide (f.Tag = none) && Plain x && PlainFields rest
end

/-- Every byte of the buffer is below 256. -/
def Bytes (b : List Nat) : Prop := ∀ x ∈ b, x < 256

/-! ## Sample values -/

/-- A struct `{A uint8 "-"; B uint8}` with contents 5 and 7: the first field is
ignored. -/
def sampleIgnored : Value :=
  .struct [(⟨some "-", true⟩, .uint8 5), (⟨none, true⟩, .uint8 7)]

/-- A directive-free struct `{Header uint8; Reserved uint16; Data [4]uint8}`. -/
def samplePlain : Value :=
  .struct [(⟨none, true⟩, .uint8 0x7f), (⟨none, true⟩, .uint16 0xffee),
    (⟨none, true⟩, .array false [.uint8 0xaa, .uint8 0xbb, .uint8 0xcc, .uint8 0xdd])]

mutual
/-- Values on which `write` is shown to stay within the buffer that `Write`
allocates: unsigned scalars, arrays (possibly empty) whose elements all have the
shape of the first, and structs.  A field may be ignored (no condition on its
contents), skipped (its size must be defined), exported, or unexported provided
its physical and logical sizes agree. -/
def Sized : Value → Bool
  | .uint8 _ => true
  | .uint16 _ => true
  | .uint32 _ => true
  | .uint64 _ => true
  | .array _ [] => true
  | .array _ (e :: es) => Sized e && SizedElems e.zero es
  | .struct fs => SizedFields fs
  | .other _ => false
/-- All elements are `Sized` and have the zero value `z`. -/
def SizedElems (z : Value) : List Value → Bool
  | [] => true
  | e :: es => Sized e && decide (e.zero = z) && SizedElems z es
/-- The condition of `Sized` on every field. -/
def SizedFields : List (StructField × Value) → Bool
  | [] => true
  | (f, x) :: rest =>
    (f.ignored ||
      (if f.skipped then (sizeOfValue x true).isSome
       else if f.exported then Sized x
       else (sizeOfValue x true).isSome && decide (sizeOfValue x false = sizeOfValue x true)))
    && SizedFields rest
end

/-- The value the engine of `Write` processes for an input, `none` when `Write`
delegates to `binary.Write` (a bare value that is not an array, slice or struct). -/
def Input.engine : Input → Option Value
  | .ptr v => some v
  | .val (.array s elems) => some (.array s elems)
  | .val (.struct fields) => some (.struct fields)
  | .val _ => none

/-- A struct with a skipped field, a field forced to big-endian and an unexported
field. -/
def sampleSized : Value :=
  .struct [(⟨none, true⟩, .uint8 1), (⟨some "skip", true⟩, .uint16 2),
    (⟨some "BE", true⟩, .uint16 0x0304), (⟨none, false⟩, .uint8 5),
    (⟨some "-", true⟩, .uint32 6), (⟨none, true⟩, .array true [])]

/-- The number a byte order reads from the `w` bytes of `b` starting at `i`: the
sum of `b[i+k] * 256^k` under little-endian and of `b[i+k] * 256^(w-1-k)` under
big-endian, for `k < w`. -/
def orderValue (o : ByteOrder) (b : List Nat) (i w : Nat) : Nat :=
  match o with
  | .LittleEndian => ∑ k ∈ Finset.range w, b.getD (i + k) 0 * 256 ^ k
  | .BigEndian => ∑ k ∈ Finset.range w, b.getD (i + k) 0 * 256 ^ (w - 1 - k)

/-- The `w` bytes a byte order's put operation produces for `x`: byte `k` is
`(x >> 8k) & 0xff` under little-endian and `(x >> 8(w-1-k)) & 0xff` under
big-endian. -/
def orderBytes (o : ByteOrder) (w x : Nat) : List Nat :=
  match o with
  | .LittleEndian => (List.range w).map (fun k => (x >>> (8 * k)) &&& 0xff)
  | .BigEndian => (List.range w).map (fun k => (x >>> (8 * (w - 1 - k))) &&& 0xff)

/-- The buffer `b` with the window starting at `i` replaced by `w`. -/
def splice (b : List Nat) (i : Nat) (w : List Nat) : List Nat :=
  b.take i ++ (w ++ b.drop (i + w.length))

/-- The `n` bytes of `b` starting at `i`. -/
def window (b : List Nat) (i n : Nat) : List Nat := (b.drop i).take n

/-- The field list `fs` with `fx` inserted at position `k`. -/
def insertField (fs : List (StructField × Value)) (k : Nat) (fx : StructField × Value) :
    List (StructField × Value) :=
  fs.take k ++ fx :: fs.drop k

/-- The outcome of decoding a struct, with the field `fx` put back at position `k`. -/
def Outcome.withField (r : Outcome Value) (k : Nat) (fx : StructField × Value) :
    Outcome Value :=
  match r.val with
  | .struct fs => ⟨.struct (insertField fs k fx), r.index, r.err⟩
  | _ => r

/-- The zero value of a struct `{A uint8; B uint8 "skip"; C uint8}`. -/
def sampleSkip : Value :=
  .struct [(⟨none, true⟩, .uint8 0), (⟨some "skip", true⟩, .uint8 0), (⟨none, true⟩, .uint8 0)]

/-! ## Further specification-level notions -/

instance : DecidableEq Decoded := fun a b =>
  decidable_of_iff (a.val = b.val ∧ a.err = b.err)
    ⟨fun h => by cases a; cases b; simp only at h; rw [h.1, h.2],
     fun h => by rw [h]; exact ⟨rfl, rfl⟩⟩

/-- Modelled from the standard library: a `bytes.Reader` holding `src`.  At the end
of its data it returns 0 and `io.EOF`, otherwise it copies as many bytes as fit. -/
def bytesReader (src : List Nat) (len : Nat) : ReadReply :=
  match src with
  | [] => ⟨[], some .eof⟩
  | _ => ⟨src.take len, none⟩

mutual
/-- Reference size, following the words of the specification: a scalar has the
width in bytes of its bit-width; an array has size 0 when empty and otherwise its
length times the size of its first element; a composite has the sum of the sizes
of its fields, where with `honor_ignore` every ignored field contributes zero. -/
def sizeRef : Value → Bool → Nat
  | .uint8 _, _ => 1
  | .uint16 _, _ => 2
  | .uint32 _, _ => 4
  | .uint64 _, _ => 8
  | .array _ [], _ => 0
  | .array _ (e :: es), h => (es.length + 1) * sizeRef e h
  | .struct fs, h => sizeRefFields fs h
  | .other _, _ => 0
/-- Sum of the reference sizes of a list of fields. -/
def sizeRefFields : List (StructField × Value) → Bool → Nat
  | [], _ => 0
  | (f, x) :: rest, h => (if h && f.ignored then 0 else sizeRef x h) + sizeRefFields rest h
end

mutual
/-- Values of a supported shape: built from unsigned scalars, arrays and structs
only. -/
def Supported : Value → Bool
  | .uint8 _ => true
  | .uint16 _ => true
  | .uint32 _ => true
  | .uint64 _ => true
  | .array _ es => SupportedElems es
  | .struct fs => SupportedFields fs
  | .other _ => false
/-- All elements have a supported shape. -/
def SupportedElems : List Value → Bool
  | [] => true
  | e :: es => Supported e && SupportedElems es
/-- All fields have a supported shape. -/
def SupportedFields : List (StructField × Value) → Bool
  | [] => true
  | (_, x) :: rest => Supported x && SupportedFields rest
end

/-- The tokens `parseStructTag` recognizes. -/
def recognized (v : String) : Bool :=
  v = "-" || v = "skip" || v = "BE" || v = "LE"

/-- Characters of the annotation whose comma-separated tokens are `ts`. -/
def joinChars : List String → List Char
  | [] => []
  | [t] => t.data
  | t :: ts => t.data ++ ',' :: joinChars ts

/-- The annotation whose comma-separated tokens are `ts`. -/
def joinComma (ts : List String) : String := String.mk (joinChars ts)

/-- A token: a string without a comma. -/
def isToken (t : String) : Bool := !t.data.contains ','

/-- The configuration before any token is seen: `&tagConfig{}`. -/
def blankConfig : tagConfig := ⟨false, false, Endian_Type_BLANK⟩

/-- The value `v` written under `o` produces the bytes `w`: wherever the cursor is
and whatever the buffer holds, `write` replaces the window of `w.length` bytes at
the cursor by `w`, leaves the rest of the buffer alone, advances the cursor by
`w.length` and returns no error. -/
def Produces (v : Value) (o : ByteOrder) (w : List Nat) : Prop :=
  ∀ (pre mid post : List Nat) (i : Nat), pre.length = i → mid.length = w.length →
    write v o (pre ++ (mid ++ post)) true i = some ⟨pre ++ (w ++ post), i + w.length, none⟩

/-- The zero value of a struct `{A uint8; _ uint8; B uint8}` with an unexported
field in the middle. -/
def sampleUnexported : Value :=
  .struct [(⟨none, true⟩, .uint8 0), (⟨none, false⟩, .uint8 0), (⟨none, true⟩, .uint8 0)]

/-- The zero value of a struct `{A int32 "-"; B uint8}`: the unsupported field is
ignored. -/
def sampleIgnoredSigned : Value :=
  .struct [(⟨some "-", true⟩, .other (some 32)), (⟨none, true⟩, .uint8 0)]

/-- The zero value of a struct `{A uint8; B int32; C uint8}`. -/
def sampleSigned : Value :=
  .struct [(⟨none, true⟩, .uint8 0), (⟨none, true⟩, .other (some 32)), (⟨none, true⟩, .uint8 0)]

/-- The zero value of a struct `{A bool}`. -/
def sampleBool : Value := .struct [(⟨none, true⟩, .other none)]

/-! ## The engine with the kind of panic recorded -/

/-- The kind of a run-time panic: an index or slice expression on the buffer out of
range, or a panic of the `reflect` package (`Set` of the zero `Value` or of a value
of another type, `Type().Bits()` of a non-arithmetic type). -/
inductive Panic where
  | indexOutOfRange
  | reflect
deriving DecidableEq, Repr

/-- The loop of `setBytes` with the panics told apart: reading `src` past its end is
an index out of range, `Set` on an element that is not a `uint8` is a panic of
`reflect`. -/
def setBytesP : List Value → List Nat → Except Panic (List Value)
  | [], _ => .ok []
  | _ :: _, [] => .error .indexOutOfRange
  | e :: es, x :: xs =>
    match e with
    | .uint8 _ =>
      match setBytesP es xs with
      | .error p => .error p
      | .ok es1 => .ok (.uint8 x :: es1)
    | _ => .error .reflect

mutual
/-- Function `read` once more, telling the panics apart: every `none` of `read` is
here `.error` with its kind; the rest is the same. -/
def readP (b : List Nat) (order : ByteOrder) :
    Value → Bool → Bool → Nat → Except Panic (Outcome Value)
  | v, false, _, index =>
    match sizeOfValue v false with
    | none => .error .reflect
    | some n => .ok ⟨v, index + n, some .errCannotInterface⟩
  | .uint8 x, true, canSet, index =>
    match b[index]? with
    | none => .error .indexOutOfRange
    | some y => .ok (setPrimitive (.uint8 x) (.uint8 y) canSet (index + 1))
  | .uint16 x, true, canSet, index =>
    match slice b index (index + 2) with
    | none => .error .indexOutOfRange
    | some w => .ok (setPrimitive (.uint16 x) (.uint16 (order.Uint16 w)) canSet (index + 2))
  | .uint32 x, true, canSet, index =>
    match slice b index (index + 4) with
    | none => .error .indexOutOfRange
    | some w => .ok (setPrimitive (.uint32 x) (.uint32 (order.Uint32 w)) canSet (index + 4))
  | .uint64 x, true, canSet, index =>
    match slice b index (index + 8) with
    | none => .error .indexOutOfRange
    | some w => .ok (setPrimitive (.uint64 x) (.uint64 (order.Uint64 w)) canSet (index + 8))
  | .array s [], true, canSet, index =>
    if canSet then .error .reflect else .ok ⟨.array s [], index, some .canNotSet⟩
  | .array s (e :: es), true, canSet, index =>
    if e.isUint8 then
      match slice b index (index + (es.length + 1)) with
      | none => .error .indexOutOfRange
      | some ret =>
        if s || canSet then
          match setBytesP (e :: es) (if order = .BigEndian then ret.reverse else ret) with
          | .error p => .error p
          | .ok elems => .ok ⟨.array s elems, index + (es.length + 1), none⟩
        else .ok ⟨.array s (e :: es), index + (es.length + 1), none⟩
    else
      match readElemsP b order (e :: es) (s || canSet) index with
      | .error p => .error p
      | .ok r => .ok ⟨.array s r.val, r.index, r.err⟩
  | .struct fields, true, canSet, index =>
    match readFieldsP b order fields canSet index with
    | .error p => .error p
    | .ok r => .ok ⟨.struct r.val, r.index, r.err⟩
  | .other bits, true, _, index => .ok ⟨.other bits, index, some .notSupported⟩
/-- The element loop of `readP`. -/
def readElemsP (b : List Nat) (order : ByteOrder) :
    List Value → Bool → Nat → Except Panic (Outcome (List Value))
  | [], _, index => .ok ⟨[], index, none⟩
  | e :: es, canSet, index =>
    match readP b order e true canSet index with
    | .error p => .error p
    | .ok r =>
      if fatal r.err then .ok ⟨r.val :: es, r.index, r.err⟩
      else
        match readElemsP b order es canSet r.index with
        | .error p => .error p
        | .ok rs => .ok ⟨r.val :: rs.val, rs.index, rs.err⟩
/-- The field loop of `readP`. -/
def readFieldsP (b : List Nat) (order : ByteOrder) :
    List (StructField × Value) → Bool → Nat →
      Except Panic (Outcome (List (StructField × Value)))
  | [], _, index => .ok ⟨[], index, none⟩
  | (f, x) :: rest, canSet, index =>
    if f.ignored then
      match readFieldsP b order rest canSet index with
      | .error p => .error p
      | .ok rs => .ok ⟨(f, x) :: rs.val, rs.index, rs.err⟩
    else if f.skipped then
      match sizeOfValue x true with
      | none => .error .reflect
      | some n =>
        match readFieldsP b order rest canSet n with
        | .error p => .error p
        | .ok rs => .ok ⟨(f, x) :: rs.val, rs.index, rs.err⟩
    else
      match readP b (f.orderUnder order) x f.exported (canSet && f.exported) index with
      | .error p => .error p
      | .ok r =>
        if fatal r.err then .ok ⟨(f, r.val) :: rest, r.index, r.err⟩
        else
          match readFieldsP b order rest canSet r.index with
          | .error p => .error p
          | .ok rs => .ok ⟨(f, r.val) :: rs.val, rs.index, rs.err⟩
end

/-- A run of `readP` stays in bounds up to `bound`: it does not end in an
out-of-range panic, and when it returns the cursor is at most `bound`. -/
def InBounds {α : Type} (res : Except Panic (Outcome α)) (bound : Nat) : Prop :=
  match res with
  | .error .indexOutOfRange => False
  | .error .reflect => True
  | .ok r => r.index ≤ bound

mutual
/-- Arrays are homogeneous: in every array and slice all elements have the shape of
the first one. -/
def Homogeneous : Value → Bool
  | .uint8 _ => true
  | .uint16 _ => true
  | .uint32 _ => true
  | .uint64 _ => true
  | .array _ [] => true
  | .array _ (e :: es) => Homogeneous e && HomogeneousElems e.zero es
  | .struct fs => HomogeneousFields fs
  | .other _ => true
/-- All elements are `Homogeneous` and have the zero value `z`. -/
def HomogeneousElems (z : Value) : List Value → Bool
  | [] => true
  | e :: es => Homogeneous e && decide (e.zero = z) && HomogeneousElems z es
/-- All field values are `Homogeneous`. -/
def HomogeneousFields : List (StructField × Value) → Bool
  | [] => true
  | (_, x) :: rest => Homogeneous x && HomogeneousFields rest
end

/-- The targets `ts` are decoded one after the other from cursor `i`: target `j`
is decoded by `read` from the offset where target `j - 1` ended, consumes `ns[j]`
bytes, returns no error and becomes `rs[j]`. -/
def DecodeSteps (b : List Nat) (o : ByteOrder) (canSet : Bool) :
    List Value → List Nat → List Value → Nat → Prop
  | [], [], [], _ => True
  | t :: ts, n :: ns, r :: rs, i =>
    read b o t true canSet i = some ⟨r, i + n, none⟩ ∧ DecodeSteps b o canSet ts ns rs (i + n)
  | _, _, _, _ => False

/-- The fields `fs` with their values replaced, in order, by `rs`. -/
def withValues (fs : List (StructField × Value)) (rs : List Value) :
    List (StructField × Value) :=
  List.zipWith (fun fx r => (fx.1, r)) fs rs

/-- A struct `{a struct{X uint8 "-"; Y uint8}; B uint8}` whose first field is
unexported and holds an ignored field: its logical size is 2, the physical size of
the field `a` alone is 2. -/
def sampleHidden : Value :=
  .struct [(⟨none, false⟩,
      .struct [(⟨some "-", true⟩, .uint8 1), (⟨none, true⟩, .uint8 2)]),
    (⟨none, true⟩, .uint8 7)]

/-- A struct mixing directives and an unexported field, with a nested struct that
skips: `{A uint16; in struct{P uint8 "skip"; Q uint16 "BE"}; _ uint8; G uint8 "-";
D [2]uint16}`. -/
def sampleNested : Value :=
  .struct [(⟨none, true⟩, .uint16 0),
    (⟨none, true⟩, .struct [(⟨some "skip", true⟩, .uint8 0), (⟨some "BE", true⟩, .uint16 0)]),
    (⟨none, false⟩, .uint8 0), (⟨some "-", true⟩, .uint8 0),
    (⟨none, true⟩, .array false [.uint16 0, .uint16 0])]

mutual
/-- Values covered by the round-trip theorem with ignored fields: scalars in the
range of their type, non-empty arrays whose elements all have the shape of the
first, and structs whose fields are exported and each either untagged or ignored.
The contents of an ignored field are unconstrained. -/
def PlainOrIgnored : Value → Bool
  | .uint8 x => decide (x < 256)
  | .uint16 x => decide (x < 65536)
  | .uint32 x => decide (x < 4294967296)
  | .uint64 x => decide (x < 18446744073709551616)
  | .array _ [] => false
  | .array _ (e :: es) => PlainOrIgnored e && PlainOrIgnoredElems e.zero es
  | .struct fs => PlainOrIgnoredFields fs
  | .other _ => false
/-- All elements are `PlainOrIgnored` and have the zero value `z`. -/
def PlainOrIgnoredElems (z : Value) : List Value → Bool
  | [] => true
  | e :: es => PlainOrIgnored e && decide (e.zero = z) && PlainOrIgnoredElems z es
/-- All fields are exported, and each one is ignored or untagged and
`PlainOrIgnored`. -/
def PlainOrIgnoredFields : List (StructField × Value) → Bool
  | [] => true
  | (f, x) :: rest =>
    f.exported && (f.ignored || (decide (f.Tag = none) && PlainOrIgnored x))
      && PlainOrIgnoredFields rest
end

mutual
/-- Targets of a fixed layout: unsigned scalars, non-empty arrays and slices whose
elements all have the shape of the first, and structs whose fields are each
ignored, or exported and untagged with a value of a fixed layout.  The contents of
the scalars do not matter. -/
def FixedLayout : Value → Bool
  | .uint8 _ => true
  | .uint16 _ => true
  | .uint32 _ => true
  | .uint64 _ => true
  | .array _ [] => false
  | .array _ (e :: es) => FixedLayout e && FixedLayoutElems e.zero es
  | .struct fs => FixedLayoutFields fs
  | .other _ => false
/-- All elements have a fixed layout and the zero value `z`. -/
def FixedLayoutElems (z : Value) : List Value → Bool
  | [] => true
  | e :: es => FixedLayout e && decide (e.zero = z) && FixedLayoutElems z es
/-- The condition of `FixedLayout` on every field. -/
def FixedLayoutFields : List (StructField × Value) → Bool
  | [] => true
  | (f, x) :: rest =>
    (f.ignored || (f.exported && decide (f.Tag = none) && FixedLayout x))
      && FixedLayoutFields rest
end

/-- A struct `{A uint32; B uint16 "-"; C [2]uint16; D struct{X uint8 "-"; Y uint8};
E [3]uint8}` with an ignored field at the top and one in a nested struct. -/
def sampleIgnoring : Value :=
  .struct [(⟨none, true⟩, .uint32 0x5ddfab57), (⟨some "-", true⟩, .uint16 9),
    (⟨none, true⟩, .array false [.uint16 0x0102, .uint16 0x0304]),
    (⟨none, true⟩, .struct [(⟨some "-", true⟩, .uint8 5), (⟨none, true⟩, .uint8 7)]),
    (⟨none, true⟩, .array false [.uint8 0x65, .uint8 0x92, .uint8 0x66])]

/-- The slice of byte slices `[][]uint8{{3}, {1, 2}}`: its elements differ in
length. -/
def sampleRagged : Value :=
  .array true [.array true [.uint8 3], .array true [.uint8 1, .uint8 2]]

/-- The struct of the mixed-order test of the repository,
`{F1 uint32; F2 uint16; F3 uint16; F4 uint16 "BE"; F5 [6]byte "BE"}`, holding the
values the test expects. -/
def sampleMixedEndian : Value :=
  .struct [(⟨none, true⟩, .uint32 0x5ddfab57), (⟨none, true⟩, .uint16 0xdfa1),
    (⟨none, true⟩, .uint16 0x4eaa), (⟨some "BE", true⟩, .uint16 0x96b5),
    (⟨some "BE", true⟩, .array false [.uint8 0x65, .uint8 0x92, .uint8 0x66, .uint8 0xe7,
      .uint8 0x5f, .uint8 0x3a])]

/-! # Lemmas and theorems -/

/-! ## Byte order arithmetic -/

theorem lor_shiftLeft_eq (a b k : Nat) (h : a < 2 ^ k) : a ||| (b <<< k) = a + b * 2 ^ k := by
  rw [Nat.shiftLeft_eq, Nat.lor_comm, Nat.mul_comm b, ← Nat.mul_add_lt_is_or h, Nat.add_comm]

theorem Uint16_eq (o : ByteOrder) (a b : Nat) (ha : a < 256) (hb : b < 256) :
    o.Uint16 [a, b] = match o with
      | .LittleEndian => a + b * 256
      | .BigEndian => a * 256 + b := by
  cases o <;> simp only [ByteOrder.Uint16, List.getD_cons_zero, List.getD_cons_succ]
  · rw [lor_shiftLeft_eq _ _ _ (by omega)]; omega
  · rw [lor_shiftLeft_eq _ _ _ (by omega)]; omega

theorem Uint32_eq (o : ByteOrder) (a b c d : Nat) (ha : a < 256) (hb : b < 256)
    (hc : c < 256) (hd : d < 256) :
    o.Uint32 [a, b, c, d] = match o with
      | .LittleEndian => a + b * 256 + c * 256 ^ 2 + d * 256 ^ 3
      | .BigEndian => a * 256 ^ 3 + b * 256 ^ 2 + c * 256 + d := by
  cases o <;> simp only [ByteOrder.Uint32, List.getD_cons_zero, List.getD_cons_succ]
  · rw [lor_shiftLeft_eq _ _ 8 (by omega), lor_shiftLeft_eq _ _ 16 (by omega),
      lor_shiftLeft_eq _ _ 24 (by omega)]
    omega
  · rw [lor_shiftLeft_eq _ _ 8 (by omega), lor_shiftLeft_eq _ _ 16 (by omega),
      lor_shiftLeft_eq _ _ 24 (by omega)]
    omega

theorem Uint64_eq (o : ByteOrder) (a b c d e f g h : Nat) (ha : a < 256) (hb : b < 256)
    (hc : c < 256) (hd : d < 256) (he : e < 256) (hf : f < 256) (hg : g < 256) (hh : h < 256) :
    o.Uint64 [a, b, c, d, e, f, g, h] = match o with
      | .LittleEndian => a + b * 256 + c * 256 ^ 2 + d * 256 ^ 3 + e * 256 ^ 4 + f * 256 ^ 5
          + g * 256 ^ 6 + h * 256 ^ 7
      | .BigEndian => a * 256 ^ 7 + b * 256 ^ 6 + c * 256 ^ 5 + d * 256 ^ 4 + e * 256 ^ 3
          + f * 256 ^ 2 + g * 256 + h := by
  cases o <;> simp only [ByteOrder.Uint64, List.getD_cons_zero, List.getD_cons_succ]
  · rw [lor_shiftLeft_eq _ _ 8 (by omega), lor_shiftLeft_eq _ _ 16 (by omega),
      lor_shiftLeft_eq _ _ 24 (by omega), lor_shiftLeft_eq _ _ 32 (by omega),
      lor_shiftLeft_eq _ _ 40 (by omega), lor_shiftLeft_eq _ _ 48 (by omega),
      lor_shiftLeft_eq _ _ 56 (by omega)]
    omega
  · rw [lor_shiftLeft_eq _ _ 8 (by omega), lor_shiftLeft_eq _ _ 16 (by omega),
      lor_shiftLeft_eq _ _ 24 (by omega), lor_shiftLeft_eq _ _ 32 (by omega),
      lor_shiftLeft_eq _ _ 40 (by omega), lor_shiftLeft_eq _ _ 48 (by omega),
      lor_shiftLeft_eq _ _ 56 (by omega)]
    omega

theorem Uint16_PutUint16 (o : ByteOrder) (x : Nat) (h : x < 65536) :
    o.Uint16 (o.PutUint16 x) = x := by
  cases o <;> simp only [ByteOrder.PutUint16, byte, Nat.shiftRight_eq_div_pow]
  · rw [Uint16_eq _ _ _ (by omega) (by omega)]; simp only; omega
  · rw [Uint16_eq _ _ _ (by omega) (by omega)]; simp only; omega

theorem Uint32_PutUint32 (o : ByteOrder) (x : Nat) (h : x < 4294967296) :
    o.Uint32 (o.PutUint32 x) = x := by
  cases o <;> simp only [ByteOrder.PutUint32, byte, Nat.shiftRight_eq_div_pow]
  · rw [Uint32_eq _ _ _ _ _ (by omega) (by omega) (by omega) (by omega)]; simp only; omega
  · rw [Uint32_eq _ _ _ _ _ (by omega) (by omega) (by omega) (by omega)]; simp only; omega

theorem Uint64_PutUint64 (o : ByteOrder) (x : Nat) (h : x < 18446744073709551616) :
    o.Uint64 (o.PutUint64 x) = x := by
  cases o <;> simp only [ByteOrder.PutUint64, byte, Nat.shiftRight_eq_div_pow]
  · rw [Uint64_eq _ _ _ _ _ _ _ _ _ (by omega) (by omega) (by omega) (by omega)
      (by omega) (by omega) (by omega) (by omega)]; simp only; omega
  · rw [Uint64_eq _ _ _ _ _ _ _ _ _ (by omega) (by omega) (by omega) (by omega)
      (by omega) (by omega) (by omega) (by omega)]; simp only; omega

theorem setIdx_append (pre post : List Nat) (m x i : Nat) (hi : pre.length = i) :
    setIdx (pre ++ (m :: post)) i x = some (pre ++ (x :: post)) := by
  subst hi
  simp [setIdx]

theorem putWindow_append (w : List Nat) : ∀ (pre mid post : List Nat) (i : Nat),
    pre.length = i → mid.length = w.length →
    putWindow (pre ++ (mid ++ post)) i w = some (pre ++ (w ++ post)) := by
  induction w with
  | nil =>
    intro pre mid post i _ hm
    have : mid = [] := List.length_eq_zero.mp hm
    simp [putWindow, this]
  | cons x w ih =>
    intro pre mid post i hi hm
    cases mid with
    | nil => simp at hm
    | cons m mid =>
      simp only [putWindow, List.cons_append]
      rw [setIdx_append pre (mid ++ post) m x i hi]
      simp only
      have h := ih (pre ++ [x]) mid post (i + 1) (by simp [hi]) (by simpa using hm)
      simpa using h

theorem slice_append (pre w post : List Nat) (i : Nat) (hi : pre.length = i) :
    slice (pre ++ (w ++ post)) i (i + w.length) = some w := by
  subst hi
  simp [slice]

theorem getElem?_append_cons (pre post : List Nat) (x i : Nat) (hi : pre.length = i) :
    (pre ++ (x :: post))[i]? = some x := by
  subst hi
  rw [List.getElem?_append_right (Nat.le_refl _)]
  simp

theorem bytesOf_length (es : List Value) : (bytesOf es).length = es.length := by
  induction es with
  | nil => rfl
  | cons e es ih => simp [bytesOf, ih]

theorem putBytes_forward (index : Nat) (es : List Value) : ∀ (pre mid post : List Nat) (k : Nat),
    pre.length = index + k → mid.length = es.length → (∀ e ∈ es, e.Uint ≠ none) →
    putBytes (fun i => index + i) es k (pre ++ (mid ++ post)) = some (pre ++ (bytesOf es ++ post)) := by
  induction es with
  | nil =>
    intro pre mid post k _ hm _
    have : mid = [] := List.length_eq_zero.mp hm
    simp [putBytes, bytesOf, this]
  | cons e es ih =>
    intro pre mid post k hp hm hu
    cases mid with
    | nil => simp at hm
    | cons m mid =>
      have he := hu e (List.mem_cons_self _ _)
      cases hx : e.Uint with
      | none => exact absurd hx he
      | some x =>
        simp only [putBytes, hx, List.cons_append]
        rw [setIdx_append pre (mid ++ post) m (byte x) (index + k) hp]
        simp only
        have h := ih (pre ++ [byte x]) mid post (k + 1) (by simp [hp]; omega) (by simpa using hm)
          (fun e' he' => hu e' (List.mem_cons_of_mem _ he'))
        simpa [bytesOf, hx] using h

theorem putBytes_backward (index n : Nat) (es : List Value) :
    ∀ (pre mid post : List Nat) (k : Nat),
    k + es.length ≤ n → pre.length + k + es.length = index + n → mid.length = es.length →
    (∀ e ∈ es, e.Uint ≠ none) →
    putBytes (fun i => index + n - 1 - i) es k (pre ++ (mid ++ post))
      = some (pre ++ ((bytesOf es).reverse ++ post)) := by
  induction es with
  | nil =>
    intro pre mid post k _ _ hm _
    have : mid = [] := List.length_eq_zero.mp hm
    simp [putBytes, bytesOf, this]
  | cons e es ih =>
    intro pre mid post k hk hp hm hu
    have he := hu e (List.mem_cons_self _ _)
    cases hx : e.Uint with
    | none => exact absurd hx he
    | some x =>
      obtain ⟨mid1, m, rfl⟩ : ∃ mid1 m, mid = mid1 ++ [m] := by
        rcases List.eq_nil_or_concat mid with h | ⟨l, a, h⟩
        · subst h; simp at hm
        · exact ⟨l, a, by simpa using h⟩
      simp only [List.length_cons, List.length_append, List.length_nil] at hk hp hm
      simp only [putBytes, hx]
      have hs : setIdx (pre ++ (mid1 ++ [m] ++ post)) (index + n - 1 - k) (byte x)
          = some (pre ++ (mid1 ++ (byte x :: post))) := by
        have := setIdx_append (pre ++ mid1) post m (byte x) (index + n - 1 - k)
          (by simp; omega)
        simpa using this
      rw [hs]
      simp only
      have h := ih pre mid1 (byte x :: post) (k + 1) (by omega) (by omega) (by omega)
        (fun e' he' => hu e' (List.mem_cons_of_mem _ he'))
      rw [h]
      simp [bytesOf, hx]

theorem setBytes_uint8 : ∀ (es : List Value) (w : List Nat),
    es.length = w.length → (∀ e ∈ es, e.isUint8 = true) →
    setBytes es w = some (w.map Value.uint8)
  | [], [], _, _ => by simp [setBytes]
  | [], _ :: _, h, _ => by simp at h
  | _ :: _, [], h, _ => by simp at h
  | e :: es, x :: w, h, hu => by
    have he := hu e (List.mem_cons_self _ _)
    cases e <;> simp [Value.isUint8] at he
    simp only [setBytes]
    rw [setBytes_uint8 es w (by simpa using h) (fun e' he' => hu e' (List.mem_cons_of_mem _ he'))]
    simp

/-! ### One iteration of the field loops, by directive -/

theorem writeFields_ignored (f : StructField) (x : Value) (rest : List (StructField × Value))
    (o : ByteOrder) (b : List Nat) (i : Nat) (h : f.ignored = true) :
    writeFields ((f, x) :: rest) o b i = writeFields rest o b i := by
  unfold StructField.ignored at h
  rw [writeFields]
  cases hc : parseStructTag f.Tag with
  | none => rw [hc] at h; simp at h
  | some cnf => rw [hc] at h; simp only at h; simp [h]

theorem writeFields_skipped (f : StructField) (x : Value) (rest : List (StructField × Value))
    (o : ByteOrder) (b : List Nat) (i : Nat) (h : f.skipped = true) :
    writeFields ((f, x) :: rest) o b i =
      match sizeOfValue x true with
      | none => none
      | some n => writeFields rest o b (i + n) := by
  unfold StructField.skipped at h
  rw [writeFields]
  cases hc : parseStructTag f.Tag with
  | none => rw [hc] at h; simp at h
  | some cnf => rw [hc] at h; simp at h; simp [h]

theorem writeFields_through (f : StructField) (x : Value) (rest : List (StructField × Value))
    (o : ByteOrder) (b : List Nat) (i : Nat) (h1 : f.ignored = false) (h2 : f.skipped = false) :
    writeFields ((f, x) :: rest) o b i =
      match write x (f.orderUnder o) b f.exported i with
      | none => none
      | some r => if fatal r.err then some r else writeFields rest o r.val r.index := by
  unfold StructField.ignored at h1
  unfold StructField.skipped at h2
  unfold StructField.orderUnder
  rw [writeFields]
  cases hc : parseStructTag f.Tag with
  | none => simp
  | some cnf =>
    rw [hc] at h1 h2
    simp only at h1
    simp [h1] at h2
    simp only [h1, h2]
    by_cases he : cnf.endian = Endian_Type_BLANK
    · simp [he]
    · by_cases hb : cnf.endian = Endian_Type_BE
      · simp [he, hb, forcedOrder]; rfl
      · simp [he, hb, forcedOrder]

theorem readFields_ignored (b : List Nat) (o : ByteOrder) (f : StructField) (x : Value)
    (rest : List (StructField × Value)) (cs : Bool) (i : Nat) (h : f.ignored = true) :
    readFields b o ((f, x) :: rest) cs i =
      match readFields b o rest cs i with
      | none => none
      | some rs => some ⟨(f, x) :: rs.val, rs.index, rs.err⟩ := by
  unfold StructField.ignored at h
  rw [readFields]
  cases hc : parseStructTag f.Tag with
  | none => rw [hc] at h; simp at h
  | some cnf => rw [hc] at h; simp only at h; simp [h]

theorem readFields_skipped (b : List Nat) (o : ByteOrder) (f : StructField) (x : Value)
    (rest : List (StructField × Value)) (cs : Bool) (i : Nat) (h : f.skipped = true) :
    readFields b o ((f, x) :: rest) cs i =
      match sizeOfValue x true with
      | none => none
      | some n =>
        match readFields b o rest cs n with
        | none => none
        | some rs => some ⟨(f, x) :: rs.val, rs.index, rs.err⟩ := by
  unfold StructField.skipped at h
  rw [readFields]
  cases hc : parseStructTag f.Tag with
  | none => rw [hc] at h; simp at h
  | some cnf => rw [hc] at h; simp at h; simp [h]

theorem readFields_through (b : List Nat) (o : ByteOrder) (f : StructField) (x : Value)
    (rest : List (StructField × Value)) (cs : Bool) (i : Nat)
    (h1 : f.ignored = false) (h2 : f.skipped = false) :
    readFields b o ((f, x) :: rest) cs i =
      match read b (f.orderUnder o) x f.exported (cs && f.exported) i with
      | none => none
      | some r =>
        if fatal r.err then some ⟨(f, r.val) :: rest, r.index, r.err⟩
        else
          match readFields b o rest cs r.index with
          | none => none
          | some rs => some ⟨(f, r.val) :: rs.val, rs.index, rs.err⟩ := by
  unfold StructField.ignored at h1
  unfold StructField.skipped at h2
  unfold StructField.orderUnder
  rw [readFields]
  cases hc : parseStructTag f.Tag with
  | none => simp
  | some cnf =>
    rw [hc] at h1 h2
    simp only at h1
    simp [h1] at h2
    simp only [h1, h2]
    by_cases he : cnf.endian = Endian_Type_BLANK
    · simp [he]
    · simp [he]

/-! ### Size calculator -/

mutual
theorem sizeOfValueRecursive_acc (c : Nat) : ∀ (v : Value) (t : Bool),
    sizeOfValueRecursive c v t = (sizeOfValueRecursive 0 v t).map (fun n => c + n)
  | .uint8 _, _ => by simp [sizeOfValueRecursive]
  | .uint16 _, _ => by simp [sizeOfValueRecursive]
  | .uint32 _, _ => by simp [sizeOfValueRecursive]
  | .uint64 _, _ => by simp [sizeOfValueRecursive]
  | .other bits, _ => by cases bits <;> simp [sizeOfValueRecursive]
  | .array _ [], _ => by simp [sizeOfValueRecursive]
  | .array _ (e :: es), t => by
    simp only [sizeOfValueRecursive]
    cases sizeOfValueRecursive 0 e t <;> simp
  | .struct fs, t => by
    simp only [sizeOfValueRecursive]
    exact sizeOfFields_acc c fs t
theorem sizeOfFields_acc (c : Nat) : ∀ (fs : List (StructField × Value)) (t : Bool),
    sizeOfFields c fs t = (sizeOfFields 0 fs t).map (fun n => c + n)
  | [], _ => by simp [sizeOfFields]
  | (f, x) :: rest, true => by
    simp only [sizeOfFields]
    cases parseStructTag f.Tag with
    | none =>
      simp only
      rw [sizeOfValueRecursive_acc c x true]
      cases h : sizeOfValueRecursive 0 x true with
      | none => simp
      | some k =>
        simp only [Option.map_some']
        rw [sizeOfFields_acc (c + k) rest true, sizeOfFields_acc k rest true]
        cases sizeOfFields 0 rest true <;> simp [Nat.add_assoc]
    | some cnf =>
      simp only
      split
      · exact sizeOfFields_acc c rest true
      · rw [sizeOfValueRecursive_acc c x true]
        cases h : sizeOfValueRecursive 0 x true with
        | none => simp
        | some k =>
          simp only [Option.map_some']
          rw [sizeOfFields_acc (c + k) rest true, sizeOfFields_acc k rest true]
          cases sizeOfFields 0 rest true <;> simp [Nat.add_assoc]
  | (f, x) :: rest, false => by
    simp only [sizeOfFields]
    rw [sizeOfValueRecursive_acc c x false]
    cases h : sizeOfValueRecursive 0 x false with
    | none => simp
    | some k =>
      simp only [Option.map_some']
      rw [sizeOfFields_acc (c + k) rest false, sizeOfFields_acc k rest false]
      cases sizeOfFields 0 rest false <;> simp [Nat.add_assoc]
end

theorem sizeOfValue_acc (c : Nat) (v : Value) (t : Bool) :
    sizeOfValueRecursive c v t = (sizeOfValue v t).map (fun n => c + n) :=
  sizeOfValueRecursive_acc c v t

theorem sizeOfFields_cons_true (c : Nat) (f : StructField) (x : Value)
    (rest : List (StructField × Value)) :
    sizeOfFields c ((f, x) :: rest) true =
      if f.ignored then sizeOfFields c rest true
      else match sizeOfValue x true with
        | none => none
        | some n => sizeOfFields (c + n) rest true := by
  unfold StructField.ignored
  rw [sizeOfFields, sizeOfValue_acc]
  cases hc : parseStructTag f.Tag with
  | none => cases sizeOfValue x true <;> simp
  | some cnf =>
    cases hi : cnf.ignore
    · cases sizeOfValue x true <;> simp [hi]
    · simp [hi]

theorem sizeOfFields_cons_false (c : Nat) (f : StructField) (x : Value)
    (rest : List (StructField × Value)) :
    sizeOfFields c ((f, x) :: rest) false =
      match sizeOfValue x false with
      | none => none
      | some n => sizeOfFields (c + n) rest false := by
  rw [sizeOfFields, sizeOfValue_acc]
  cases sizeOfValue x false <;> simp

theorem zeroElems_length (es : List Value) : (zeroElems es).length = es.length := by
  induction es with
  | nil => simp [zeroElems]
  | cons e es ih => simp [zeroElems, ih]

mutual
theorem sizeOfValueRecursive_zero : ∀ (v : Value) (c : Nat) (t : Bool),
    sizeOfValueRecursive c v.zero t = sizeOfValueRecursive c v t
  | .uint8 _, _, _ => by simp [Value.zero, sizeOfValueRecursive]
  | .uint16 _, _, _ => by simp [Value.zero, sizeOfValueRecursive]
  | .uint32 _, _, _ => by simp [Value.zero, sizeOfValueRecursive]
  | .uint64 _, _, _ => by simp [Value.zero, sizeOfValueRecursive]
  | .other _, _, _ => by simp [Value.zero]
  | .array _ [], _, _ => by simp [Value.zero, zeroElems, sizeOfValueRecursive]
  | .array _ (e :: es), c, t => by
    simp only [Value.zero, zeroElems, sizeOfValueRecursive, zeroElems_length]
    rw [sizeOfValueRecursive_zero e 0 t]
  | .struct fs, c, t => by
    simp only [Value.zero, sizeOfValueRecursive]
    exact sizeOfFields_zero fs c t
theorem sizeOfFields_zero : ∀ (fs : List (StructField × Value)) (c : Nat) (t : Bool),
    sizeOfFields c (zeroFields fs) t = sizeOfFields c fs t
  | [], _, _ => by simp [zeroFields]
  | (f, x) :: rest, c, true => by
    simp only [zeroFields, sizeOfFields_cons_true, sizeOfValue]
    rw [sizeOfValueRecursive_zero x 0 true]
    split
    · exact sizeOfFields_zero rest c true
    · cases sizeOfValueRecursive 0 x true with
      | none => rfl
      | some n => exact sizeOfFields_zero rest (c + n) true
  | (f, x) :: rest, c, false => by
    simp only [zeroFields, sizeOfFields_cons_false, sizeOfValue]
    rw [sizeOfValueRecursive_zero x 0 false]
    cases sizeOfValueRecursive 0 x false with
    | none => rfl
    | some n => exact sizeOfFields_zero rest (c + n) false
end

theorem sizeOfValue_of_zero_eq {a b : Value} (h : a.zero = b.zero) (t : Bool) :
    sizeOfValue a t = sizeOfValue b t := by
  unfold sizeOfValue
  rw [← sizeOfValueRecursive_zero a 0 t, h, sizeOfValueRecursive_zero b 0 t]

theorem isUint8_of_zero_eq {a b : Value} (h : a.zero = b.zero) : a.isUint8 = b.isUint8 := by
  cases a <;> cases b <;> simp [Value.zero] at h <;> rfl

theorem CodedElems_mem : ∀ (es : List Value) (z : Value), CodedElems z es = true →
    ∀ e ∈ es, Coded e = true ∧ e.zero = z
  | [], _, _ => by simp
  | e :: es, z, h => by
    simp only [CodedElems, Bool.and_eq_true, decide_eq_true_eq] at h
    intro e' he'
    rcases List.mem_cons.mp he' with rfl | hm
    · exact ⟨h.1.1, h.1.2⟩
    · exact CodedElems_mem es z h.2 e' hm

theorem Coded_uint8 {e : Value} (hc : Coded e = true) (hu : e.isUint8 = true) :
    ∃ x, e = .uint8 x ∧ x < 256 := by
  cases e <;> simp [Value.isUint8] at hu
  simp only [Coded, decide_eq_true_eq] at hc
  exact ⟨_, rfl, hc⟩

theorem bytesOf_coded : ∀ (es : List Value),
    (∀ e ∈ es, Coded e = true ∧ e.isUint8 = true) → (bytesOf es).map Value.uint8 = es
  | [], _ => by simp [bytesOf]
  | e :: es, h => by
    obtain ⟨x, rfl, hx⟩ := Coded_uint8 (h e (List.mem_cons_self _ _)).1 (h e (List.mem_cons_self _ _)).2
    simp only [bytesOf, Value.Uint, Option.getD_some, byte, List.map_cons]
    rw [bytesOf_coded es (fun e' he' => h e' (List.mem_cons_of_mem _ he'))]
    rw [Nat.mod_eq_of_lt hx]

mutual
theorem zero_zero : ∀ (v : Value), v.zero.zero = v.zero
  | .uint8 _ => rfl
  | .uint16 _ => rfl
  | .uint32 _ => rfl
  | .uint64 _ => rfl
  | .other _ => rfl
  | .array s es => by simp only [Value.zero]; rw [zeroElems_zero es]
  | .struct fs => by simp only [Value.zero]; rw [zeroFields_zero fs]
theorem zeroElems_zero : ∀ (es : List Value), zeroElems (zeroElems es) = zeroElems es
  | [] => rfl
  | e :: es => by simp only [zeroElems]; rw [zero_zero e, zeroElems_zero es]
theorem zeroFields_zero : ∀ (fs : List (StructField × Value)),
    zeroFields (zeroFields fs) = zeroFields fs
  | [] => rfl
  | (f, x) :: rest => by simp only [zeroFields]; rw [zero_zero x, zeroFields_zero rest]
end

theorem PutUint16_length (o : ByteOrder) (x : Nat) : (o.PutUint16 x).length = 2 := by
  cases o <;> rfl
theorem PutUint32_length (o : ByteOrder) (x : Nat) : (o.PutUint32 x).length = 4 := by
  cases o <;> rfl
theorem PutUint64_length (o : ByteOrder) (x : Nat) : (o.PutUint64 x).length = 8 := by
  cases o <;> rfl

theorem enc_bytes_length (o : ByteOrder) (s : Bool) (e : Value) (es : List Value)
    (h : e.isUint8 = true) : (enc o (.array s (e :: es))).length = es.length + 1 := by
  simp only [enc, h, if_true]
  split <;> simp [bytesOf_length]

mutual
theorem size_coded : ∀ (v : Value), Coded v = true →
    ∀ o, sizeOfValue v true = some (enc o v).length
  | .uint8 _, _, _ => by simp [sizeOfValue, sizeOfValueRecursive, enc]
  | .uint16 _, _, o => by simp [sizeOfValue, sizeOfValueRecursive, enc, PutUint16_length]
  | .uint32 _, _, o => by simp [sizeOfValue, sizeOfValueRecursive, enc, PutUint32_length]
  | .uint64 _, _, o => by simp [sizeOfValue, sizeOfValueRecursive, enc, PutUint64_length]
  | .other _, h, _ => by simp [Coded] at h
  | .array _ [], h, _ => by simp [Coded] at h
  | .array s (e :: es), h, o => by
    simp only [Coded, Bool.and_eq_true] at h
    have he := size_coded e h.1 o
    have hz : sizeOfValue e.zero true = some (enc o e).length := by
      rw [← he]; exact sizeOfValue_of_zero_eq (by simp [zero_zero]) true
    have hes := size_codedElems es e.zero h.2 _ hz o
    rw [sizeOfValue, sizeOfValueRecursive]
    rw [sizeOfValue] at he
    rw [he]
    cases hu : e.isUint8
    · simp only [enc, hu, encElems, List.length_append, hes]
      simp [Nat.mul_succ, Nat.add_comm, hes]
    · rw [enc_bytes_length o s e es hu]
      obtain ⟨x, rfl, _⟩ := Coded_uint8 h.1 hu
      simp [enc]
  | .struct fs, h, o => by
    simp only [Coded] at h
    have := size_codedFields fs h o 0
    simpa [sizeOfValue, sizeOfValueRecursive, enc] using this
theorem size_codedElems : ∀ (es : List Value) (z : Value), CodedElems z es = true →
    ∀ k, sizeOfValue z true = some k → ∀ o, (encElems o es).length = k * es.length
  | [], _, _, _, _, _ => by simp [encElems]
  | e :: es, z, h, k, hk, o => by
    simp only [CodedElems, Bool.and_eq_true, decide_eq_true_eq] at h
    have he := size_coded e h.1.1 o
    have hz : sizeOfValue e true = some k := by
      rw [← hk]; exact sizeOfValue_of_zero_eq (by rw [← h.1.2, zero_zero]) true
    rw [he] at hz
    have hes := size_codedElems es z h.2 k hk o
    simp only [encElems, List.length_append, hes, List.length_cons]
    simp only [Option.some.injEq] at hz
    rw [hz, Nat.mul_succ, Nat.add_comm]
theorem size_codedFields : ∀ (fs : List (StructField × Value)), CodedFields fs = true →
    ∀ o c, sizeOfFields c fs true = some (c + (encFields o fs).length)
  | [], _, _, _ => by simp [sizeOfFields, encFields]
  | (f, x) :: rest, h, o, c => by
    simp only [CodedFields, Bool.and_eq_true, Bool.or_eq_true] at h
    rw [sizeOfFields_cons_true, encFields]
    cases hi : f.ignored
    · have hx : Coded x = true := by
        rcases h.1.2 with h' | h'
        · rw [hi] at h'; cases h'
        · exact h'
      have he := size_coded x hx (f.orderUnder o)
      rw [he]
      simp only [Bool.false_eq_true, if_false, List.length_append]
      rw [size_codedFields rest h.2 o, Nat.add_assoc]
    · simp only [if_true, List.nil_append]
      exact size_codedFields rest h.2 o c
end

theorem split_length (mid : List Nat) (l1 l2 : Nat) (h : mid.length = l1 + l2) :
    ∃ m1 m2, mid = m1 ++ m2 ∧ m1.length = l1 ∧ m2.length = l2 :=
  ⟨mid.take l1, mid.drop l1, (List.take_append_drop l1 mid).symm,
    by simp [List.length_take]; omega, by simp [List.length_drop]; omega⟩

theorem fatal_none : fatal none = false := rfl

theorem coded_bytes_uint (e : Value) (es : List Value) (h1 : Coded e = true)
    (h2 : CodedElems e.zero es = true) (hu : e.isUint8 = true) :
    ∀ e' ∈ e :: es, Coded e' = true ∧ e'.isUint8 = true := by
  intro e' he'
  rcases List.mem_cons.mp he' with rfl | hm
  · exact ⟨h1, hu⟩
  · have := CodedElems_mem es e.zero h2 e' hm
    exact ⟨this.1, by rw [isUint8_of_zero_eq this.2]; exact hu⟩

theorem uint_of_isUint8 {e : Value} (h : e.isUint8 = true) : e.Uint ≠ none := by
  cases e <;> simp [Value.isUint8] at h
  simp [Value.Uint]

mutual
theorem write_coded : ∀ (v : Value), Coded v = true →
    ∀ (o : ByteOrder) (pre mid post : List Nat) (i : Nat),
    pre.length = i → mid.length = (enc o v).length →
    write v o (pre ++ (mid ++ post)) true i
      = some ⟨pre ++ (enc o v ++ post), i + (enc o v).length, none⟩
  | .uint8 x, _, o, pre, mid, post, i, hi, hm => by
    simp only [enc, List.length_singleton] at hm
    obtain ⟨m, rfl⟩ := List.length_eq_one.mp hm
    simp only [write, enc, List.singleton_append, List.length_singleton]
    rw [setIdx_append pre post m x i hi]
  | .uint16 x, _, o, pre, mid, post, i, hi, hm => by
    simp only [enc] at hm
    simp only [write, enc, putWindow_append _ pre mid post i hi hm, PutUint16_length]
  | .uint32 x, _, o, pre, mid, post, i, hi, hm => by
    simp only [enc] at hm
    simp only [write, enc, putWindow_append _ pre mid post i hi hm, PutUint32_length]
  | .uint64 x, _, o, pre, mid, post, i, hi, hm => by
    simp only [enc] at hm
    simp only [write, enc, putWindow_append _ pre mid post i hi hm, PutUint64_length]
  | .other _, h, _, _, _, _, _, _, _ => by simp [Coded] at h
  | .array _ [], h, _, _, _, _, _, _, _ => by simp [Coded] at h
  | .array s (e :: es), h, o, pre, mid, post, i, hi, hm => by
    simp only [Coded, Bool.and_eq_true] at h
    cases hu : e.isUint8
    · have hc : CodedElems e.zero (e :: es) = true := by
        simp [CodedElems, h.1, h.2]
      simp only [enc, hu] at hm ⊢
      simp only [write, hu]
      exact writeElems_coded (e :: es) e.zero hc o pre mid post i hi hm
    · have hall := coded_bytes_uint e es h.1 h.2 hu
      have hU : ∀ e' ∈ e :: es, e'.Uint ≠ none := fun e' he' => uint_of_isUint8 (hall e' he').2
      rw [enc_bytes_length o s e es hu] at hm
      simp only [write, hu, if_true]
      rw [enc_bytes_length o s e es hu]
      cases o with
      | LittleEndian =>
        have := putBytes_forward i (e :: es) pre mid post 0 (by simpa using hi)
          (by simpa using hm) hU
        simp [this, enc, hu]
      | BigEndian =>
        have := putBytes_backward i (es.length + 1) (e :: es) pre mid post 0 (by simp)
          (by simp [hi]) (by simpa using hm) hU
        simp only [↓reduceIte]
        rw [this]
        simp [enc, hu]
  | .struct fs, h, o, pre, mid, post, i, hi, hm => by
    simp only [Coded] at h
    simp only [enc] at hm ⊢
    simp only [write]
    exact writeFields_coded fs h o pre mid post i hi hm
theorem writeElems_coded : ∀ (es : List Value) (z : Value), CodedElems z es = true →
    ∀ (o : ByteOrder) (pre mid post : List Nat) (i : Nat),
    pre.length = i → mid.length = (encElems o es).length →
    writeElems es o (pre ++ (mid ++ post)) i
      = some ⟨pre ++ (encElems o es ++ post), i + (encElems o es).length, none⟩
  | [], _, _, o, pre, mid, post, i, hi, hm => by
    simp only [encElems, List.length_nil] at hm
    have : mid = [] := List.length_eq_zero.mp hm
    simp [writeElems, encElems, this]
  | e :: es, z, h, o, pre, mid, post, i, hi, hm => by
    simp only [CodedElems, Bool.and_eq_true, decide_eq_true_eq] at h
    simp only [encElems, List.length_append] at hm
    obtain ⟨m1, m2, rfl, h1, h2⟩ := split_length mid _ _ hm
    have hw := write_coded e h.1.1 o pre m1 (m2 ++ post) i hi h1
    have hr := writeElems_coded es z h.2 o (pre ++ enc o e) m2 post (i + (enc o e).length)
      (by simp [hi]) h2
    simp only [List.append_assoc] at hw hr ⊢
    simp only [writeElems, hw, fatal_none, Bool.false_eq_true, if_false, hr, encElems,
      List.append_assoc, List.length_append, Nat.add_assoc]
theorem writeFields_coded : ∀ (fs : List (StructField × Value)), CodedFields fs = true →
    ∀ (o : ByteOrder) (pre mid post : List Nat) (i : Nat),
    pre.length = i → mid.length = (encFields o fs).length →
    writeFields fs o (pre ++ (mid ++ post)) i
      = some ⟨pre ++ (encFields o fs ++ post), i + (encFields o fs).length, none⟩
  | [], _, o, pre, mid, post, i, hi, hm => by
    simp only [encFields, List.length_nil] at hm
    have : mid = [] := List.length_eq_zero.mp hm
    simp [writeFields, encFields, this]
  | (f, x) :: rest, h, o, pre, mid, post, i, hi, hm => by
    simp only [CodedFields, Bool.and_eq_true, Bool.or_eq_true, Bool.not_eq_true'] at h
    obtain ⟨⟨⟨hexp, hskip⟩, hx⟩, hrest⟩ := h
    cases hig : f.ignored
    · have hx : Coded x = true := by
        rcases hx with h' | h'
        · rw [hig] at h'; cases h'
        · exact h'
      simp only [encFields, hig, Bool.false_eq_true, if_false, List.length_append] at hm
      obtain ⟨m1, m2, rfl, h1, h2⟩ := split_length mid _ _ hm
      have hw := write_coded x hx (f.orderUnder o) pre m1 (m2 ++ post) i hi h1
      have hr := writeFields_coded rest hrest o (pre ++ enc (f.orderUnder o) x) m2 post
        (i + (enc (f.orderUnder o) x).length) (by simp [hi]) h2
      simp only [List.append_assoc] at hw hr ⊢
      rw [writeFields_through f x rest o _ i hig hskip, hexp, hw]
      simp only [fatal_none, Bool.false_eq_true, if_false, hr, encFields, hig,
        List.append_assoc, List.length_append, Nat.add_assoc]
    · simp only [encFields, hig, if_true, List.nil_append] at hm ⊢
      rw [writeFields_ignored f x rest o _ i hig]
      exact writeFields_coded rest hrest o pre mid post i hi hm
end

theorem zeroElems_eq_cons {ts : List Value} {e : Value} {es : List Value}
    (h : zeroElems ts = zeroElems (e :: es)) :
    ∃ t0 ts1, ts = t0 :: ts1 ∧ t0.zero = e.zero ∧ zeroElems ts1 = zeroElems es := by
  cases ts with
  | nil => simp [zeroElems] at h
  | cons t0 ts1 =>
    simp only [zeroElems, List.cons.injEq] at h
    exact ⟨t0, ts1, rfl, h.1, h.2⟩

theorem zeroElems_eq_nil {ts : List Value} (h : zeroElems ts = zeroElems []) : ts = [] := by
  cases ts with
  | nil => rfl
  | cons t0 ts1 => simp [zeroElems] at h

theorem zeroFields_eq_cons {gs : List (StructField × Value)} {f : StructField} {x : Value}
    {rest : List (StructField × Value)} (h : zeroFields gs = zeroFields ((f, x) :: rest)) :
    ∃ y gs1, gs = (f, y) :: gs1 ∧ y.zero = x.zero ∧ zeroFields gs1 = zeroFields rest := by
  cases gs with
  | nil => simp [zeroFields] at h
  | cons g gs1 =>
    obtain ⟨g, y⟩ := g
    simp only [zeroFields, List.cons.injEq, Prod.mk.injEq] at h
    obtain ⟨⟨rfl, hy⟩, hr⟩ := h
    exact ⟨y, gs1, rfl, hy, hr⟩

theorem zeroFields_eq_nil {gs : List (StructField × Value)}
    (h : zeroFields gs = zeroFields []) : gs = [] := by
  cases gs with
  | nil => rfl
  | cons g gs1 => obtain ⟨g, y⟩ := g; simp [zeroFields] at h

theorem zeroElems_same : ∀ (es ts : List Value), zeroElems ts = zeroElems es →
    ts.length = es.length ∧ ((∀ e ∈ es, e.isUint8 = true) → ∀ t ∈ ts, t.isUint8 = true)
  | [], ts, h => by rw [zeroElems_eq_nil h]; simp
  | e :: es, ts, h => by
    obtain ⟨t0, ts1, rfl, h0, h1⟩ := zeroElems_eq_cons h
    have ih := zeroElems_same es ts1 h1
    refine ⟨by simp [ih.1], ?_⟩
    intro hall t ht
    rcases List.mem_cons.mp ht with rfl | hm
    · rw [isUint8_of_zero_eq h0]; exact hall e (List.mem_cons_self _ _)
    · exact ih.2 (fun e' he' => hall e' (List.mem_cons_of_mem _ he')) t hm

theorem overlayElems_bytes : ∀ (es ts : List Value), ts.length = es.length →
    (∀ e ∈ es, e.isUint8 = true) → overlayElems es ts = es
  | [], [], _, _ => by simp [overlayElems]
  | [], _ :: _, h, _ => by simp at h
  | _ :: _, [], h, _ => by simp at h
  | e :: es, t :: ts, h, hall => by
    have he := hall e (List.mem_cons_self _ _)
    cases e <;> simp [Value.isUint8] at he
    simp only [overlayElems, overlay]
    rw [overlayElems_bytes es ts (by simpa using h)
      (fun e' he' => hall e' (List.mem_cons_of_mem _ he'))]

theorem setPrimitive_true (v val : Value) (i : Nat) :
    setPrimitive v val true i = ⟨val, i, none⟩ := rfl

mutual
theorem read_coded : ∀ (v : Value), Coded v = true → ∀ (t : Value), t.zero = v.zero →
    ∀ (o : ByteOrder) (pre post : List Nat) (i : Nat), pre.length = i →
    read (pre ++ (enc o v ++ post)) o t true true i
      = some ⟨overlay v t, i + (enc o v).length, none⟩
  | .uint8 x, _, t, ht, o, pre, post, i, hi => by
    cases t <;> simp [Value.zero] at ht
    simp only [read, enc, List.singleton_append, getElem?_append_cons pre post x i hi,
      setPrimitive_true, overlay, List.length_singleton]
  | .uint16 x, h, t, ht, o, pre, post, i, hi => by
    cases t <;> simp [Value.zero] at ht
    simp only [Coded, decide_eq_true_eq] at h
    have hs := slice_append pre (o.PutUint16 x) post i hi
    rw [PutUint16_length] at hs
    simp only [read, enc, hs, setPrimitive_true, overlay, PutUint16_length,
      Uint16_PutUint16 o x h]
  | .uint32 x, h, t, ht, o, pre, post, i, hi => by
    cases t <;> simp [Value.zero] at ht
    simp only [Coded, decide_eq_true_eq] at h
    have hs := slice_append pre (o.PutUint32 x) post i hi
    rw [PutUint32_length] at hs
    simp only [read, enc, hs, setPrimitive_true, overlay, PutUint32_length,
      Uint32_PutUint32 o x h]
  | .uint64 x, h, t, ht, o, pre, post, i, hi => by
    cases t <;> simp [Value.zero] at ht
    simp only [Coded, decide_eq_true_eq] at h
    have hs := slice_append pre (o.PutUint64 x) post i hi
    rw [PutUint64_length] at hs
    simp only [read, enc, hs, setPrimitive_true, overlay, PutUint64_length,
      Uint64_PutUint64 o x h]
  | .other _, h, _, _, _, _, _, _, _ => by simp [Coded] at h
  | .array _ [], h, _, _, _, _, _, _, _ => by simp [Coded] at h
  | .array s (e :: es), h, t, ht, o, pre, post, i, hi => by
    simp only [Coded, Bool.and_eq_true] at h
    cases t <;> simp only [Value.zero, Value.array.injEq, reduceCtorEq] at ht
    rename_i s1 ts
    obtain ⟨rfl, hts⟩ := ht
    obtain ⟨t0, ts1, rfl, h0, h1⟩ := zeroElems_eq_cons hts
    have hlen := (zeroElems_same es ts1 h1).1
    cases hu : e.isUint8
    · have hc : CodedElems e.zero (e :: es) = true := by
        simp [CodedElems, h.1, h.2]
      have hr := readElems_coded (e :: es) e.zero hc (t0 :: ts1) hts o pre post i hi
      have hu0 : t0.isUint8 = false := by rw [isUint8_of_zero_eq h0]; exact hu
      simp only [enc, hu] at hr ⊢
      simp only [read, hu0, Bool.or_true, Bool.false_eq_true, if_false, hr, overlay]
    · have hall := coded_bytes_uint e es h.1 h.2 hu
      have hu0 : t0.isUint8 = true := by rw [isUint8_of_zero_eq h0]; exact hu
      have hT : ∀ t ∈ t0 :: ts1, t.isUint8 = true :=
        (zeroElems_same (e :: es) (t0 :: ts1) hts).2 (fun e' he' => (hall e' he').2)
      have hs := slice_append pre (enc o (.array s1 (e :: es))) post i hi
      rw [enc_bytes_length o s1 e es hu] at hs
      have hsb : setBytes (t0 :: ts1) (bytesOf (e :: es)) = some (e :: es) := by
        rw [setBytes_uint8 (t0 :: ts1) (bytesOf (e :: es)) (by simp [bytesOf_length, hlen]) hT,
          bytesOf_coded (e :: es) hall]
      have hov : overlayElems (e :: es) (t0 :: ts1) = e :: es :=
        overlayElems_bytes (e :: es) (t0 :: ts1) (by simp [hlen]) (fun e' he' => (hall e' he').2)
      rw [enc_bytes_length o s1 e es hu]
      simp only [read, hu0, if_true, hlen, hs, Bool.or_true, overlay, hov]
      cases o with
      | LittleEndian =>
        simp only [enc, hu, if_true, reduceCtorEq, if_false, hsb]
      | BigEndian =>
        simp only [enc, hu, if_true, List.reverse_reverse, hsb]
  | .struct fs, h, t, ht, o, pre, post, i, hi => by
    simp only [Coded] at h
    cases t <;> simp only [Value.zero, Value.struct.injEq, reduceCtorEq] at ht
    rename_i gs
    have hr := readFields_coded fs h gs ht o pre post i hi
    simp only [enc] at hr ⊢
    simp only [read, hr, overlay]
theorem readElems_coded : ∀ (es : List Value) (z : Value), CodedElems z es = true →
    ∀ (ts : List Value), zeroElems ts = zeroElems es →
    ∀ (o : ByteOrder) (pre post : List Nat) (i : Nat), pre.length = i →
    readElems (pre ++ (encElems o es ++ post)) o ts true i
      = some ⟨overlayElems es ts, i + (encElems o es).length, none⟩
  | [], _, _, ts, hts, o, pre, post, i, hi => by
    rw [zeroElems_eq_nil hts]
    simp [readElems, overlayElems, encElems]
  | e :: es, z, h, ts, hts, o, pre, post, i, hi => by
    simp only [CodedElems, Bool.and_eq_true, decide_eq_true_eq] at h
    obtain ⟨t0, ts1, rfl, h0, h1⟩ := zeroElems_eq_cons hts
    have hw := read_coded e h.1.1 t0 h0 o pre (encElems o es ++ post) i hi
    have hr := readElems_coded es z h.2 ts1 h1 o (pre ++ enc o e) post
      (i + (enc o e).length) (by simp [hi])
    simp only [List.append_assoc] at hw hr ⊢
    simp only [readElems, encElems, List.append_assoc, hw, fatal_none, Bool.false_eq_true,
      if_false, hr, overlayElems, List.length_append, Nat.add_assoc]
theorem readFields_coded : ∀ (fs : List (StructField × Value)), CodedFields fs = true →
    ∀ (gs : List (StructField × Value)), zeroFields gs = zeroFields fs →
    ∀ (o : ByteOrder) (pre post : List Nat) (i : Nat), pre.length = i →
    readFields (pre ++ (encFields o fs ++ post)) o gs true i
      = some ⟨overlayFields fs gs, i + (encFields o fs).length, none⟩
  | [], _, gs, hgs, o, pre, post, i, hi => by
    rw [zeroFields_eq_nil hgs]
    simp [readFields, overlayFields, encFields]
  | (f, x) :: rest, h, gs, hgs, o, pre, post, i, hi => by
    simp only [CodedFields, Bool.and_eq_true, Bool.or_eq_true, Bool.not_eq_true'] at h
    obtain ⟨⟨⟨hexp, hskip⟩, hx⟩, hrest⟩ := h
    obtain ⟨y, gs1, rfl, hy, h1⟩ := zeroFields_eq_cons hgs
    cases hig : f.ignored
    · have hx : Coded x = true := by
        rcases hx with h' | h'
        · rw [hig] at h'; cases h'
        · exact h'
      have hw := read_coded x hx y hy (f.orderUnder o) pre (encFields o rest ++ post) i hi
      have hr := readFields_coded rest hrest gs1 h1 o (pre ++ enc (f.orderUnder o) x) post
        (i + (enc (f.orderUnder o) x).length) (by simp [hi])
      simp only [List.append_assoc] at hw hr ⊢
      rw [readFields_through _ o f y gs1 true i hig hskip]
      simp only [encFields, hig, Bool.false_eq_true, if_false, List.append_assoc, hexp,
        Bool.and_self, hw, fatal_none, hr, overlayFields, List.length_append, Nat.add_assoc]
    · have hr := readFields_coded rest hrest gs1 h1 o pre post i hi
      rw [readFields_ignored _ o f y gs1 true i hig]
      simp only [encFields, hig, if_true, List.nil_append, hr, overlayFields]
end

mutual
theorem overlay_zero : ∀ (v : Value), overlay v v.zero = v.erased
  | .uint8 _ => rfl
  | .uint16 _ => rfl
  | .uint32 _ => rfl
  | .uint64 _ => rfl
  | .other _ => rfl
  | .array s es => by simp only [Value.zero, overlay, Value.erased]; rw [overlayElems_zero es]
  | .struct fs => by simp only [Value.zero, overlay, Value.erased]; rw [overlayFields_zero fs]
theorem overlayElems_zero : ∀ (es : List Value), overlayElems es (zeroElems es) = erasedElems es
  | [] => rfl
  | e :: es => by
    simp only [zeroElems, overlayElems, erasedElems]
    rw [overlay_zero e, overlayElems_zero es]
theorem overlayFields_zero : ∀ (fs : List (StructField × Value)),
    overlayFields fs (zeroFields fs) = erasedFields fs
  | [] => rfl
  | (f, x) :: rest => by
    simp only [zeroFields, overlayFields, erasedFields]
    rw [overlay_zero x, overlayFields_zero rest]
end

theorem ignored_of_untagged {f : StructField} (h : f.Tag = none) : f.ignored = false := by
  simp [StructField.ignored, h, parseStructTag]

theorem skipped_of_untagged {f : StructField} (h : f.Tag = none) : f.skipped = false := by
  simp [StructField.skipped, h, parseStructTag]

mutual
theorem Plain_Coded : ∀ (v : Value), Plain v = true → Coded v = true
  | .uint8 _, h => by simpa [Plain, Coded] using h
  | .uint16 _, h => by simpa [Plain, Coded] using h
  | .uint32 _, h => by simpa [Plain, Coded] using h
  | .uint64 _, h => by simpa [Plain, Coded] using h
  | .other _, h => by simp [Plain] at h
  | .array _ [], h => by simp [Plain] at h
  | .array _ (e :: es), h => by
    simp only [Plain, Bool.and_eq_true] at h
    simp only [Coded, Bool.and_eq_true]
    exact ⟨Plain_Coded e h.1, PlainElems_Coded es e.zero h.2⟩
  | .struct fs, h => by
    simp only [Plain] at h
    simp only [Coded]
    exact PlainFields_Coded fs h
theorem PlainElems_Coded : ∀ (es : List Value) (z : Value),
    PlainElems z es = true → CodedElems z es = true
  | [], _, _ => rfl
  | e :: es, z, h => by
    simp only [PlainElems, Bool.and_eq_true, decide_eq_true_eq] at h
    simp only [CodedElems, Bool.and_eq_true, decide_eq_true_eq]
    exact ⟨⟨Plain_Coded e h.1.1, h.1.2⟩, PlainElems_Coded es z h.2⟩
theorem PlainFields_Coded : ∀ (fs : List (StructField × Value)),
    PlainFields fs = true → CodedFields fs = true
  | [], _ => rfl
  | (f, x) :: rest, h => by
    simp only [PlainFields, Bool.and_eq_true, decide_eq_true_eq] at h
    simp only [CodedFields, Bool.and_eq_true, Bool.or_eq_true, Bool.not_eq_true']
    exact ⟨⟨⟨h.1.1.1, skipped_of_untagged h.1.1.2⟩, Or.inr (Plain_Coded x h.1.2)⟩,
      PlainFields_Coded rest h.2⟩
end

mutual
theorem overlay_plain : ∀ (v : Value), Plain v = true → ∀ (t : Value), t.zero = v.zero →
    overlay v t = v
  | .uint8 _, _, _, _ => rfl
  | .uint16 _, _, _, _ => rfl
  | .uint32 _, _, _, _ => rfl
  | .uint64 _, _, _, _ => rfl
  | .other _, _, _, _ => rfl
  | .array s es, h, t, ht => by
    cases t <;> simp only [Value.zero, Value.array.injEq, reduceCtorEq] at ht
    obtain ⟨rfl, hts⟩ := ht
    cases es with
    | nil => simp [Plain] at h
    | cons e es =>
      simp only [Plain, Bool.and_eq_true] at h
      have hc : PlainElems e.zero (e :: es) = true := by simp [PlainElems, h.1, h.2]
      simp only [overlay]
      rw [overlayElems_plain (e :: es) e.zero hc _ hts]
  | .struct fs, h, t, ht => by
    cases t <;> simp only [Value.zero, Value.struct.injEq, reduceCtorEq] at ht
    simp only [Plain] at h
    simp only [overlay]
    rw [overlayFields_plain fs h _ ht]
theorem overlayElems_plain : ∀ (es : List Value) (z : Value), PlainElems z es = true →
    ∀ (ts : List Value), zeroElems ts = zeroElems es → overlayElems es ts = es
  | [], _, _, ts, hts => by rw [zeroElems_eq_nil hts]; rfl
  | e :: es, z, h, ts, hts => by
    simp only [PlainElems, Bool.and_eq_true, decide_eq_true_eq] at h
    obtain ⟨t0, ts1, rfl, h0, h1⟩ := zeroElems_eq_cons hts
    simp only [overlayElems]
    rw [overlay_plain e h.1.1 t0 h0, overlayElems_plain es z h.2 ts1 h1]
theorem overlayFields_plain : ∀ (fs : List (StructField × Value)), PlainFields fs = true →
    ∀ (gs : List (StructField × Value)), zeroFields gs = zeroFields fs →
    overlayFields fs gs = fs
  | [], _, gs, hgs => by rw [zeroFields_eq_nil hgs]; rfl
  | (f, x) :: rest, h, gs, hgs => by
    simp only [PlainFields, Bool.and_eq_true, decide_eq_true_eq] at h
    obtain ⟨y, gs1, rfl, hy, h1⟩ := zeroFields_eq_cons hgs
    simp only [overlayFields, ignored_of_untagged h.1.1.2, Bool.false_eq_true, if_false]
    rw [overlay_plain x h.1.2 y hy, overlayFields_plain rest h.2 gs1 h1]
end

/-- Round trip through a fresh buffer, for any target of the shape of `v`. -/
theorem roundtrip_core (v : Value) (o : ByteOrder) (t : Value) (h : Coded v = true)
    (ht : t.zero = v.zero) :
    sizeOfValue v true = some (enc o v).length ∧
    write v o (List.replicate (enc o v).length 0) true 0
      = some ⟨enc o v, (enc o v).length, none⟩ ∧
    read (enc o v) o t true true 0 = some ⟨overlay v t, (enc o v).length, none⟩ := by
  refine ⟨size_coded v h o, ?_, ?_⟩
  · have := write_coded v h o [] (List.replicate (enc o v).length 0) [] 0 rfl (by simp)
    simpa using this
  · have := read_coded v h t ht o [] [] 0 rfl
    simpa using this

/-! ## Round trip -/

/-- C1 (counterexample): the struct `{A uint8 "-"; B uint8}` holding 5 and 7 does
not survive the round trip.  Under little-endian `write` fills the one-byte buffer
that `sizeOfValue(v, true)` sizes with `[7]`, and `read` of that buffer into the
zero value of the shape leaves the ignored field `A` at 0, so the decoded value
differs from the encoded one. -/
theorem roundtrip_ignored_field_lost :
    sizeOfValue sampleIgnored true = some 1 ∧
    write sampleIgnored .LittleEndian (List.replicate 1 0) true 0 = some ⟨[7], 1, none⟩ ∧
    read [7] .LittleEndian sampleIgnored.zero true true 0
      = some ⟨.struct [(⟨some "-", true⟩, .uint8 0), (⟨none, true⟩, .uint8 7)], 1, none⟩ ∧
    Value.struct [(⟨some "-", true⟩, .uint8 0), (⟨none, true⟩, .uint8 7)] ≠ sampleIgnored := by
  decide

mutual
theorem PlainOrIgnored_Coded : ∀ (v : Value), PlainOrIgnored v = true → Coded v = true
  | .uint8 _, h => by simpa [PlainOrIgnored, Coded] using h
  | .uint16 _, h => by simpa [PlainOrIgnored, Coded] using h
  | .uint32 _, h => by simpa [PlainOrIgnored, Coded] using h
  | .uint64 _, h => by simpa [PlainOrIgnored, Coded] using h
  | .other _, h => by simp [PlainOrIgnored] at h
  | .array _ [], h => by simp [PlainOrIgnored] at h
  | .array _ (e :: es), h => by
    simp only [PlainOrIgnored, Bool.and_eq_true] at h
    simp only [Coded, Bool.and_eq_true]
    exact ⟨PlainOrIgnored_Coded e h.1, PlainOrIgnoredElems_Coded es e.zero h.2⟩
  | .struct fs, h => by
    simp only [PlainOrIgnored] at h
    simp only [Coded]
    exact PlainOrIgnoredFields_Coded fs h
theorem PlainOrIgnoredElems_Coded : ∀ (es : List Value) (z : Value),
    PlainOrIgnoredElems z es = true → CodedElems z es = true
  | [], _, _ => rfl
  | e :: es, z, h => by
    simp only [PlainOrIgnoredElems, Bool.and_eq_true, decide_eq_true_eq] at h
    simp only [CodedElems, Bool.and_eq_true, decide_eq_true_eq]
    exact ⟨⟨PlainOrIgnored_Coded e h.1.1, h.1.2⟩, PlainOrIgnoredElems_Coded es z h.2⟩
theorem PlainOrIgnoredFields_Coded : ∀ (fs : List (StructField × Value)),
    PlainOrIgnoredFields fs = true → CodedFields fs = true
  | [], _ => rfl
  | (f, x) :: rest, h => by
    simp only [PlainOrIgnoredFields, Bool.and_eq_true, Bool.or_eq_true,
      decide_eq_true_eq] at h
    simp only [CodedFields, Bool.and_eq_true, Bool.or_eq_true, Bool.not_eq_true']
    obtain ⟨⟨hex, hor⟩, hrest⟩ := h
    refine ⟨⟨⟨hex, ?_⟩, ?_⟩, PlainOrIgnoredFields_Coded rest hrest⟩
    · rcases hor with hi | hu
      · simp only [StructField.ignored] at hi
        simp only [StructField.skipped]
        cases hp : parseStructTag f.Tag with
        | none => rfl
        | some cnf =>
          rw [hp] at hi
          simp only at hi
          simp [hi]
      · exact skipped_of_untagged hu.1
    · rcases hor with hi | hu
      · exact Or.inl hi
      · exact Or.inr (PlainOrIgnored_Coded x hu.2)
end

/-- C1 (amended): for every value built from in-range unsigned scalars, non-empty
homogeneous arrays and structs whose fields are exported and each either untagged
or ignored, and for every byte order: `write` fills the buffer of
`sizeOfValue(v, true)` zero bytes from cursor 0 without error, and `read` of these
bytes into the zero value of the shape of `v` returns no error, ends at the end of
the buffer and yields `v` with every ignored field left at its zero value.  Fields
with a skip directive or an order token are left out. -/
theorem roundtrip_with_directives (v : Value) (o : ByteOrder)
    (h : PlainOrIgnored v = true) :
    sizeOfValue v true = some (enc o v).length ∧
    write v o (List.replicate (enc o v).length 0) true 0
      = some ⟨enc o v, (enc o v).length, none⟩ ∧
    read (enc o v) o v.zero true true 0 = some ⟨v.erased, (enc o v).length, none⟩ := by
  have := roundtrip_core v o v.zero (PlainOrIgnored_Coded v h) (zero_zero v)
  rwa [overlay_zero] at this

/-- Witness of `roundtrip_with_directives` on a struct with an ignored field at the
top and one in a nested struct, encoded under big-endian: the twelve bytes on the
wire and the value read back, the two ignored fields at zero. -/
theorem roundtrip_with_directives_witness :
    PlainOrIgnored sampleIgnoring = true ∧
    (sizeOfValue sampleIgnoring true = some (enc .BigEndian sampleIgnoring).length ∧
    write sampleIgnoring .BigEndian
        (List.replicate (enc .BigEndian sampleIgnoring).length 0) true 0
      = some ⟨enc .BigEndian sampleIgnoring, (enc .BigEndian sampleIgnoring).length, none⟩ ∧
    read (enc .BigEndian sampleIgnoring) .BigEndian sampleIgnoring.zero true true 0
      = some ⟨sampleIgnoring.erased, (enc .BigEndian sampleIgnoring).length, none⟩) ∧
    enc .BigEndian sampleIgnoring
      = [0x5d, 0xdf, 0xab, 0x57, 0x01, 0x02, 0x03, 0x04, 0x07, 0x66, 0x92, 0x65] ∧
    sampleIgnoring.erased
      = .struct [(⟨none, true⟩, .uint32 0x5ddfab57), (⟨some "-", true⟩, .uint16 0),
          (⟨none, true⟩, .array false [.uint16 0x0102, .uint16 0x0304]),
          (⟨none, true⟩, .struct [(⟨some "-", true⟩, .uint8 0), (⟨none, true⟩, .uint8 7)]),
          (⟨none, true⟩, .array false [.uint8 0x65, .uint8 0x92, .uint8 0x66])] :=
  ⟨by decide, roundtrip_with_directives sampleIgnoring .BigEndian (by decide), rfl, rfl⟩

/-- C2 (counterexample): the slice of byte slices `[][]uint8{{3}, {1, 2}}` is built
only from `uint8` scalars and non-empty slices, but its elements differ in length.
`sizeOfValue` multiplies the size of the first element by the length and gives 2,
`write` needs three bytes and indexes the two-byte buffer out of range, and `Write`
panics.  With the elements in the other order, `{{1, 2}, {3}}`, the size is 4, `write`
and `read` end with the cursor at 3, not at `sizeOfValue(v, true)`. -/
theorem roundtrip_ragged_slice_fails :
    Supported sampleRagged = true ∧
    sizeOfValue sampleRagged true = some 2 ∧
    write sampleRagged .LittleEndian (List.replicate 2 0) true 0 = none ∧
    write sampleRagged .BigEndian (List.replicate 2 0) true 0 = none ∧
    Write (fun _ => none) (fun _ _ => none) .LittleEndian (.val sampleRagged) = none ∧
    sizeOfValue (.array true [.array true [.uint8 1, .uint8 2], .array true [.uint8 3]])
      true = some 4 ∧
    write (.array true [.array true [.uint8 1, .uint8 2], .array true [.uint8 3]])
      .LittleEndian (List.replicate 4 0) true 0 = some ⟨[1, 2, 3, 0], 3, none⟩ ∧
    read [1, 2, 3, 0] .LittleEndian
      (.array true [.array true [.uint8 0, .uint8 0], .array true [.uint8 0]]) true true 0
      = some ⟨.array true [.array true [.uint8 1, .uint8 2], .array true [.uint8 3]], 3,
          none⟩ :=
  ⟨by decide, rfl, rfl, rfl, rfl, rfl, rfl, rfl⟩

/-- C2 (amended): for every directive-free value `v` (unsigned scalars in range,
non-empty arrays and slices whose elements all have the shape of the first, structs
with exported untagged fields) and each byte order, `write` fills a buffer
of `sizeOfValue(v, true)` bytes from cursor 0 without error, and `read` on that
buffer from cursor 0 into any settable target of the same shape returns no error,
ends with the cursor at `sizeOfValue(v, true)` and leaves the target equal to `v`. -/
theorem roundtrip_plain (v : Value) (o : ByteOrder) (t : Value) (h : Plain v = true)
    (ht : t.zero = v.zero) :
    sizeOfValue v true = some (enc o v).length ∧
    write v o (List.replicate (enc o v).length 0) true 0
      = some ⟨enc o v, (enc o v).length, none⟩ ∧
    read (enc o v) o t true true 0 = some ⟨v, (enc o v).length, none⟩ := by
  have := roundtrip_core v o t (Plain_Coded v h) ht
  rwa [overlay_plain v h t ht] at this

/-- Witness of `roundtrip_plain` under big-endian, into a target holding other data. -/
theorem roundtrip_plain_witness :
    Plain samplePlain = true ∧
    Value.zero (.struct [(⟨none, true⟩, .uint8 1), (⟨none, true⟩, .uint16 2),
      (⟨none, true⟩, .array false [.uint8 3, .uint8 4, .uint8 5, .uint8 6])])
      = samplePlain.zero ∧
    (sizeOfValue samplePlain true = some (enc .BigEndian samplePlain).length ∧
    write samplePlain .BigEndian
        (List.replicate (enc .BigEndian samplePlain).length 0) true 0
      = some ⟨enc .BigEndian samplePlain, (enc .BigEndian samplePlain).length, none⟩ ∧
    read (enc .BigEndian samplePlain) .BigEndian
        (.struct [(⟨none, true⟩, .uint8 1), (⟨none, true⟩, .uint16 2),
          (⟨none, true⟩, .array false [.uint8 3, .uint8 4, .uint8 5, .uint8 6])]) true true 0
      = some ⟨samplePlain, (enc .BigEndian samplePlain).length, none⟩) :=
  ⟨by decide, by decide, roundtrip_plain samplePlain .BigEndian _ (by decide) (by decide)⟩

theorem write_inaccessible (v : Value) (o : ByteOrder) (b : List Nat) (i : Nat) :
    write v o b false i =
      match sizeOfValue v false with
      | none => none
      | some n => some ⟨b, i + n, some .errCannotInterface⟩ := by
  cases v with
  | array s es => cases es <;> rw [write]
  | _ => rw [write]

theorem read_inaccessible (b : List Nat) (o : ByteOrder) (v : Value) (cs : Bool) (i : Nat) :
    read b o v false cs i =
      match sizeOfValue v false with
      | none => none
      | some n => some ⟨v, i + n, some .errCannotInterface⟩ := by
  cases v with
  | array s es => cases es <;> rw [read]
  | _ => rw [read]

theorem fatal_errCannotInterface : fatal (some .errCannotInterface) = false := rfl

theorem sizeOfFields_zero_acc (c : Nat) (fs : List (StructField × Value)) (t : Bool) :
    sizeOfFields c fs t = (sizeOfFields 0 fs t).map (fun n => c + n) :=
  sizeOfFields_acc c fs t

theorem SizedElems_mem : ∀ (es : List Value) (z : Value), SizedElems z es = true →
    ∀ e ∈ es, Sized e = true ∧ e.zero = z
  | [], _, _ => by simp
  | e :: es, z, h => by
    simp only [SizedElems, Bool.and_eq_true, decide_eq_true_eq] at h
    intro e' he'
    rcases List.mem_cons.mp he' with rfl | hm
    · exact ⟨h.1.1, h.1.2⟩
    · exact SizedElems_mem es z h.2 e' hm

theorem sizeOfValue_array_cons (s : Bool) (e : Value) (es : List Value) (t : Bool) :
    sizeOfValue (.array s (e :: es)) t =
      match sizeOfValue e t with
      | none => none
      | some k => some (k * (es.length + 1)) := by
  rw [sizeOfValue, sizeOfValueRecursive, sizeOfValue]
  cases sizeOfValueRecursive 0 e t <;> simp

mutual
theorem write_sized : ∀ (v : Value), Sized v = true → ∀ (n : Nat), sizeOfValue v true = some n →
    ∀ (o : ByteOrder) (pre mid post : List Nat) (i : Nat), pre.length = i → mid.length = n →
    ∃ mid1, mid1.length = n ∧
      write v o (pre ++ (mid ++ post)) true i = some ⟨pre ++ (mid1 ++ post), i + n, none⟩
  | .uint8 x, _, n, hn, o, pre, mid, post, i, hi, hm => by
    simp [sizeOfValue, sizeOfValueRecursive] at hn
    subst hn
    obtain ⟨m, rfl⟩ := List.length_eq_one.mp hm
    exact ⟨[x], rfl, by simp only [write, List.singleton_append,
      setIdx_append pre post m x i hi]⟩
  | .uint16 x, _, n, hn, o, pre, mid, post, i, hi, hm => by
    simp [sizeOfValue, sizeOfValueRecursive] at hn
    subst hn
    exact ⟨o.PutUint16 x, PutUint16_length o x, by
      simp only [write, putWindow_append (o.PutUint16 x) pre mid post i hi
        (by simp [hm, PutUint16_length])]⟩
  | .uint32 x, _, n, hn, o, pre, mid, post, i, hi, hm => by
    simp [sizeOfValue, sizeOfValueRecursive] at hn
    subst hn
    exact ⟨o.PutUint32 x, PutUint32_length o x, by
      simp only [write, putWindow_append (o.PutUint32 x) pre mid post i hi
        (by simp [hm, PutUint32_length])]⟩
  | .uint64 x, _, n, hn, o, pre, mid, post, i, hi, hm => by
    simp [sizeOfValue, sizeOfValueRecursive] at hn
    subst hn
    exact ⟨o.PutUint64 x, PutUint64_length o x, by
      simp only [write, putWindow_append (o.PutUint64 x) pre mid post i hi
        (by simp [hm, PutUint64_length])]⟩
  | .other _, h, _, _, _, _, _, _, _, _, _ => by simp [Sized] at h
  | .array _ [], _, n, hn, o, pre, mid, post, i, hi, hm => by
    simp [sizeOfValue, sizeOfValueRecursive] at hn
    subst hn
    exact ⟨mid, hm.symm ▸ hm, by simp [write]⟩
  | .array s (e :: es), h, n, hn, o, pre, mid, post, i, hi, hm => by
    simp only [Sized, Bool.and_eq_true] at h
    rw [sizeOfValue_array_cons] at hn
    cases hk : sizeOfValue e true with
    | none => rw [hk] at hn; simp at hn
    | some k =>
      rw [hk] at hn
      simp only [Option.some.injEq] at hn
      subst hn
      cases hu : e.isUint8
      · have hc : SizedElems e.zero (e :: es) = true := by
          simp [SizedElems, h.1, h.2]
        have hz : sizeOfValue e.zero true = some k := by
          rw [← hk]; exact sizeOfValue_of_zero_eq (zero_zero e) true
        have := writeElems_sized (e :: es) e.zero hc k hz o pre mid post i hi
          (by simpa using hm)
        simpa only [write, hu, Bool.false_eq_true, if_false, List.length_cons] using this
      · have hU : ∀ e' ∈ e :: es, e'.Uint ≠ none := by
          intro e' he'
          rcases List.mem_cons.mp he' with rfl | hmem
          · exact uint_of_isUint8 hu
          · have := (SizedElems_mem es e.zero h.2 e' hmem).2
            exact uint_of_isUint8 (by rw [isUint8_of_zero_eq this]; exact hu)
        have hk1 : k = 1 := by
          cases e <;> simp [Value.isUint8] at hu
          simp [sizeOfValue, sizeOfValueRecursive] at hk
          exact hk.symm
        subst hk1
        simp only [Nat.one_mul] at hm ⊢
        simp only [write, hu, if_true]
        cases o with
        | LittleEndian =>
          have := putBytes_forward i (e :: es) pre mid post 0 (by simpa using hi)
            (by simpa using hm) hU
          exact ⟨bytesOf (e :: es), by simp [bytesOf_length], by simp [this]⟩
        | BigEndian =>
          have := putBytes_backward i (es.length + 1) (e :: es) pre mid post 0 (by simp)
            (by simp [hi]) (by simpa using hm) hU
          refine ⟨(bytesOf (e :: es)).reverse, by simp [bytesOf_length], ?_⟩
          simp only [↓reduceIte]
          rw [this]
  | .struct fs, h, n, hn, o, pre, mid, post, i, hi, hm => by
    simp only [Sized] at h
    simp only [sizeOfValue, sizeOfValueRecursive] at hn
    simp only [write]
    exact writeFields_sized fs h n hn o pre mid post i hi hm
theorem writeElems_sized : ∀ (es : List Value) (z : Value), SizedElems z es = true →
    ∀ (k : Nat), sizeOfValue z true = some k →
    ∀ (o : ByteOrder) (pre mid post : List Nat) (i : Nat), pre.length = i →
    mid.length = k * es.length →
    ∃ mid1, mid1.length = k * es.length ∧
      writeElems es o (pre ++ (mid ++ post)) i
        = some ⟨pre ++ (mid1 ++ post), i + k * es.length, none⟩
  | [], _, _, k, _, o, pre, mid, post, i, hi, hm => by
    simp only [List.length_nil, Nat.mul_zero] at hm
    have : mid = [] := List.length_eq_zero.mp hm
    exact ⟨[], by simp, by simp [writeElems, this]⟩
  | e :: es, z, h, k, hk, o, pre, mid, post, i, hi, hm => by
    simp only [SizedElems, Bool.and_eq_true, decide_eq_true_eq] at h
    have hke : sizeOfValue e true = some k := by
      rw [← hk]; exact sizeOfValue_of_zero_eq (by rw [← h.1.2, zero_zero]) true
    have hm' : mid.length = k + k * es.length := by
      rw [hm, List.length_cons, Nat.mul_succ, Nat.add_comm]
    obtain ⟨m1, m2, rfl, h1, h2⟩ := split_length mid _ _ hm'
    obtain ⟨a1, ha1, hw⟩ := write_sized e h.1.1 k hke o pre m1 (m2 ++ post) i hi h1
    obtain ⟨a2, ha2, hr⟩ := writeElems_sized es z h.2 k hk o (pre ++ a1) m2 post (i + k)
      (by simp [hi, ha1]) h2
    refine ⟨a1 ++ a2, by simp [ha1, ha2, Nat.mul_succ, Nat.add_comm], ?_⟩
    simp only [List.append_assoc] at hw hr ⊢
    simp only [writeElems, hw, fatal_none, Bool.false_eq_true, if_false, hr,
      List.length_cons, Nat.mul_succ, Option.some.injEq, Outcome.mk.injEq, true_and, and_true]
    omega
theorem writeFields_sized : ∀ (fs : List (StructField × Value)), SizedFields fs = true →
    ∀ (n : Nat), sizeOfFields 0 fs true = some n →
    ∀ (o : ByteOrder) (pre mid post : List Nat) (i : Nat), pre.length = i → mid.length = n →
    ∃ mid1, mid1.length = n ∧
      writeFields fs o (pre ++ (mid ++ post)) i = some ⟨pre ++ (mid1 ++ post), i + n, none⟩
  | [], _, n, hn, o, pre, mid, post, i, hi, hm => by
    simp [sizeOfFields] at hn
    subst hn
    have : mid = [] := List.length_eq_zero.mp hm
    exact ⟨[], rfl, by simp [writeFields, this]⟩
  | (f, x) :: rest, h, n, hn, o, pre, mid, post, i, hi, hm => by
    simp only [SizedFields, Bool.and_eq_true, Bool.or_eq_true] at h
    obtain ⟨hx, hrest⟩ := h
    rw [sizeOfFields_cons_true] at hn
    cases hig : f.ignored
    · rw [hig] at hx hn
      simp only [Bool.false_eq_true, false_or, if_false] at hx hn
      cases hk : sizeOfValue x true with
      | none => rw [hk] at hn; simp at hn
      | some k =>
        rw [hk] at hn
        simp only at hn
        rw [sizeOfFields_zero_acc] at hn
        cases hr : sizeOfFields 0 rest true with
        | none => rw [hr] at hn; simp at hn
        | some nr =>
          rw [hr] at hn
          simp only [Option.map_some', Nat.zero_add, Option.some.injEq] at hn
          subst hn
          obtain ⟨m1, m2, rfl, h1, h2⟩ := split_length mid _ _ hm
          cases hsk : f.skipped
          · rw [hsk] at hx
            simp only [Bool.false_eq_true, if_false] at hx
            rw [writeFields_through f x rest o _ i hig hsk]
            cases hexp : f.exported
            · rw [hexp] at hx
              simp only [Bool.false_eq_true, if_false, Bool.and_eq_true,
                decide_eq_true_eq] at hx
              obtain ⟨a2, ha2, hr2⟩ := writeFields_sized rest hrest nr hr o (pre ++ m1) m2 post
                (i + k) (by simp [hi, h1]) h2
              refine ⟨m1 ++ a2, by simp [h1, ha2], ?_⟩
              simp only [List.append_assoc] at hr2 ⊢
              rw [write_inaccessible, hx.2, hk]
              simp only [fatal_errCannotInterface, Bool.false_eq_true, if_false, hr2,
                Nat.add_assoc]
            · rw [hexp] at hx
              simp only [if_true] at hx
              obtain ⟨a1, ha1, hw⟩ := write_sized x hx k hk (f.orderUnder o) pre m1
                (m2 ++ post) i hi h1
              obtain ⟨a2, ha2, hr2⟩ := writeFields_sized rest hrest nr hr o (pre ++ a1) m2 post
                (i + k) (by simp [hi, ha1]) h2
              refine ⟨a1 ++ a2, by simp [ha1, ha2], ?_⟩
              simp only [List.append_assoc] at hw hr2 ⊢
              simp only [hw, fatal_none, Bool.false_eq_true, if_false, hr2, Nat.add_assoc]
          · obtain ⟨a2, ha2, hr2⟩ := writeFields_sized rest hrest nr hr o (pre ++ m1) m2 post
              (i + k) (by simp [hi, h1]) h2
            refine ⟨m1 ++ a2, by simp [h1, ha2], ?_⟩
            simp only [List.append_assoc] at hr2 ⊢
            rw [writeFields_skipped f x rest o _ i hsk, hk]
            simp only [hr2, Nat.add_assoc]
    · rw [hig] at hn
      simp only [if_true] at hn
      rw [writeFields_ignored f x rest o _ i hig]
      exact writeFields_sized rest hrest n hn o pre mid post i hi hm
end

mutual
theorem sized_size : ∀ (v : Value), Sized v = true → (sizeOfValue v true).isSome = true
  | .uint8 _, _ => rfl
  | .uint16 _, _ => rfl
  | .uint32 _, _ => rfl
  | .uint64 _, _ => rfl
  | .other _, h => by simp [Sized] at h
  | .array _ [], _ => rfl
  | .array s (e :: es), h => by
    simp only [Sized, Bool.and_eq_true] at h
    have := sized_size e h.1
    rw [sizeOfValue_array_cons]
    cases hk : sizeOfValue e true with
    | none => rw [hk] at this; cases this
    | some k => rfl
  | .struct fs, h => by
    simp only [Sized] at h
    simpa [sizeOfValue, sizeOfValueRecursive] using sized_sizeFields fs h
theorem sized_sizeFields : ∀ (fs : List (StructField × Value)), SizedFields fs = true →
    (sizeOfFields 0 fs true).isSome = true
  | [], _ => rfl
  | (f, x) :: rest, h => by
    simp only [SizedFields, Bool.and_eq_true, Bool.or_eq_true] at h
    obtain ⟨hx, hrest⟩ := h
    have ihr := sized_sizeFields rest hrest
    rw [sizeOfFields_cons_true]
    cases hig : f.ignored
    · rw [hig] at hx
      simp only [Bool.false_eq_true, false_or] at hx
      have hsome : (sizeOfValue x true).isSome = true := by
        cases hsk : f.skipped
        · rw [hsk] at hx
          simp only [Bool.false_eq_true, if_false] at hx
          cases hexp : f.exported
          · rw [hexp] at hx
            simp only [Bool.false_eq_true, if_false, Bool.and_eq_true] at hx
            exact hx.1
          · rw [hexp] at hx
            exact sized_size x hx
        · rw [hsk] at hx
          exact hx
      cases hk : sizeOfValue x true with
      | none => rw [hk] at hsome; cases hsome
      | some k =>
        simp only [Bool.false_eq_true, if_false]
        rw [sizeOfFields_zero_acc]
        cases hr : sizeOfFields 0 rest true with
        | none => rw [hr] at ihr; cases ihr
        | some nr => rfl
    · simpa using ihr
end

theorem decompose (b : List Nat) (i n : Nat) (h : i + n ≤ b.length) :
    ∃ pre mid post, b = pre ++ (mid ++ post) ∧ pre.length = i ∧ mid.length = n ∧
      mid = window b i n ∧ post = b.drop (i + n) ∧ pre = b.take i := by
  refine ⟨b.take i, (b.drop i).take n, b.drop (i + n), ?_, ?_, ?_, rfl, rfl, rfl⟩
  · rw [← List.drop_drop, List.take_append_drop, List.take_append_drop]
  · simp; omega
  · simp; omega

theorem WriteValue_sized (w : List Nat → Option Error) (o : ByteOrder) (v : Value)
    (h : Sized v = true) :
    (WriteValue w o v).map (fun e => e.bytes.length) = sizeOfValue v true := by
  have hs := sized_size v h
  cases hn : sizeOfValue v true with
  | none => rw [hn] at hs; cases hs
  | some n =>
    obtain ⟨a, ha, hw⟩ := write_sized v h n hn o [] (List.replicate n 0) [] 0 rfl (by simp)
    simp only [List.nil_append, List.append_nil] at hw
    simp [WriteValue, hn, hw, ha]

/-! ## Scalars -/

theorem getD_window (pre mid post : List Nat) (i k : Nat) (hi : pre.length = i)
    (hk : k < mid.length) : (pre ++ (mid ++ post)).getD (i + k) 0 = mid.getD k 0 := by
  subst hi
  rw [List.getD_append_right _ _ _ _ (by omega), Nat.add_sub_cancel_left,
    List.getD_append _ _ _ _ hk]

theorem Bytes_mem_window {pre mid post : List Nat} (h : Bytes (pre ++ (mid ++ post))) :
    ∀ x ∈ mid, x < 256 := fun x hx => h x (by simp [hx])

theorem orderValue_two (o : ByteOrder) (b : List Nat) (i : Nat) :
    orderValue o b i 2 = match o with
      | .LittleEndian => b.getD i 0 + b.getD (i + 1) 0 * 256
      | .BigEndian => b.getD i 0 * 256 + b.getD (i + 1) 0 := by
  cases o <;> simp [orderValue, Finset.sum_range_succ]

theorem orderValue_four (o : ByteOrder) (b : List Nat) (i : Nat) :
    orderValue o b i 4 = match o with
      | .LittleEndian => b.getD i 0 + b.getD (i + 1) 0 * 256 + b.getD (i + 2) 0 * 256 ^ 2
          + b.getD (i + 3) 0 * 256 ^ 3
      | .BigEndian => b.getD i 0 * 256 ^ 3 + b.getD (i + 1) 0 * 256 ^ 2
          + b.getD (i + 2) 0 * 256 + b.getD (i + 3) 0 := by
  cases o <;> simp [orderValue, Finset.sum_range_succ]

theorem orderValue_eight (o : ByteOrder) (b : List Nat) (i : Nat) :
    orderValue o b i 8 = match o with
      | .LittleEndian => b.getD i 0 + b.getD (i + 1) 0 * 256 + b.getD (i + 2) 0 * 256 ^ 2
          + b.getD (i + 3) 0 * 256 ^ 3 + b.getD (i + 4) 0 * 256 ^ 4
          + b.getD (i + 5) 0 * 256 ^ 5 + b.getD (i + 6) 0 * 256 ^ 6
          + b.getD (i + 7) 0 * 256 ^ 7
      | .BigEndian => b.getD i 0 * 256 ^ 7 + b.getD (i + 1) 0 * 256 ^ 6
          + b.getD (i + 2) 0 * 256 ^ 5 + b.getD (i + 3) 0 * 256 ^ 4
          + b.getD (i + 4) 0 * 256 ^ 3 + b.getD (i + 5) 0 * 256 ^ 2
          + b.getD (i + 6) 0 * 256 + b.getD (i + 7) 0 := by
  cases o <;> simp [orderValue, Finset.sum_range_succ]

theorem read_uint8 (b : List Nat) (o : ByteOrder) (i t : Nat) (h : i + 1 ≤ b.length) :
    read b o (.uint8 t) true true i = some ⟨.uint8 (orderValue o b i 1), i + 1, none⟩ := by
  obtain ⟨pre, mid, post, rfl, hi, hm, -⟩ := decompose b i 1 h
  obtain ⟨a, rfl⟩ := List.length_eq_one.mp hm
  have hv : orderValue o (pre ++ ([a] ++ post)) i 1 = a := by
    have := getD_window pre [a] post i 0 hi (by simp)
    cases o <;> simpa [orderValue] using this
  rw [hv]
  simp only [read, List.singleton_append, getElem?_append_cons pre post a i hi,
    setPrimitive_true]

theorem orderValue_Uint16 (o : ByteOrder) (pre post : List Nat) (i a0 a1 : Nat)
    (hi : pre.length = i) (hlt : ∀ x ∈ [a0, a1], x < 256) :
    orderValue o (pre ++ ([a0, a1] ++ post)) i 2 = o.Uint16 [a0, a1] := by
  rw [orderValue_two, Uint16_eq o a0 a1 (hlt _ (by simp)) (hlt _ (by simp))]
  have h0 := getD_window pre [a0, a1] post i 0 hi (by simp)
  have h1 := getD_window pre [a0, a1] post i 1 hi (by simp)
  rw [Nat.add_zero] at h0
  rw [h0, h1]
  rfl

theorem orderValue_Uint32 (o : ByteOrder) (pre post : List Nat) (i a0 a1 a2 a3 : Nat)
    (hi : pre.length = i) (hlt : ∀ x ∈ [a0, a1, a2, a3], x < 256) :
    orderValue o (pre ++ ([a0, a1, a2, a3] ++ post)) i 4 = o.Uint32 [a0, a1, a2, a3] := by
  rw [orderValue_four, Uint32_eq o a0 a1 a2 a3 (hlt _ (by simp)) (hlt _ (by simp))
    (hlt _ (by simp)) (hlt _ (by simp))]
  have h0 := getD_window pre [a0, a1, a2, a3] post i 0 hi (by simp)
  have h1 := getD_window pre [a0, a1, a2, a3] post i 1 hi (by simp)
  have h2 := getD_window pre [a0, a1, a2, a3] post i 2 hi (by simp)
  have h3 := getD_window pre [a0, a1, a2, a3] post i 3 hi (by simp)
  rw [Nat.add_zero] at h0
  rw [h0, h1, h2, h3]
  rfl

theorem orderValue_Uint64 (o : ByteOrder) (pre post : List Nat)
    (i a0 a1 a2 a3 a4 a5 a6 a7 : Nat) (hi : pre.length = i)
    (hlt : ∀ x ∈ [a0, a1, a2, a3, a4, a5, a6, a7], x < 256) :
    orderValue o (pre ++ ([a0, a1, a2, a3, a4, a5, a6, a7] ++ post)) i 8
      = o.Uint64 [a0, a1, a2, a3, a4, a5, a6, a7] := by
  rw [orderValue_eight, Uint64_eq o a0 a1 a2 a3 a4 a5 a6 a7 (hlt _ (by simp))
    (hlt _ (by simp)) (hlt _ (by simp)) (hlt _ (by simp)) (hlt _ (by simp))
    (hlt _ (by simp)) (hlt _ (by simp)) (hlt _ (by simp))]
  have h0 := getD_window pre [a0, a1, a2, a3, a4, a5, a6, a7] post i 0 hi (by simp)
  have h1 := getD_window pre [a0, a1, a2, a3, a4, a5, a6, a7] post i 1 hi (by simp)
  have h2 := getD_window pre [a0, a1, a2, a3, a4, a5, a6, a7] post i 2 hi (by simp)
  have h3 := getD_window pre [a0, a1, a2, a3, a4, a5, a6, a7] post i 3 hi (by simp)
  have h4 := getD_window pre [a0, a1, a2, a3, a4, a5, a6, a7] post i 4 hi (by simp)
  have h5 := getD_window pre [a0, a1, a2, a3, a4, a5, a6, a7] post i 5 hi (by simp)
  have h6 := getD_window pre [a0, a1, a2, a3, a4, a5, a6, a7] post i 6 hi (by simp)
  have h7 := getD_window pre [a0, a1, a2, a3, a4, a5, a6, a7] post i 7 hi (by simp)
  rw [Nat.add_zero] at h0
  rw [h0, h1, h2, h3, h4, h5, h6, h7]
  rfl

theorem read_uint16 (b : List Nat) (o : ByteOrder) (i t : Nat) (hb : Bytes b)
    (h : i + 2 ≤ b.length) :
    read b o (.uint16 t) true true i = some ⟨.uint16 (orderValue o b i 2), i + 2, none⟩ := by
  obtain ⟨pre, mid, post, rfl, hi, hm, -⟩ := decompose b i 2 h
  match mid, hm with
  | [a0, a1], _ =>
    rw [orderValue_Uint16 o pre post i a0 a1 hi (Bytes_mem_window hb)]
    simp only [read]
    rw [show i + 2 = i + [a0, a1].length from rfl, slice_append pre [a0, a1] post i hi]
    rfl

theorem read_uint32 (b : List Nat) (o : ByteOrder) (i t : Nat) (hb : Bytes b)
    (h : i + 4 ≤ b.length) :
    read b o (.uint32 t) true true i = some ⟨.uint32 (orderValue o b i 4), i + 4, none⟩ := by
  obtain ⟨pre, mid, post, rfl, hi, hm, -⟩ := decompose b i 4 h
  match mid, hm with
  | [a0, a1, a2, a3], _ =>
    rw [orderValue_Uint32 o pre post i a0 a1 a2 a3 hi (Bytes_mem_window hb)]
    simp only [read]
    rw [show i + 4 = i + [a0, a1, a2, a3].length from rfl,
      slice_append pre [a0, a1, a2, a3] post i hi]
    rfl

theorem read_uint64 (b : List Nat) (o : ByteOrder) (i t : Nat) (hb : Bytes b)
    (h : i + 8 ≤ b.length) :
    read b o (.uint64 t) true true i = some ⟨.uint64 (orderValue o b i 8), i + 8, none⟩ := by
  obtain ⟨pre, mid, post, rfl, hi, hm, -⟩ := decompose b i 8 h
  match mid, hm with
  | [a0, a1, a2, a3, a4, a5, a6, a7], _ =>
    rw [orderValue_Uint64 o pre post i a0 a1 a2 a3 a4 a5 a6 a7 hi (Bytes_mem_window hb)]
    simp only [read]
    rw [show i + 8 = i + [a0, a1, a2, a3, a4, a5, a6, a7].length from rfl,
      slice_append pre [a0, a1, a2, a3, a4, a5, a6, a7] post i hi]
    rfl

/-- C4: for every buffer of bytes `b`, cursor `i` and settable unsigned scalar of
width `w` in {1, 2, 4, 8} with `i + w ≤ len(b)`, `read` under the order `o` stores
the number that `o` reads from `b[i..i+w)` (the sum of `b[i+k] * 256^k` under
little-endian, of `b[i+k] * 256^(w-1-k)` under big-endian), returns no error and
advances the cursor by exactly `w`; the bytes 00 01 .. 07 under little-endian give
0x0100, 0x03020100 and 0x0706050403020100. -/
theorem read_scalar (b : List Nat) (o : ByteOrder) (i t : Nat) (hb : Bytes b) :
    (i + 1 ≤ b.length →
      read b o (.uint8 t) true true i = some ⟨.uint8 (orderValue o b i 1), i + 1, none⟩) ∧
    (i + 2 ≤ b.length →
      read b o (.uint16 t) true true i = some ⟨.uint16 (orderValue o b i 2), i + 2, none⟩) ∧
    (i + 4 ≤ b.length →
      read b o (.uint32 t) true true i = some ⟨.uint32 (orderValue o b i 4), i + 4, none⟩) ∧
    (i + 8 ≤ b.length →
      read b o (.uint64 t) true true i = some ⟨.uint64 (orderValue o b i 8), i + 8, none⟩) ∧
    read [0, 1, 2, 3, 4, 5, 6, 7] .LittleEndian (.uint16 0) true true 0
      = some ⟨.uint16 0x0100, 2, none⟩ ∧
    read [0, 1, 2, 3, 4, 5, 6, 7] .LittleEndian (.uint32 0) true true 0
      = some ⟨.uint32 0x03020100, 4, none⟩ ∧
    read [0, 1, 2, 3, 4, 5, 6, 7] .LittleEndian (.uint64 0) true true 0
      = some ⟨.uint64 0x0706050403020100, 8, none⟩ :=
  ⟨read_uint8 b o i t, read_uint16 b o i t hb, read_uint32 b o i t hb, read_uint64 b o i t hb,
    by decide, by decide, by decide⟩

/-- Witness of `read_scalar`: a 32-bit scalar decoded under big-endian from
offset 2 of the bytes 00 01 .. 07. -/
theorem read_scalar_witness :
    Bytes [0, 1, 2, 3, 4, 5, 6, 7] ∧ 2 + 4 ≤ [0, 1, 2, 3, 4, 5, 6, 7].length ∧
    read [0, 1, 2, 3, 4, 5, 6, 7] .BigEndian (.uint32 9) true true 2
      = some ⟨.uint32 (orderValue .BigEndian [0, 1, 2, 3, 4, 5, 6, 7] 2 4), 2 + 4, none⟩ ∧
    orderValue .BigEndian [0, 1, 2, 3, 4, 5, 6, 7] 2 4 = 0x02030405 :=
  ⟨by unfold Bytes; decide, by decide,
    (read_scalar [0, 1, 2, 3, 4, 5, 6, 7] .BigEndian 2 9 (by unfold Bytes; decide)).2.2.1
      (by decide),
    by simp [orderValue, Finset.sum_range_succ]⟩

/-! ### Scalar encode -/

theorem byte_eq_and (x : Nat) : byte x = x &&& 0xff :=
  (Nat.and_pow_two_sub_one_eq_mod x 8).symm

theorem PutUint16_eq_orderBytes (o : ByteOrder) (x : Nat) :
    o.PutUint16 x = orderBytes o 2 x := by
  have h : List.range 2 = [0, 1] := by decide
  cases o <;> simp [ByteOrder.PutUint16, orderBytes, h, byte_eq_and]

theorem PutUint32_eq_orderBytes (o : ByteOrder) (x : Nat) :
    o.PutUint32 x = orderBytes o 4 x := by
  have h : List.range 4 = [0, 1, 2, 3] := by decide
  cases o <;> simp [ByteOrder.PutUint32, orderBytes, h, byte_eq_and]

theorem PutUint64_eq_orderBytes (o : ByteOrder) (x : Nat) :
    o.PutUint64 x = orderBytes o 8 x := by
  have h : List.range 8 = [0, 1, 2, 3, 4, 5, 6, 7] := by decide
  cases o <;> simp [ByteOrder.PutUint64, orderBytes, h, byte_eq_and]

theorem orderBytes_one (o : ByteOrder) (x : Nat) (hx : x < 256) : orderBytes o 1 x = [x] := by
  have h : List.range 1 = [0] := by decide
  have hb := byte_eq_and x
  rw [byte, Nat.mod_eq_of_lt hx] at hb
  cases o <;> simp [orderBytes, h, ← hb]

theorem splice_decomposed (pre mid post w : List Nat) (i : Nat) (hi : pre.length = i)
    (hm : mid.length = w.length) : splice (pre ++ (mid ++ post)) i w = pre ++ (w ++ post) := by
  subst hi
  have hd : List.drop (pre.length + w.length) (pre ++ (mid ++ post)) = post := by
    rw [← hm, ← List.length_append, ← List.append_assoc, List.drop_left]
  unfold splice
  rw [List.take_left, hd]

theorem orderBytes_lt (o : ByteOrder) (w x : Nat) : ∀ y ∈ orderBytes o w x, y < 256 := by
  intro y hy
  have : ∀ z : Nat, z &&& 0xff < 256 := fun z => by
    rw [← byte_eq_and]; exact Nat.mod_lt _ (by decide)
  cases o <;> simp only [orderBytes, List.mem_map] at hy <;>
    obtain ⟨k, -, rfl⟩ := hy <;> exact this _

theorem write_uint8 (o : ByteOrder) (b : List Nat) (i x : Nat) (h : i + 1 ≤ b.length)
    (hx : x < 256) :
    write (.uint8 x) o b true i = some ⟨splice b i (orderBytes o 1 x), i + 1, none⟩ ∧
    orderValue o (splice b i (orderBytes o 1 x)) i 1 = x := by
  obtain ⟨pre, mid, post, rfl, hi, hm, -⟩ := decompose b i 1 h
  obtain ⟨m, rfl⟩ := List.length_eq_one.mp hm
  rw [orderBytes_one o x hx, splice_decomposed pre [m] post [x] i hi rfl]
  refine ⟨by simp only [write, List.singleton_append, setIdx_append pre post m x i hi], ?_⟩
  have := getD_window pre [x] post i 0 hi (by simp)
  cases o <;> simpa [orderValue] using this

theorem write_uint16 (o : ByteOrder) (b : List Nat) (i x : Nat) (h : i + 2 ≤ b.length)
    (hx : x < 65536) :
    write (.uint16 x) o b true i = some ⟨splice b i (orderBytes o 2 x), i + 2, none⟩ ∧
    orderValue o (splice b i (orderBytes o 2 x)) i 2 = x := by
  obtain ⟨pre, mid, post, rfl, hi, hm, -⟩ := decompose b i 2 h
  have hl := PutUint16_length o x
  have hlt := orderBytes_lt o 2 x
  rw [← PutUint16_eq_orderBytes] at hlt ⊢
  rw [splice_decomposed pre mid post _ i hi (by rw [hm, hl])]
  refine ⟨by simp only [write, putWindow_append (o.PutUint16 x) pre mid post i hi
    (by simp [hm, hl])], ?_⟩
  match hp : o.PutUint16 x, hl with
  | [a0, a1], _ =>
    rw [hp] at hlt
    rw [orderValue_Uint16 o pre post i a0 a1 hi hlt, ← hp, Uint16_PutUint16 o x hx]

theorem write_uint32 (o : ByteOrder) (b : List Nat) (i x : Nat) (h : i + 4 ≤ b.length)
    (hx : x < 4294967296) :
    write (.uint32 x) o b true i = some ⟨splice b i (orderBytes o 4 x), i + 4, none⟩ ∧
    orderValue o (splice b i (orderBytes o 4 x)) i 4 = x := by
  obtain ⟨pre, mid, post, rfl, hi, hm, -⟩ := decompose b i 4 h
  have hl := PutUint32_length o x
  have hlt := orderBytes_lt o 4 x
  rw [← PutUint32_eq_orderBytes] at hlt ⊢
  rw [splice_decomposed pre mid post _ i hi (by rw [hm, hl])]
  refine ⟨by simp only [write, putWindow_append (o.PutUint32 x) pre mid post i hi
    (by simp [hm, hl])], ?_⟩
  match hp : o.PutUint32 x, hl with
  | [a0, a1, a2, a3], _ =>
    rw [hp] at hlt
    rw [orderValue_Uint32 o pre post i a0 a1 a2 a3 hi hlt, ← hp, Uint32_PutUint32 o x hx]

theorem write_uint64 (o : ByteOrder) (b : List Nat) (i x : Nat) (h : i + 8 ≤ b.length)
    (hx : x < 18446744073709551616) :
    write (.uint64 x) o b true i = some ⟨splice b i (orderBytes o 8 x), i + 8, none⟩ ∧
    orderValue o (splice b i (orderBytes o 8 x)) i 8 = x := by
  obtain ⟨pre, mid, post, rfl, hi, hm, -⟩ := decompose b i 8 h
  have hl := PutUint64_length o x
  have hlt := orderBytes_lt o 8 x
  rw [← PutUint64_eq_orderBytes] at hlt ⊢
  rw [splice_decomposed pre mid post _ i hi (by rw [hm, hl])]
  refine ⟨by simp only [write, putWindow_append (o.PutUint64 x) pre mid post i hi
    (by simp [hm, hl])], ?_⟩
  match hp : o.PutUint64 x, hl with
  | [a0, a1, a2, a3, a4, a5, a6, a7], _ =>
    rw [hp] at hlt
    rw [orderValue_Uint64 o pre post i a0 a1 a2 a3 a4 a5 a6 a7 hi hlt, ← hp,
      Uint64_PutUint64 o x hx]

/-- C5: for every unsigned scalar `x` of width `w` in {1, 2, 4, 8} bytes, every
order `o`, buffer `b` and cursor `i` with `i + w ≤ len(b)`, `write` stores in
`b[i..i+w)` exactly the `w` bytes that the put operation of `o` produces for `x`
(byte `k` is `(x >> 8k) & 0xff` under little-endian and `(x >> 8(w-1-k)) & 0xff`
under big-endian) and leaves the rest of the buffer alone, so that the read of `o`
on that window returns `x`; it returns no error and advances the cursor by `w`. -/
theorem write_scalar (o : ByteOrder) (b : List Nat) (i x : Nat) :
    (i + 1 ≤ b.length → x < 256 →
      write (.uint8 x) o b true i = some ⟨splice b i (orderBytes o 1 x), i + 1, none⟩ ∧
      orderValue o (splice b i (orderBytes o 1 x)) i 1 = x) ∧
    (i + 2 ≤ b.length → x < 65536 →
      write (.uint16 x) o b true i = some ⟨splice b i (orderBytes o 2 x), i + 2, none⟩ ∧
      orderValue o (splice b i (orderBytes o 2 x)) i 2 = x) ∧
    (i + 4 ≤ b.length → x < 4294967296 →
      write (.uint32 x) o b true i = some ⟨splice b i (orderBytes o 4 x), i + 4, none⟩ ∧
      orderValue o (splice b i (orderBytes o 4 x)) i 4 = x) ∧
    (i + 8 ≤ b.length → x < 18446744073709551616 →
      write (.uint64 x) o b true i = some ⟨splice b i (orderBytes o 8 x), i + 8, none⟩ ∧
      orderValue o (splice b i (orderBytes o 8 x)) i 8 = x) :=
  ⟨write_uint8 o b i x, write_uint16 o b i x, write_uint32 o b i x, write_uint64 o b i x⟩

/-- Witness of `write_scalar`: the 16-bit scalar 0xbbee written under big-endian
at offset 1 of a four-byte buffer. -/
theorem write_scalar_witness :
    1 + 2 ≤ [9, 9, 9, 9].length ∧ 0xbbee < 65536 ∧
    (write (.uint16 0xbbee) .BigEndian [9, 9, 9, 9] true 1
      = some ⟨splice [9, 9, 9, 9] 1 (orderBytes .BigEndian 2 0xbbee), 1 + 2, none⟩ ∧
    orderValue .BigEndian (splice [9, 9, 9, 9] 1 (orderBytes .BigEndian 2 0xbbee)) 1 2
      = 0xbbee) ∧
    splice [9, 9, 9, 9] 1 (orderBytes .BigEndian 2 0xbbee) = [9, 0xbb, 0xee, 9] :=
  ⟨by decide, by decide,
    (write_scalar .BigEndian [9, 9, 9, 9] 1 0xbbee).2.1 (by decide) (by decide),
    by decide⟩

/-! ## Byte arrays -/

theorem getD_reverse_sub (a : List Nat) (k : Nat) (hk : k < a.length) :
    a.reverse.getD (a.length - 1 - k) 0 = a.getD k 0 := by
  simp only [List.getD_eq_getElem?_getD]
  rw [List.getElem?_reverse (by omega)]
  congr 2
  omega

theorem bytesOf_map_uint8 : ∀ (a : List Nat), (∀ x ∈ a, x < 256) →
    bytesOf (a.map Value.uint8) = a
  | [], _ => rfl
  | x :: a, h => by
    simp only [List.map_cons, bytesOf, Value.Uint, Option.getD_some, byte]
    rw [Nat.mod_eq_of_lt (h x (List.mem_cons_self _ _)),
      bytesOf_map_uint8 a (fun y hy => h y (List.mem_cons_of_mem _ hy))]

theorem map_uint8_isUint8 (a : List Nat) : ∀ e ∈ a.map Value.uint8, e.isUint8 = true := by
  intro e he
  obtain ⟨x, -, rfl⟩ := List.mem_map.mp he
  rfl

/-- C6: for every non-empty byte array or byte slice `a` of length `n` and cursor
`i` with `i + n ≤ len(b)`, `write` under big-endian stores `a[k]` at `b[i+n-1-k]`
for every `k < n` (the output window is `a` reversed), `write` under little-endian
stores `a[k]` at `b[i+k]` (the output window is `a` unchanged), the rest of the
buffer is untouched, no error is returned and the cursor advances by exactly `n`. -/
theorem write_byte_array (s : Bool) (a : List Nat) (o : ByteOrder) (b : List Nat) (i : Nat)
    (ha : a ≠ []) (hlt : ∀ x ∈ a, x < 256) (h : i + a.length ≤ b.length) :
    write (.array s (a.map .uint8)) o b true i
      = some ⟨splice b i (if o = .BigEndian then a.reverse else a), i + a.length, none⟩ ∧
    ∀ k, k < a.length →
      (splice b i (if o = .BigEndian then a.reverse else a)).getD
        (if o = .BigEndian then i + a.length - 1 - k else i + k) 0 = a.getD k 0 := by
  obtain ⟨pre, mid, post, rfl, hi, hm, -⟩ := decompose b i a.length h
  have hsp : ∀ w : List Nat, w.length = a.length →
      splice (pre ++ (mid ++ post)) i w = pre ++ (w ++ post) :=
    fun w hw => splice_decomposed pre mid post w i hi (by rw [hm, hw])
  have hU : ∀ e ∈ a.map Value.uint8, e.Uint ≠ none :=
    fun e he => uint_of_isUint8 (map_uint8_isUint8 a e he)
  cases a with
  | nil => exact absurd rfl ha
  | cons x a =>
    constructor
    · simp only [List.map_cons, write, Value.isUint8, if_true, List.length_map]
      cases o with
      | LittleEndian =>
        have := putBytes_forward i ((x :: a).map Value.uint8) pre mid post 0
          (by simpa using hi) (by simpa using hm) hU
        rw [bytesOf_map_uint8 _ hlt] at this
        simp only [List.map_cons] at this
        simp only [reduceCtorEq, if_false, this, hsp (x :: a) rfl, List.length_cons]
      | BigEndian =>
        have := putBytes_backward i (a.length + 1) ((x :: a).map Value.uint8) pre mid post 0
          (by simp) (by simp [hi]) (by simpa using hm) hU
        rw [bytesOf_map_uint8 _ hlt] at this
        simp only [List.map_cons] at this
        simp only [if_true, this, hsp (x :: a).reverse (by simp), List.length_cons]
    · intro k hk
      cases o with
      | LittleEndian =>
        simp only [reduceCtorEq, if_false]
        rw [hsp (x :: a) rfl]
        exact getD_window pre (x :: a) post i k hi hk
      | BigEndian =>
        simp only [if_true]
        rw [hsp (x :: a).reverse (by simp)]
        have := getD_window pre (x :: a).reverse post i ((x :: a).length - 1 - k) hi
          (by simp only [List.length_reverse]; omega)
        rw [getD_reverse_sub (x :: a) k hk] at this
        rw [← this]
        congr 1
        omega

/-- Witness of `write_byte_array`: the test vector of the repository under
big-endian, at offset 1 of an eight-byte buffer. -/
theorem write_byte_array_witness :
    [0xaa, 0xbb, 0xcc, 0xdd, 0xee, 0xff] ≠ [] ∧
    (∀ x ∈ [0xaa, 0xbb, 0xcc, 0xdd, 0xee, 0xff], x < 256) ∧
    1 + [0xaa, 0xbb, 0xcc, 0xdd, 0xee, 0xff].length ≤ (List.replicate 8 0).length ∧
    write (.array false ([0xaa, 0xbb, 0xcc, 0xdd, 0xee, 0xff].map .uint8)) .BigEndian
        (List.replicate 8 0) true 1
      = some ⟨splice (List.replicate 8 0) 1
          (if ByteOrder.BigEndian = .BigEndian then [0xaa, 0xbb, 0xcc, 0xdd, 0xee, 0xff].reverse
           else [0xaa, 0xbb, 0xcc, 0xdd, 0xee, 0xff]),
          1 + [0xaa, 0xbb, 0xcc, 0xdd, 0xee, 0xff].length, none⟩ ∧
    splice (List.replicate 8 0) 1 [0xaa, 0xbb, 0xcc, 0xdd, 0xee, 0xff].reverse
      = [0, 0xff, 0xee, 0xdd, 0xcc, 0xbb, 0xaa, 0] :=
  ⟨by decide, by decide, by decide,
    (write_byte_array false [0xaa, 0xbb, 0xcc, 0xdd, 0xee, 0xff] .BigEndian
      (List.replicate 8 0) 1 (by decide) (by decide) (by decide)).1,
    by decide⟩

theorem window_decomposed (pre mid post : List Nat) (i : Nat) (hi : pre.length = i) :
    window (pre ++ (mid ++ post)) i mid.length = mid := by
  subst hi
  simp [window]

/-- C7: for every buffer `b`, cursor `i` and settable byte array of length `n > 0`
with `i + n ≤ len(b)`, `read` under big-endian sets element `k` to `b[i+n-1-k]` for
every `k < n` (whole-array reversal), `read` under little-endian sets element `k`
to `b[i+k]`, and in both cases it returns no error and advances the cursor by
exactly `n`. -/
theorem read_byte_array (s : Bool) (old : List Nat) (o : ByteOrder) (b : List Nat) (i : Nat)
    (hn : old ≠ []) (h : i + old.length ≤ b.length) :
    read b o (.array s (old.map .uint8)) true true i
      = some ⟨.array s ((if o = .BigEndian then (window b i old.length).reverse
          else window b i old.length).map .uint8), i + old.length, none⟩ ∧
    ∀ k, k < old.length →
      (if o = .BigEndian then (window b i old.length).reverse
        else window b i old.length).getD k 0
        = b.getD (if o = .BigEndian then i + old.length - 1 - k else i + k) 0 := by
  obtain ⟨pre, mid, post, rfl, hi, hm, -⟩ := decompose b i old.length h
  have hw : window (pre ++ (mid ++ post)) i old.length = mid := by
    rw [← hm]; exact window_decomposed pre mid post i hi
  rw [hw]
  cases old with
  | nil => exact absurd rfl hn
  | cons x old =>
    constructor
    · have hs := slice_append pre mid post i hi
      rw [hm] at hs
      have hsb : ∀ w : List Nat, w.length = mid.length →
          setBytes ((x :: old).map Value.uint8) w = some (w.map Value.uint8) :=
        fun w hw => setBytes_uint8 _ w (by simp [hw, hm]) (map_uint8_isUint8 (x :: old))
      simp only [List.map_cons, List.length_cons] at hs hsb ⊢
      simp only [read, Value.isUint8, if_true, List.length_map, hs, Bool.or_true]
      cases o with
      | LittleEndian => simp only [reduceCtorEq, if_false, hsb mid rfl]
      | BigEndian => simp only [if_true, hsb mid.reverse (by simp)]
    · intro k hk
      cases o with
      | LittleEndian =>
        simp only [reduceCtorEq, if_false]
        exact (getD_window pre mid post i k hi (by omega)).symm
      | BigEndian =>
        simp only [if_true]
        have := getD_window pre mid post i (mid.length - 1 - k) hi (by omega)
        rw [show i + (x :: old).length - 1 - k = i + (mid.length - 1 - k) by omega, this]
        have h2 := getD_reverse_sub mid.reverse k (by simp; omega)
        simp only [List.reverse_reverse, List.length_reverse] at h2
        exact h2.symm

/-- Witness of `read_byte_array`: the test vector of the repository under
big-endian. -/
theorem read_byte_array_witness :
    [0, 0, 0, 0, 0, 0] ≠ [] ∧
    0 + [0, 0, 0, 0, 0, 0].length ≤ [0xaa, 0xbb, 0xcc, 0xdd, 0xee, 0xff].length ∧
    read [0xaa, 0xbb, 0xcc, 0xdd, 0xee, 0xff] .BigEndian
        (.array false ([0, 0, 0, 0, 0, 0].map .uint8)) true true 0
      = some ⟨.array false ((if ByteOrder.BigEndian = .BigEndian
          then (window [0xaa, 0xbb, 0xcc, 0xdd, 0xee, 0xff] 0 [0, 0, 0, 0, 0, 0].length).reverse
          else window [0xaa, 0xbb, 0xcc, 0xdd, 0xee, 0xff] 0 [0, 0, 0, 0, 0, 0].length).map
            .uint8), 0 + [0, 0, 0, 0, 0, 0].length, none⟩ ∧
    (window [0xaa, 0xbb, 0xcc, 0xdd, 0xee, 0xff] 0 6).reverse
      = [0xff, 0xee, 0xdd, 0xcc, 0xbb, 0xaa] :=
  ⟨by decide, by decide,
    (read_byte_array false [0, 0, 0, 0, 0, 0] .BigEndian [0xaa, 0xbb, 0xcc, 0xdd, 0xee, 0xff] 0
      (by decide) (by decide)).1,
    by decide⟩

/-! ## Field directives on decode -/

theorem readFields_cons_cases (b : List Nat) (o : ByteOrder) (f : StructField) (x : Value)
    (rest : List (StructField × Value)) (cs : Bool) (i : Nat) :
    readFields b o ((f, x) :: rest) cs i =
      if f.ignored then
        match readFields b o rest cs i with
        | none => none
        | some rs => some ⟨(f, x) :: rs.val, rs.index, rs.err⟩
      else if f.skipped then
        match sizeOfValue x true with
        | none => none
        | some n =>
          match readFields b o rest cs n with
          | none => none
          | some rs => some ⟨(f, x) :: rs.val, rs.index, rs.err⟩
      else
        match read b (f.orderUnder o) x f.exported (cs && f.exported) i with
        | none => none
        | some r =>
          if fatal r.err then some ⟨(f, r.val) :: rest, r.index, r.err⟩
          else
            match readFields b o rest cs r.index with
            | none => none
            | some rs => some ⟨(f, r.val) :: rs.val, rs.index, rs.err⟩ := by
  cases hig : f.ignored
  · cases hsk : f.skipped
    · rw [readFields_through b o f x rest cs i hig hsk]; rfl
    · rw [readFields_skipped b o f x rest cs i hsk]; rfl
  · rw [readFields_ignored b o f x rest cs i hig]; rfl

theorem readFields_length (b : List Nat) (o : ByteOrder) (cs : Bool) :
    ∀ (fs : List (StructField × Value)) (i : Nat) (r : Outcome (List (StructField × Value))),
    readFields b o fs cs i = some r → r.val.length = fs.length := by
  intro fs
  induction fs with
  | nil =>
    intro i r h
    simp only [readFields, Option.some.injEq] at h
    subst h; rfl
  | cons fx rest ih =>
    obtain ⟨f, x⟩ := fx
    intro i r h
    rw [readFields_cons_cases] at h
    split at h
    · cases h1 : readFields b o rest cs i with
      | none => rw [h1] at h; simp at h
      | some rs =>
        rw [h1] at h
        simp only [Option.some.injEq] at h
        subst h
        simp [ih i rs h1]
    · split at h
      · cases hn : sizeOfValue x true with
        | none => rw [hn] at h; simp at h
        | some n =>
          rw [hn] at h
          simp only at h
          cases h1 : readFields b o rest cs n with
          | none => rw [h1] at h; simp at h
          | some rs =>
            rw [h1] at h
            simp only [Option.some.injEq] at h
            subst h
            simp [ih n rs h1]
      · cases hr : read b (f.orderUnder o) x f.exported (cs && f.exported) i with
        | none => rw [hr] at h; simp at h
        | some rx =>
          rw [hr] at h
          simp only at h
          split at h
          · simp only [Option.some.injEq] at h
            subst h; rfl
          · cases h1 : readFields b o rest cs rx.index with
            | none => rw [h1] at h; simp at h
            | some rs =>
              rw [h1] at h
              simp only [Option.some.injEq] at h
              subst h
              simp [ih rx.index rs h1]

theorem readFields_append (b : List Nat) (o : ByteOrder) (cs : Bool)
    (l : List (StructField × Value)) :
    ∀ (pre : List (StructField × Value)) (i : Nat),
    readFields b o (pre ++ l) cs i =
      match readFields b o pre cs i with
      | none => none
      | some r =>
        if fatal r.err then some ⟨r.val ++ l, r.index, r.err⟩
        else
          match readFields b o l cs r.index with
          | none => none
          | some r2 => some ⟨r.val ++ r2.val, r2.index, r2.err⟩ := by
  intro pre
  induction pre with
  | nil =>
    intro i
    simp only [List.nil_append, readFields, fatal_none, Bool.false_eq_true, if_false]
    cases readFields b o l cs i <;> rfl
  | cons fx pre ih =>
    obtain ⟨f, x⟩ := fx
    intro i
    rw [List.cons_append, readFields_cons_cases, readFields_cons_cases b o f x pre]
    cases hig : f.ignored
    · cases hsk : f.skipped
      · simp only [Bool.false_eq_true, if_false]
        cases read b (f.orderUnder o) x f.exported (cs && f.exported) i with
        | none => rfl
        | some rx =>
          simp only
          cases hfx : fatal rx.err
          · simp only [Bool.false_eq_true, if_false]
            rw [ih rx.index]
            cases readFields b o pre cs rx.index with
            | none => rfl
            | some r =>
              simp only
              cases hf : fatal r.err
              · simp only [Bool.false_eq_true, if_false]
                cases readFields b o l cs r.index <;> rfl
              · simp only [if_true]; rfl
          · simp [hfx]
      · simp only [Bool.false_eq_true, if_false, if_true]
        cases sizeOfValue x true with
        | none => rfl
        | some n =>
          simp only
          rw [ih n]
          cases readFields b o pre cs n with
          | none => rfl
          | some r =>
            simp only
            cases hf : fatal r.err
            · simp only [Bool.false_eq_true, if_false]
              cases readFields b o l cs r.index <;> rfl
            · simp only [if_true]; rfl
    · simp only [if_true]
      rw [ih i]
      cases readFields b o pre cs i with
      | none => rfl
      | some r =>
        simp only
        cases hf : fatal r.err
        · simp only [Bool.false_eq_true, if_false]
          cases readFields b o l cs r.index <;> rfl
        · simp only [if_true]; rfl

theorem insertField_left (l1 l2 : List (StructField × Value)) (k : Nat)
    (fx : StructField × Value) (h : l1.length = k) :
    insertField (l1 ++ l2) k fx = l1 ++ fx :: l2 := by
  unfold insertField
  rw [List.take_left' h, List.drop_left' h]

/-- C8: when `read` decodes a struct, a field whose directive is ignore keeps the
value it had before the call and the cursor is not advanced for it: the outcome
(every other field, the final cursor, the error, or the panic) is exactly the
outcome of decoding the struct with that field removed, with the untouched field
put back in its place.  The annotations `-`, `BE,-` and `LE,-` all give the ignore
directive. -/
theorem read_ignored_field (b : List Nat) (o : ByteOrder)
    (pre post : List (StructField × Value)) (f : StructField) (x : Value) (cs : Bool) (i : Nat)
    (h : f.ignored = true) :
    read b o (.struct (pre ++ (f, x) :: post)) true cs i
      = (read b o (.struct (pre ++ post)) true cs i).map
          (fun r => r.withField pre.length (f, x)) ∧
    (∀ e, StructField.ignored ⟨some "-", e⟩ = true ∧ StructField.ignored ⟨some "BE,-", e⟩ = true
      ∧ StructField.ignored ⟨some "LE,-", e⟩ = true) := by
  refine ⟨?_, fun e => by cases e <;> decide⟩
  simp only [read]
  rw [readFields_append b o cs ((f, x) :: post) pre i, readFields_append b o cs post pre i]
  cases h1 : readFields b o pre cs i with
  | none => rfl
  | some r =>
    have hl := readFields_length b o cs pre i r h1
    simp only
    cases hf : fatal r.err
    · simp only [Bool.false_eq_true, if_false]
      rw [readFields_ignored b o f x post cs r.index h]
      cases readFields b o post cs r.index with
      | none => rfl
      | some r2 =>
        simp only [Option.map_some', Outcome.withField, insertField_left _ _ _ _ hl]
    · simp only [if_true, Option.map_some', Outcome.withField, insertField_left _ _ _ _ hl]

/-- Witness of `read_ignored_field` on the test vector of the repository: the
struct `{Reserved uint8 "-"; Val uint8}` decoded from `ff aa`. -/
theorem read_ignored_field_witness :
    StructField.ignored ⟨some "-", true⟩ = true ∧
    read [0xff, 0xaa] .LittleEndian
        (.struct ([] ++ (⟨some "-", true⟩, .uint8 0) :: [(⟨none, true⟩, .uint8 0)])) true true 0
      = (read [0xff, 0xaa] .LittleEndian (.struct ([] ++ [(⟨none, true⟩, .uint8 0)])) true true 0).map
          (fun r => r.withField ([] : List (StructField × Value)).length
            (⟨some "-", true⟩, .uint8 0)) ∧
    read [0xff, 0xaa] .LittleEndian
        (.struct [(⟨some "-", true⟩, .uint8 0), (⟨none, true⟩, .uint8 0)]) true true 0
      = some ⟨.struct [(⟨some "-", true⟩, .uint8 0), (⟨none, true⟩, .uint8 0xff)], 1, none⟩ :=
  ⟨by decide,
    (read_ignored_field [0xff, 0xaa] .LittleEndian [] [(⟨none, true⟩, .uint8 0)]
      ⟨some "-", true⟩ (.uint8 0) true 0 (by decide)).1,
    by decide⟩

/-- C9 (code at the failing input): decoding `{A uint8; B uint8 "skip"; C uint8}`
from `aa bb cc` at cursor 0, the skip of `B` sets the cursor to the size of `B`
(1) instead of adding it to the cursor (1 + 1), so `C` is decoded from offset 1
(`bb`) and the cursor ends at 2; and a struct `{B uint8 "skip"; C uint8}` entered
at cursor 3 has `C` decoded from offset 1.  `write` on the same struct adds the
size and puts `C` at offset 2. -/
theorem read_skip_sets_cursor :
    read [0xaa, 0xbb, 0xcc] .LittleEndian sampleSkip true true 0
      = some ⟨.struct [(⟨none, true⟩, .uint8 0xaa), (⟨some "skip", true⟩, .uint8 0),
          (⟨none, true⟩, .uint8 0xbb)], 2, none⟩ ∧
    read [0x10, 0x11, 0x12, 0x13, 0x14, 0x15] .LittleEndian
        (.struct [(⟨some "skip", true⟩, .uint8 0), (⟨none, true⟩, .uint8 0)]) true true 3
      = some ⟨.struct [(⟨some "skip", true⟩, .uint8 0), (⟨none, true⟩, .uint8 0x11)], 2,
          none⟩ ∧
    write (.struct [(⟨none, true⟩, .uint8 0xaa), (⟨some "skip", true⟩, .uint8 0),
        (⟨none, true⟩, .uint8 0xcc)]) .LittleEndian [0, 0, 0] true 0
      = some ⟨[0xaa, 0, 0xcc], 3, none⟩ := by
  decide

/-! ## Forced byte order on encode -/

/-- C10 (encode side): in a struct written under the ambient order `o`, a field
tagged `BE` (respectively `LE`) is encoded by `write`, whole subtree included,
exactly as the same field without a tag is encoded under the ambient order
big-endian (respectively little-endian); the struct of the mixed-order test, written
under little-endian, gives the sixteen bytes of the test, the fields without an order
token in little-endian, `F4` in big-endian and the byte array `F5` reversed as a
whole.  The decode side of the claim has no counterpart in the source: the
forced-order branch of `decode.go` does not type-check. -/
theorem write_forced_order (o : ByteOrder) (e : Bool) (x : Value) (b : List Nat) (i : Nat) :
    write (.struct [(⟨some "BE", e⟩, x)]) o b true i
      = write (.struct [(⟨none, e⟩, x)]) .BigEndian b true i ∧
    write (.struct [(⟨some "LE", e⟩, x)]) o b true i
      = write (.struct [(⟨none, e⟩, x)]) .LittleEndian b true i ∧
    write sampleMixedEndian .LittleEndian (List.replicate 16 0) true 0
      = some ⟨[0x57, 0xab, 0xdf, 0x5d, 0xa1, 0xdf, 0xaa, 0x4e, 0x96, 0xb5, 0x3a, 0x5f, 0xe7,
          0x66, 0x92, 0x65], 16, none⟩ ∧
    write sampleMixedEndian .BigEndian (List.replicate 16 0) true 0
      = some ⟨[0x5d, 0xdf, 0xab, 0x57, 0xdf, 0xa1, 0x4e, 0xaa, 0x96, 0xb5, 0x3a, 0x5f, 0xe7,
          0x66, 0x92, 0x65], 16, none⟩ := by
  have hbe : (⟨some "BE", e⟩ : StructField).ignored = false := by
    simp [StructField.ignored, parseStructTag, stringsSplit, splitComma, parseTokens]
  have hbs : (⟨some "BE", e⟩ : StructField).skipped = false := by
    simp [StructField.skipped, parseStructTag, stringsSplit, splitComma, parseTokens]
  have hbo : (⟨some "BE", e⟩ : StructField).orderUnder o = .BigEndian := by
    cases o <;> cases e <;> rfl
  have hle : (⟨some "LE", e⟩ : StructField).ignored = false := by
    simp [StructField.ignored, parseStructTag, stringsSplit, splitComma, parseTokens]
  have hls : (⟨some "LE", e⟩ : StructField).skipped = false := by
    simp [StructField.skipped, parseStructTag, stringsSplit, splitComma, parseTokens]
  have hlo : (⟨some "LE", e⟩ : StructField).orderUnder o = .LittleEndian := by
    cases o <;> cases e <;> rfl
  have hn : ∀ ord : ByteOrder, (⟨none, e⟩ : StructField).orderUnder ord = ord :=
    fun ord => by simp [StructField.orderUnder, parseStructTag]
  refine ⟨?_, ?_, rfl, rfl⟩
  · simp only [write]
    rw [writeFields_through _ x [] o b i hbe hbs, hbo,
      writeFields_through _ x [] .BigEndian b i (ignored_of_untagged rfl)
        (skipped_of_untagged rfl), hn]
    simp only [writeFields]
  · simp only [write]
    rw [writeFields_through _ x [] o b i hle hls, hlo,
      writeFields_through _ x [] .LittleEndian b i (ignored_of_untagged rfl)
        (skipped_of_untagged rfl), hn]
    simp only [writeFields]

/-! ## The buffer keeps its length -/

theorem setIdx_length {b b1 : List Nat} {i x : Nat} (h : setIdx b i x = some b1) :
    b1.length = b.length := by
  unfold setIdx at h
  split at h
  · simp only [Option.some.injEq] at h
    subst h
    simp
  · cases h

theorem putWindow_length : ∀ (w b b1 : List Nat) (i : Nat),
    putWindow b i w = some b1 → b1.length = b.length
  | [], b, b1, i, h => by
    simp only [putWindow, Option.some.injEq] at h
    subst h; rfl
  | x :: w, b, b1, i, h => by
    simp only [putWindow] at h
    cases hs : setIdx b i x with
    | none => rw [hs] at h; cases h
    | some b2 =>
      rw [hs] at h
      rw [putWindow_length w b2 b1 (i + 1) h, setIdx_length hs]

theorem putBytes_length (pos : Nat → Nat) : ∀ (es : List Value) (k : Nat) (b b1 : List Nat),
    putBytes pos es k b = some b1 → b1.length = b.length
  | [], k, b, b1, h => by
    simp only [putBytes, Option.some.injEq] at h
    subst h; rfl
  | e :: es, k, b, b1, h => by
    simp only [putBytes] at h
    cases hu : e.Uint with
    | none => rw [hu] at h; cases h
    | some x =>
      rw [hu] at h
      simp only at h
      cases hs : setIdx b (pos k) (byte x) with
      | none => rw [hs] at h; cases h
      | some b2 =>
        rw [hs] at h
        rw [putBytes_length pos es (k + 1) b2 b1 h, setIdx_length hs]

theorem writeFields_cons_cases (f : StructField) (x : Value)
    (rest : List (StructField × Value)) (o : ByteOrder) (b : List Nat) (i : Nat) :
    writeFields ((f, x) :: rest) o b i =
      if f.ignored then writeFields rest o b i
      else if f.skipped then
        match sizeOfValue x true with
        | none => none
        | some n => writeFields rest o b (i + n)
      else
        match write x (f.orderUnder o) b f.exported i with
        | none => none
        | some r => if fatal r.err then some r else writeFields rest o r.val r.index := by
  cases hig : f.ignored
  · cases hsk : f.skipped
    · rw [writeFields_through f x rest o b i hig hsk]; rfl
    · rw [writeFields_skipped f x rest o b i hsk]; rfl
  · rw [writeFields_ignored f x rest o b i hig]; rfl

mutual
theorem write_keeps_length : ∀ (v : Value) (o : ByteOrder) (b : List Nat) (ci : Bool) (i : Nat)
    (r : Outcome (List Nat)), write v o b ci i = some r → r.val.length = b.length
  | v, o, b, false, i, r, h => by
    rw [write_inaccessible] at h
    cases hn : sizeOfValue v false with
    | none => rw [hn] at h; cases h
    | some n =>
      rw [hn] at h
      simp only [Option.some.injEq] at h
      subst h; rfl
  | .uint8 x, o, b, true, i, r, h => by
    simp only [write] at h
    cases hs : setIdx b i x with
    | none => rw [hs] at h; cases h
    | some b1 =>
      rw [hs] at h
      simp only [Option.some.injEq] at h
      subst h
      exact setIdx_length hs
  | .uint16 x, o, b, true, i, r, h => by
    simp only [write] at h
    cases hs : putWindow b i (o.PutUint16 x) with
    | none => rw [hs] at h; cases h
    | some b1 =>
      rw [hs] at h
      simp only [Option.some.injEq] at h
      subst h
      exact putWindow_length _ b b1 i hs
  | .uint32 x, o, b, true, i, r, h => by
    simp only [write] at h
    cases hs : putWindow b i (o.PutUint32 x) with
    | none => rw [hs] at h; cases h
    | some b1 =>
      rw [hs] at h
      simp only [Option.some.injEq] at h
      subst h
      exact putWindow_length _ b b1 i hs
  | .uint64 x, o, b, true, i, r, h => by
    simp only [write] at h
    cases hs : putWindow b i (o.PutUint64 x) with
    | none => rw [hs] at h; cases h
    | some b1 =>
      rw [hs] at h
      simp only [Option.some.injEq] at h
      subst h
      exact putWindow_length _ b b1 i hs
  | .other _, o, b, true, i, r, h => by
    simp only [write, Option.some.injEq] at h
    subst h; rfl
  | .array _ [], o, b, true, i, r, h => by
    simp only [write, Option.some.injEq] at h
    subst h; rfl
  | .array s (e :: es), o, b, true, i, r, h => by
    simp only [write] at h
    cases hu : e.isUint8
    · rw [hu] at h
      simp only [Bool.false_eq_true, if_false] at h
      exact writeElems_keeps_length (e :: es) o b i r h
    · rw [hu] at h
      simp only [if_true] at h
      generalize hpos : (if o = ByteOrder.BigEndian then fun i_1 => i + (es.length + 1) - 1 - i_1
        else fun i_1 => i + i_1) = pos at h
      cases hs : putBytes pos (e :: es) 0 b with
      | none => rw [hs] at h; cases h
      | some b1 =>
        rw [hs] at h
        simp only [Option.some.injEq] at h
        subst h
        exact putBytes_length pos _ 0 b b1 hs
  | .struct fs, o, b, true, i, r, h => by
    simp only [write] at h
    exact writeFields_keeps_length fs o b i r h
theorem writeElems_keeps_length : ∀ (es : List Value) (o : ByteOrder) (b : List Nat) (i : Nat)
    (r : Outcome (List Nat)), writeElems es o b i = some r → r.val.length = b.length
  | [], o, b, i, r, h => by
    simp only [writeElems, Option.some.injEq] at h
    subst h; rfl
  | e :: es, o, b, i, r, h => by
    simp only [writeElems] at h
    cases hw : write e o b true i with
    | none => rw [hw] at h; cases h
    | some r1 =>
      rw [hw] at h
      simp only at h
      have h1 := write_keeps_length e o b true i r1 hw
      cases hf : fatal r1.err
      · rw [hf] at h
        simp only [Bool.false_eq_true, if_false] at h
        rw [writeElems_keeps_length es o r1.val r1.index r h, h1]
      · rw [hf] at h
        simp only [if_true, Option.some.injEq] at h
        subst h
        exact h1
theorem writeFields_keeps_length : ∀ (fs : List (StructField × Value)) (o : ByteOrder)
    (b : List Nat) (i : Nat) (r : Outcome (List Nat)),
    writeFields fs o b i = some r → r.val.length = b.length
  | [], o, b, i, r, h => by
    simp only [writeFields, Option.some.injEq] at h
    subst h; rfl
  | (f, x) :: rest, o, b, i, r, h => by
    rw [writeFields_cons_cases] at h
    cases hig : f.ignored
    · rw [hig] at h
      simp only [Bool.false_eq_true, if_false] at h
      cases hsk : f.skipped
      · rw [hsk] at h
        simp only [Bool.false_eq_true, if_false] at h
        cases hw : write x (f.orderUnder o) b f.exported i with
        | none => rw [hw] at h; cases h
        | some r1 =>
          rw [hw] at h
          simp only at h
          have h1 := write_keeps_length x (f.orderUnder o) b f.exported i r1 hw
          cases hf : fatal r1.err
          · rw [hf] at h
            simp only [Bool.false_eq_true, if_false] at h
            rw [writeFields_keeps_length rest o r1.val r1.index r h, h1]
          · rw [hf] at h
            simp only [if_true, Option.some.injEq] at h
            subst h
            exact h1
      · rw [hsk] at h
        simp only [if_true] at h
        cases hn : sizeOfValue x true with
        | none => rw [hn] at h; cases h
        | some n =>
          rw [hn] at h
          exact writeFields_keeps_length rest o b (i + n) r h
    · rw [hig] at h
      simp only [if_true] at h
      exact writeFields_keeps_length rest o b i r h
end

theorem WriteValue_length (w : List Nat → Option Error) (o : ByteOrder) (v : Value)
    (e : Emitted) (h : WriteValue w o v = some e) :
    sizeOfValue v true = some e.bytes.length := by
  unfold WriteValue at h
  cases hn : sizeOfValue v true with
  | none => rw [hn] at h; cases h
  | some n =>
    rw [hn] at h
    simp only at h
    cases hw : write v o (List.replicate n 0) true 0 with
    | none => rw [hw] at h; cases h
    | some r =>
      rw [hw] at h
      simp only [Option.some.injEq] at h
      subst h
      have := write_keeps_length v o _ true 0 r hw
      simp only [List.length_replicate] at this
      rw [this]

/-! ## Size of the emitted byte sequence -/

/-- C3 (counterexample): for the struct `{A uint8 "-"; B uint8}` the byte sequence
`Write` emits has length 1, while the physical size `sizeOfValue(v, false)`, which
counts the ignored field, is 2. -/
theorem Write_length_not_physical :
    (Write (fun _ => none) (fun _ _ => none) .LittleEndian (.val sampleIgnored)).map
        (fun e => e.bytes.length) = some 1 ∧
    sizeOfValue sampleIgnored false = some 2 := by
  decide

/-- C3 (amended): for every input that `Write` handles itself (a pointer, array,
slice or struct) and every byte order, the byte sequence `Write` emits has length
`sizeOfValue(v, true)`, the size that leaves out the fields marked ignore and
counts the skipped ones; and `Write` does return and emit that many bytes for
every value built from unsigned scalars, homogeneous arrays and structs (ignored,
skipped and forced-order fields allowed; unexported fields allowed when their
physical and logical sizes agree). -/
theorem Write_length (w : List Nat → Option Error)
    (binaryWrite : ByteOrder → Value → Option Emitted) (o : ByteOrder) (input : Input)
    (v : Value) (hin : input.engine = some v) :
    (∀ e, Write w binaryWrite o input = some e → sizeOfValue v true = some e.bytes.length) ∧
    (Sized v = true →
      (sizeOfValue v true).isSome = true ∧
      (Write w binaryWrite o input).map (fun e => e.bytes.length) = sizeOfValue v true) := by
  have hW : Write w binaryWrite o input = WriteValue w o v := by
    cases input with
    | ptr x =>
      simp only [Input.engine, Option.some.injEq] at hin
      subst hin
      rfl
    | val x =>
      cases x <;> simp only [Input.engine, Option.some.injEq, reduceCtorEq] at hin <;>
        subst hin <;> rfl
  rw [hW]
  exact ⟨fun e he => WriteValue_length w o v e he,
    fun h => ⟨sized_size v h, WriteValue_sized w o v h⟩⟩

/-- Witness of `Write_length` on a struct with skipped, ignored, forced-order and
unexported fields, passed by value under big-endian. -/
theorem Write_length_witness :
    Input.engine (.val sampleSized) = some sampleSized ∧ Sized sampleSized = true ∧
    ((sizeOfValue sampleSized true).isSome = true ∧
    (Write (fun _ => none) (fun _ _ => none) .BigEndian (.val sampleSized)).map
      (fun e => e.bytes.length) = sizeOfValue sampleSized true) ∧
    sizeOfValue sampleSized true = some 6 ∧ sizeOfValue sampleSized false = some 10 :=
  ⟨by decide, by decide,
    (Write_length (fun _ => none) (fun _ _ => none) .BigEndian (.val sampleSized) sampleSized
      (by decide)).2 (by decide),
    by decide, by decide⟩

/-! ## Inaccessible fields on decode -/

/-- C11: when `read` meets a struct field that cannot be accessed (unexported, not
ignored or skipped by its tag), it leaves the field unchanged and advances the
cursor by the physical size `sizeOfValue(field, false)`; the error it returns is
swallowed by the field loop, which goes on with the next field at that cursor, so
the struct is decoded as the fields before, the untouched field, and the fields
after decoded from the offset behind the bytes of the inaccessible field; the only
error the caller can see is one of the other fields. -/
theorem read_inaccessible_field (b : List Nat) (o : ByteOrder)
    (pre post : List (StructField × Value)) (f : StructField) (x : Value) (cs : Bool)
    (i n : Nat) (r : Outcome (List (StructField × Value)))
    (hf : f.exported = false) (hig : f.ignored = false) (hsk : f.skipped = false)
    (hn : sizeOfValue x false = some n)
    (hpre : readFields b o pre cs i = some r) (hok : fatal r.err = false) :
    (∀ ord j, read b ord x f.exported (cs && f.exported) j
      = some ⟨x, j + n, some .errCannotInterface⟩) ∧
    read b o (.struct (pre ++ (f, x) :: post)) true cs i =
      match readFields b o post cs (r.index + n) with
      | none => none
      | some r2 => some ⟨.struct (r.val ++ (f, x) :: r2.val), r2.index, r2.err⟩ := by
  have h1 : ∀ ord j, read b ord x f.exported (cs && f.exported) j
      = some ⟨x, j + n, some .errCannotInterface⟩ := by
    intro ord j
    rw [hf, read_inaccessible, hn]
  refine ⟨h1, ?_⟩
  simp only [read]
  rw [readFields_append b o cs ((f, x) :: post) pre i, hpre]
  simp only [hok, Bool.false_eq_true, if_false]
  rw [readFields_through b o f x post cs r.index hig hsk, h1]
  simp only [fatal_errCannotInterface, Bool.false_eq_true, if_false]
  cases readFields b o post cs (r.index + n) <;> rfl

/-- Witness of `read_inaccessible_field` on the test vector of the repository: the
struct `{A uint8; _ uint8; B uint8}` decoded from `aa fb cc`. -/
theorem read_inaccessible_field_witness :
    sizeOfValue (.uint8 0) false = some 1 ∧
    readFields [0xaa, 0xfb, 0xcc] .LittleEndian [((⟨none, true⟩ : StructField), Value.uint8 0)]
      true 0 = some ⟨[(⟨none, true⟩, .uint8 0xaa)], 1, none⟩ ∧
    ((∀ ord j, read [0xaa, 0xfb, 0xcc] ord (.uint8 0) false (true && false) j
      = some ⟨.uint8 0, j + 1, some .errCannotInterface⟩) ∧
    read [0xaa, 0xfb, 0xcc] .LittleEndian
        (.struct ([(⟨none, true⟩, .uint8 0)] ++ (⟨none, false⟩, .uint8 0)
          :: [(⟨none, true⟩, .uint8 0)])) true true 0 =
      match readFields [0xaa, 0xfb, 0xcc] .LittleEndian
          [((⟨none, true⟩ : StructField), Value.uint8 0)] true (1 + 1) with
      | none => none
      | some r2 => some ⟨.struct ([(⟨none, true⟩, .uint8 0xaa)] ++ (⟨none, false⟩, .uint8 0)
          :: r2.val), r2.index, r2.err⟩) ∧
    read [0xaa, 0xfb, 0xcc] .LittleEndian sampleUnexported true true 0
      = some ⟨.struct [(⟨none, true⟩, .uint8 0xaa), (⟨none, false⟩, .uint8 0),
          (⟨none, true⟩, .uint8 0xcc)], 3, none⟩ ∧
    (ReadValue (bytesReader [0xaa, 0xfb, 0xcc]) .LittleEndian sampleUnexported).map
        (fun d => (d.val, d.err))
      = some (.struct [(⟨none, true⟩, .uint8 0xaa), (⟨none, false⟩, .uint8 0),
          (⟨none, true⟩, .uint8 0xcc)], none) :=
  ⟨by decide, by decide,
    read_inaccessible_field [0xaa, 0xfb, 0xcc] .LittleEndian [(⟨none, true⟩, .uint8 0)]
      [(⟨none, true⟩, .uint8 0)] ⟨none, false⟩ (.uint8 0) true 0 1
      ⟨[(⟨none, true⟩, .uint8 0xaa)], 1, none⟩ rfl (by decide) (by decide) (by decide)
      (by decide) rfl,
    by decide, by decide⟩

/-! ## Top-level `Read`: short input -/

/-- C12 (counterexample): the target `{A uint8 "-"; B uint8}` has physical size 2;
a source holding the single byte `ff` holds fewer bytes than that, yet `Read`
reports success and decodes `B = ff`, because it sizes its buffer with
`sizeOfValue(v, true)`, which is 1. -/
theorem Read_succeeds_below_physical_size :
    sizeOfValue sampleIgnored.zero false = some 2 ∧ [0xff].length < 2 ∧
    Read (bytesReader [0xff]) (fun _ _ => none) .LittleEndian (.ptr sampleIgnored.zero)
      = some ⟨.struct [(⟨some "-", true⟩, .uint8 0), (⟨none, true⟩, .uint8 0xff)], none⟩ := by
  decide

/-- C12 (amended): for every target whose size is defined and every reader over a
source that holds fewer bytes than the logical size `sizeOfValue(target, true)`
(so that no call can deliver that many), `Read` returns an error: the error of the
reader when it reports one (such as `io.EOF`), the short-read error otherwise.
The target is left untouched and `read` does not run, so nothing is indexed and the
call does not report success. -/
theorem Read_short_input (r : Nat → ReadReply)
    (binaryRead : ByteOrder → Value → Option Decoded) (o : ByteOrder) (v : Value) (c k : Nat)
    (hc : sizeOfValue v true = some c) (hk : k < c) (hr : ∀ m, (r m).data.length ≤ k) :
    Read r binaryRead o (.ptr v) = some ⟨v, some ((r c).err.getD .shortRead)⟩ := by
  have hne : (r c).data.length ≠ c := by
    have := hr c
    omega
  simp only [Read, ReadValue, hc]
  cases (r c).err with
  | some e => rfl
  | none => simp [hne]

/-- Witness of `Read_short_input`: the three-byte struct `{A uint8; _ uint8; B uint8}`
read from a source of two bytes gives the short-read error. -/
theorem Read_short_input_witness :
    sizeOfValue sampleUnexported true = some 3 ∧ 2 < 3 ∧
    (∀ m, (bytesReader [0xaa, 0xfb] m).data.length ≤ 2) ∧
    Read (bytesReader [0xaa, 0xfb]) (fun _ _ => none) .LittleEndian (.ptr sampleUnexported)
      = some ⟨sampleUnexported,
          some (((bytesReader [0xaa, 0xfb]) 3).err.getD .shortRead)⟩ ∧
    ((bytesReader [0xaa, 0xfb]) 3).err.getD .shortRead = .shortRead :=
  ⟨by decide, by decide, fun m => by simp [bytesReader],
    Read_short_input (bytesReader [0xaa, 0xfb]) (fun _ _ => none) .LittleEndian
      sampleUnexported 3 2 (by decide) (by decide) (fun m => by simp [bytesReader]),
    by decide⟩

/-! ## Unsupported shapes on decode -/

theorem readElems_cons (b : List Nat) (o : ByteOrder) (e : Value) (es : List Value)
    (cs : Bool) (i : Nat) :
    readElems b o (e :: es) cs i =
      match read b o e true cs i with
      | none => none
      | some r =>
        if fatal r.err then some ⟨r.val :: es, r.index, r.err⟩
        else
          match readElems b o es cs r.index with
          | none => none
          | some rs => some ⟨r.val :: rs.val, rs.index, rs.err⟩ := by
  rw [readElems]

theorem readElems_append (b : List Nat) (o : ByteOrder) (cs : Bool) (l : List Value) :
    ∀ (pre : List Value) (i : Nat),
    readElems b o (pre ++ l) cs i =
      match readElems b o pre cs i with
      | none => none
      | some r =>
        if fatal r.err then some ⟨r.val ++ l, r.index, r.err⟩
        else
          match readElems b o l cs r.index with
          | none => none
          | some r2 => some ⟨r.val ++ r2.val, r2.index, r2.err⟩ := by
  intro pre
  induction pre with
  | nil =>
    intro i
    simp only [List.nil_append, readElems, fatal_none, Bool.false_eq_true, if_false]
    cases readElems b o l cs i <;> rfl
  | cons e pre ih =>
    intro i
    rw [List.cons_append, readElems_cons, readElems_cons]
    cases read b o e true cs i with
    | none => rfl
    | some rx =>
      simp only
      cases hfx : fatal rx.err
      · simp only [Bool.false_eq_true, if_false]
        rw [ih rx.index]
        cases readElems b o pre cs rx.index with
        | none => rfl
        | some r =>
          simp only
          cases hf : fatal r.err
          · simp only [Bool.false_eq_true, if_false]
            cases readElems b o l cs r.index <;> rfl
          · simp only [if_true]; rfl
      · simp [hfx]

theorem fatal_notSupported : fatal (some .notSupported) = true := rfl

theorem read_other (b : List Nat) (o : ByteOrder) (bits : Option Nat) (cs : Bool) (i : Nat) :
    read b o (.other bits) true cs i = some ⟨.other bits, i, some .notSupported⟩ := by
  rw [read]

theorem read_struct_fatal (b : List Nat) (o : ByteOrder)
    (pre post : List (StructField × Value)) (f : StructField) (x : Value) (cs : Bool) (i : Nat)
    (r : Outcome (List (StructField × Value))) (rx : Outcome Value)
    (hig : f.ignored = false) (hsk : f.skipped = false)
    (hpre : readFields b o pre cs i = some r) (hok : fatal r.err = false)
    (hx : read b (f.orderUnder o) x f.exported (cs && f.exported) r.index = some rx)
    (hfx : fatal rx.err = true) :
    read b o (.struct (pre ++ (f, x) :: post)) true cs i
      = some ⟨.struct (r.val ++ (f, rx.val) :: post), rx.index, rx.err⟩ := by
  simp only [read]
  rw [readFields_append b o cs ((f, x) :: post) pre i, hpre]
  simp only [hok, Bool.false_eq_true, if_false]
  rw [readFields_through b o f x post cs r.index hig hsk, hx]
  simp only [hfx, if_true]

theorem read_array_fatal (b : List Nat) (o : ByteOrder) (s : Bool) (pre post : List Value)
    (x : Value) (cs : Bool) (i : Nat) (r : Outcome (List Value)) (rx : Outcome Value)
    (hhead : ∀ e0 ∈ (pre ++ x :: post).head?, e0.isUint8 = false)
    (hpre : readElems b o pre (s || cs) i = some r) (hok : fatal r.err = false)
    (hx : read b o x true (s || cs) r.index = some rx) (hfx : fatal rx.err = true) :
    read b o (.array s (pre ++ x :: post)) true cs i
      = some ⟨.array s (r.val ++ rx.val :: post), rx.index, rx.err⟩ := by
  have hre : readElems b o (pre ++ x :: post) (s || cs) i
      = some ⟨r.val ++ rx.val :: post, rx.index, rx.err⟩ := by
    rw [readElems_append b o (s || cs) (x :: post) pre i, hpre]
    simp only [hok, Bool.false_eq_true, if_false, readElems_cons, hx, hfx, if_true]
  cases hl : pre ++ x :: post with
  | nil => simp at hl
  | cons e0 es =>
    rw [hl] at hhead hre
    have h0 : e0.isUint8 = false := hhead e0 (by simp)
    simp only [read, h0, Bool.false_eq_true, if_false, hre]

theorem ReadValue_surfaces (r : Nat → ReadReply) (o : ByteOrder) (v : Value) (c : Nat)
    (res : Outcome Value) (hc : sizeOfValue v true = some c) (he : (r c).err = none)
    (hl : (r c).data.length = c) (hread : read (r c).data o v true true 0 = some res)
    (hfat : fatal res.err = true) (heof : res.err ≠ some .eof) :
    ReadValue r o v = some ⟨res.val, res.err⟩ := by
  have hci : res.err ≠ some .errCannotInterface := by
    intro h; rw [h] at hfat; cases hfat
  simp only [ReadValue, hc, he, hl, Nat.sub_self, List.replicate_zero, List.append_nil, hread]
  simp [heof, hci]

/-- C13 (counterexample): in the struct `{A int32 "-"; B uint8}` the field `A` has
an unsupported shape, yet `read` returns no error and decodes the later field `B`:
an ignored field is never handed to `read`. -/
theorem read_unsupported_ignored_field :
    read [7] .LittleEndian sampleIgnoredSigned true true 0
      = some ⟨.struct [(⟨some "-", true⟩, .other (some 32)), (⟨none, true⟩, .uint8 7)],
          1, none⟩ := by
  decide

/-- C13 (amended): `read` returns the 'Not Supported' error, without moving the
cursor, for every accessible value whose shape is not an unsigned scalar, an array
or a struct.  When the decoding of an array element, or of a struct field that is
neither ignored nor skipped, returns that error (the elements or fields before it
having been decoded without a fatal error), the enclosing `read` returns that
error at once and leaves every later element or field as it was; and `Read`,
once its buffer has been filled, returns that error to its caller. -/
theorem read_unsupported (b : List Nat) (o : ByteOrder) (cs : Bool) (i : Nat) :
    (∀ bits, read b o (.other bits) true cs i = some ⟨.other bits, i, some .notSupported⟩) ∧
    (∀ s pre post x r rx, (∀ e0 ∈ (pre ++ x :: post).head?, e0.isUint8 = false) →
      readElems b o pre (s || cs) i = some r → fatal r.err = false →
      read b o x true (s || cs) r.index = some rx → rx.err = some .notSupported →
      read b o (.array s (pre ++ x :: post)) true cs i
        = some ⟨.array s (r.val ++ rx.val :: post), rx.index, some .notSupported⟩) ∧
    (∀ pre post f x r rx, f.ignored = false → f.skipped = false →
      readFields b o pre cs i = some r → fatal r.err = false →
      read b (f.orderUnder o) x f.exported (cs && f.exported) r.index = some rx →
      rx.err = some .notSupported →
      read b o (.struct (pre ++ (f, x) :: post)) true cs i
        = some ⟨.struct (r.val ++ (f, rx.val) :: post), rx.index, some .notSupported⟩) ∧
    (∀ (rd : Nat → ReadReply) binaryRead v c res, sizeOfValue v true = some c →
      (rd c).err = none → (rd c).data.length = c →
      read (rd c).data o v true true 0 = some res → res.err = some .notSupported →
      Read rd binaryRead o (.ptr v) = some ⟨res.val, some .notSupported⟩) := by
  refine ⟨fun bits => read_other b o bits cs i, ?_, ?_, ?_⟩
  · intro s pre post x r rx hhead hpre hok hx he
    have := read_array_fatal b o s pre post x cs i r rx hhead hpre hok hx
      (by rw [he]; rfl)
    rw [this, he]
  · intro pre post f x r rx hig hsk hpre hok hx he
    have := read_struct_fatal b o pre post f x cs i r rx hig hsk hpre hok hx
      (by rw [he]; rfl)
    rw [this, he]
  · intro rd binaryRead v c res hc herr hl hread he
    have := ReadValue_surfaces rd o v c res hc herr hl hread (by rw [he]; rfl)
      (by rw [he]; decide)
    simp only [Read, this, he]

/-- Witness of `read_unsupported`: in `{A uint8; B int32; C uint8}` decoded from six
bytes the field `B` stops the decoding; `A` is decoded, `C` is not, and `Read`
returns the error. -/
theorem read_unsupported_witness :
    StructField.ignored ⟨none, true⟩ = false ∧ StructField.skipped ⟨none, true⟩ = false ∧
    readFields [1, 2, 3, 4, 5, 6] .LittleEndian [((⟨none, true⟩ : StructField), Value.uint8 0)]
      true 0 = some ⟨[(⟨none, true⟩, .uint8 1)], 1, none⟩ ∧
    read [1, 2, 3, 4, 5, 6] .LittleEndian
        (.struct ([(⟨none, true⟩, .uint8 0)] ++ (⟨none, true⟩, .other (some 32))
          :: [(⟨none, true⟩, .uint8 0)])) true true 0
      = some ⟨.struct ([(⟨none, true⟩, .uint8 1)] ++ (⟨none, true⟩, .other (some 32))
          :: [(⟨none, true⟩, .uint8 0)]), 1, some .notSupported⟩ ∧
    Read (bytesReader [1, 2, 3, 4, 5, 6]) (fun _ _ => none) .LittleEndian (.ptr sampleSigned)
      = some ⟨.struct [(⟨none, true⟩, .uint8 1), (⟨none, true⟩, .other (some 32)),
          (⟨none, true⟩, .uint8 0)], some .notSupported⟩ :=
  ⟨by decide, by decide, by decide,
    (read_unsupported [1, 2, 3, 4, 5, 6] .LittleEndian true 0).2.2.1
      [(⟨none, true⟩, .uint8 0)] [(⟨none, true⟩, .uint8 0)] ⟨none, true⟩ (.other (some 32))
      ⟨[(⟨none, true⟩, .uint8 1)], 1, none⟩ ⟨.other (some 32), 1, some .notSupported⟩
      (by decide) (by decide) (by decide) rfl (by decide) rfl,
    by decide⟩

/-! ## Unsupported shapes on encode -/

/-- C14 (code at the failing input): for the struct `{A int32}` passed by value,
`write` returns the 'Not Supported' error on the four-byte buffer, but `Write`
hands the buffer to the writer and returns the writer's result: with a writer that
accepts the bytes, `Write` returns `nil` and emits four zero bytes. -/
theorem Write_drops_unsupported_error :
    sizeOfValue (.struct [(⟨none, true⟩, .other (some 32))]) true = some 4 ∧
    write (.struct [(⟨none, true⟩, .other (some 32))]) .LittleEndian (List.replicate 4 0)
      true 0 = some ⟨[0, 0, 0, 0], 0, some .notSupported⟩ ∧
    Write (fun _ => none) (fun _ _ => none) .LittleEndian
      (.val (.struct [(⟨none, true⟩, .other (some 32))])) = some ⟨[0, 0, 0, 0], none⟩ ∧
    Write (fun _ => none) (fun _ _ => none) .LittleEndian
      (.ptr (.struct [(⟨none, true⟩, .other (some 32))])) = some ⟨[0, 0, 0, 0], none⟩ := by
  decide

/-! ## Cursor -/

/-- C16 (code at the failing input): `read` on the struct `{B uint8 "skip"}` entered
at cursor 3 ends with the cursor at 1, and on `{A uint32; B uint8 "skip"}` entered
at cursor 0 the cursor goes from 4 after `A` back to 1; `write` on the same structs
ends at 4 and 5. -/
theorem read_cursor_moves_back :
    read [0, 0, 0, 0, 0, 0] .LittleEndian
        (.struct [(⟨some "skip", true⟩, .uint8 0)]) true true 3
      = some ⟨.struct [(⟨some "skip", true⟩, .uint8 0)], 1, none⟩ ∧
    read [0, 0, 0, 0, 0, 0] .LittleEndian (.uint32 0) true true 0
      = some ⟨.uint32 0, 4, none⟩ ∧
    read [0, 0, 0, 0, 0, 0] .LittleEndian
        (.struct [(⟨none, true⟩, .uint32 0), (⟨some "skip", true⟩, .uint8 0)]) true true 0
      = some ⟨.struct [(⟨none, true⟩, .uint32 0), (⟨some "skip", true⟩, .uint8 0)], 1, none⟩ ∧
    write (.struct [(⟨some "skip", true⟩, .uint8 0)]) .LittleEndian [0, 0, 0, 0, 0, 0] true 3
      = some ⟨[0, 0, 0, 0, 0, 0], 4, none⟩ ∧
    write (.struct [(⟨none, true⟩, .uint32 0), (⟨some "skip", true⟩, .uint8 0)])
        .LittleEndian [0, 0, 0, 0, 0, 0] true 0
      = some ⟨[0, 0, 0, 0, 0, 0], 5, none⟩ := by
  decide

/-! ## Tag parsing -/

/-- C17: `parseStructTag` returns no directive when the field has no `endian`
annotation, and for the single-token annotations `-`, `skip`, `LE` and `BE` it
returns a directive with, respectively, ignore set, skip set, forced order
`Endian_Type_LE` and forced order `Endian_Type_BE`, every other component being at
its default; the three order constants are distinct. -/
theorem parseStructTag_single_token :
    parseStructTag none = none ∧
    parseStructTag (some "-") = some ⟨true, false, Endian_Type_BLANK⟩ ∧
    parseStructTag (some "skip") = some ⟨false, true, Endian_Type_BLANK⟩ ∧
    parseStructTag (some "LE") = some ⟨false, false, Endian_Type_LE⟩ ∧
    parseStructTag (some "BE") = some ⟨false, false, Endian_Type_BE⟩ ∧
    Endian_Type_LE ≠ Endian_Type_BLANK ∧ Endian_Type_BE ≠ Endian_Type_BLANK ∧
    Endian_Type_LE ≠ Endian_Type_BE := by
  decide

/-- The size calculator panics on a struct with a `bool` field (`Type().Bits()` on a
non-arithmetic type), and so do `Read` and `Write` on it. -/
theorem sizeOfValue_bool_panics :
    sizeOfValue sampleBool true = none ∧
    (Read (bytesReader [1]) (fun _ _ => none) .LittleEndian (.ptr sampleBool)).isNone = true ∧
    (Write (fun _ => none) (fun _ _ => none) .LittleEndian (.val sampleBool)).isNone = true := by
  decide

/-! ## Size calculator against its reference definition -/

mutual
theorem sizeOfValueRecursive_ref : ∀ (v : Value) (h : Bool) (c : Nat), Supported v = true →
    sizeOfValueRecursive c v h = some (c + sizeRef v h)
  | .uint8 _, _, _, _ => by simp [sizeOfValueRecursive, sizeRef]
  | .uint16 _, _, _, _ => by simp [sizeOfValueRecursive, sizeRef]
  | .uint32 _, _, _, _ => by simp [sizeOfValueRecursive, sizeRef]
  | .uint64 _, _, _, _ => by simp [sizeOfValueRecursive, sizeRef]
  | .other _, _, _, hs => by simp [Supported] at hs
  | .array _ [], _, _, _ => by simp [sizeOfValueRecursive, sizeRef]
  | .array _ (e :: es), h, c, hs => by
    simp only [Supported, SupportedElems, Bool.and_eq_true] at hs
    simp only [sizeOfValueRecursive, sizeRef]
    rw [sizeOfValueRecursive_ref e h 0 hs.1]
    simp [Nat.mul_comm]
  | .struct fs, h, c, hs => by
    simp only [Supported] at hs
    simp only [sizeOfValueRecursive, sizeRef]
    exact sizeOfFields_ref fs h c hs
theorem sizeOfFields_ref : ∀ (fs : List (StructField × Value)) (h : Bool) (c : Nat),
    SupportedFields fs = true → sizeOfFields c fs h = some (c + sizeRefFields fs h)
  | [], _, _, _ => by simp [sizeOfFields, sizeRefFields]
  | (f, x) :: rest, true, c, hs => by
    simp only [SupportedFields, Bool.and_eq_true] at hs
    rw [sizeOfFields_cons_true, sizeRefFields]
    cases hig : f.ignored
    · simp only [Bool.false_eq_true, if_false, Bool.and_false]
      have := sizeOfValueRecursive_ref x true 0 hs.1
      rw [sizeOfValue, this]
      simp only [Nat.zero_add]
      rw [sizeOfFields_ref rest true _ hs.2, Nat.add_assoc]
    · simp only [if_true, Bool.and_self, Nat.zero_add]
      exact sizeOfFields_ref rest true c hs.2
  | (f, x) :: rest, false, c, hs => by
    simp only [SupportedFields, Bool.and_eq_true] at hs
    rw [sizeOfFields_cons_false, sizeRefFields]
    have := sizeOfValueRecursive_ref x false 0 hs.1
    rw [sizeOfValue, this]
    simp only [Nat.zero_add, Bool.false_and, Bool.false_eq_true, if_false]
    rw [sizeOfFields_ref rest false _ hs.2, Nat.add_assoc]
end

/-- C15: for every value of a supported shape, `sizeOfValue(v, h)` is defined and
equals the reference definition: 1, 2, 4 or 8 for a scalar of 8, 16, 32 or 64 bits;
for an array, 0 if it is empty and otherwise its length times the size of its first
element; for a struct, the sum of the sizes of its fields, where with `h = true`
every ignored field contributes 0 (a skipped field contributes its full size) and
with `h = false` every field, annotated or not, contributes its full size. -/
theorem sizeOfValue_eq_sizeRef (v : Value) (h : Bool) (hs : Supported v = true) :
    sizeOfValue v h = some (sizeRef v h) := by
  have := sizeOfValueRecursive_ref v h 0 hs
  simpa [sizeOfValue] using this

/-- Witness of `sizeOfValue_eq_sizeRef` on a struct with skipped, ignored,
forced-order and unexported fields and an empty slice: 6 bytes with the ignored
field left out, 10 bytes with it. -/
theorem sizeOfValue_eq_sizeRef_witness :
    Supported sampleSized = true ∧
    sizeOfValue sampleSized true = some (sizeRef sampleSized true) ∧
    sizeOfValue sampleSized false = some (sizeRef sampleSized false) ∧
    sizeRef sampleSized true = 6 ∧ sizeRef sampleSized false = 10 :=
  ⟨by decide, sizeOfValue_eq_sizeRef sampleSized true (by decide),
    sizeOfValue_eq_sizeRef sampleSized false (by decide), by decide, by decide⟩

/-! ## Tag parsing: tokens -/

theorem splitComma_token : ∀ (t acc : List Char), ',' ∉ t →
    splitComma acc t = [String.mk (acc.reverse ++ t)]
  | [], acc, _ => by simp [splitComma]
  | c :: t, acc, h => by
    have hc : c ≠ ',' := fun e => h (by simp [e])
    have ht : ',' ∉ t := fun e => h (by simp [e])
    rw [splitComma, if_neg hc, splitComma_token t (c :: acc) ht]
    simp

theorem splitComma_token_comma : ∀ (t acc cs : List Char), ',' ∉ t →
    splitComma acc (t ++ ',' :: cs) = String.mk (acc.reverse ++ t) :: splitComma [] cs
  | [], acc, cs, _ => by simp [splitComma]
  | c :: t, acc, cs, h => by
    have hc : c ≠ ',' := fun e => h (by simp [e])
    have ht : ',' ∉ t := fun e => h (by simp [e])
    rw [List.cons_append, splitComma, if_neg hc, splitComma_token_comma t (c :: acc) cs ht]
    simp

theorem isToken_iff (t : String) : isToken t = true ↔ ',' ∉ t.data := by
  simp [isToken]

theorem stringsSplit_joinComma : ∀ (ts : List String), ts ≠ [] →
    (∀ t ∈ ts, isToken t = true) → stringsSplit (joinComma ts) = ts
  | [], h, _ => absurd rfl h
  | [t], _, ht => by
    have := (isToken_iff t).mp (ht t (by simp))
    simp only [stringsSplit, joinComma, joinChars]
    rw [splitComma_token t.data [] this]
    simp
  | t :: t1 :: ts, _, ht => by
    have h0 := (isToken_iff t).mp (ht t (by simp))
    have ih := stringsSplit_joinComma (t1 :: ts) (by simp)
      (fun u hu => ht u (List.mem_cons_of_mem _ hu))
    simp only [stringsSplit, joinComma, joinChars] at ih ⊢
    rw [splitComma_token_comma t.data [] _ h0, ih]
    simp

theorem parseTokens_unrecognized (v : String) (ts : List String) (ret : tagConfig)
    (h : recognized v = false) : parseTokens (v :: ts) ret = parseTokens ts ret := by
  simp only [recognized, Bool.or_eq_false_iff, decide_eq_false_iff_not] at h
  obtain ⟨⟨⟨h1, h2⟩, h3⟩, h4⟩ := h
  simp [parseTokens, h1, h2, h3, h4]

theorem parseTokens_filter : ∀ (ts : List String) (ret : tagConfig),
    parseTokens (ts.filter recognized) ret = parseTokens ts ret
  | [], _ => rfl
  | v :: ts, ret => by
    cases hv : recognized v
    · rw [List.filter_cons_of_neg (by simp [hv]), parseTokens_unrecognized v ts ret hv]
      exact parseTokens_filter ts ret
    · rw [List.filter_cons_of_pos hv]
      simp only [parseTokens]
      split
      · rfl
      · split
        · rfl
        · split
          · exact parseTokens_filter ts _
          · split
            · exact parseTokens_filter ts _
            · exact parseTokens_filter ts _

theorem parseTokens_all_unrecognized : ∀ (ts : List String) (ret : tagConfig),
    (∀ t ∈ ts, recognized t = false) → parseTokens ts ret = ret
  | [], _, _ => rfl
  | v :: ts, ret, h => by
    rw [parseTokens_unrecognized v ts ret (h v (by simp))]
    exact parseTokens_all_unrecognized ts ret (fun t ht => h t (List.mem_cons_of_mem _ ht))

theorem parseTokens_append_ignore : ∀ (xs ys : List String) (ret : tagConfig),
    "-" ∉ xs → "skip" ∉ xs →
    parseTokens (xs ++ "-" :: ys) ret
      = ⟨true, (parseTokens xs ret).skip, (parseTokens xs ret).endian⟩
  | [], ys, ret, _, _ => by simp [parseTokens]
  | v :: xs, ys, ret, h1, h2 => by
    have hv1 : v ≠ "-" := fun e => h1 (by simp [e])
    have hv2 : v ≠ "skip" := fun e => h2 (by simp [e])
    have hx1 : "-" ∉ xs := fun e => h1 (List.mem_cons_of_mem _ e)
    have hx2 : "skip" ∉ xs := fun e => h2 (List.mem_cons_of_mem _ e)
    simp only [List.cons_append, parseTokens, hv1, hv2, if_false]
    split
    · exact parseTokens_append_ignore xs ys _ hx1 hx2
    · split
      · exact parseTokens_append_ignore xs ys _ hx1 hx2
      · exact parseTokens_append_ignore xs ys _ hx1 hx2

theorem parseTokens_append_skip : ∀ (xs ys : List String) (ret : tagConfig),
    "-" ∉ xs → "skip" ∉ xs →
    parseTokens (xs ++ "skip" :: ys) ret
      = ⟨(parseTokens xs ret).ignore, true, (parseTokens xs ret).endian⟩
  | [], ys, ret, _, _ => by simp [parseTokens]
  | v :: xs, ys, ret, h1, h2 => by
    have hv1 : v ≠ "-" := fun e => h1 (by simp [e])
    have hv2 : v ≠ "skip" := fun e => h2 (by simp [e])
    have hx1 : "-" ∉ xs := fun e => h1 (List.mem_cons_of_mem _ e)
    have hx2 : "skip" ∉ xs := fun e => h2 (List.mem_cons_of_mem _ e)
    simp only [List.cons_append, parseTokens, hv1, hv2, if_false]
    split
    · exact parseTokens_append_skip xs ys _ hx1 hx2
    · split
      · exact parseTokens_append_skip xs ys _ hx1 hx2
      · exact parseTokens_append_skip xs ys _ hx1 hx2

theorem parseTokens_no_terminal : ∀ (xs : List String) (ret : tagConfig),
    "-" ∉ xs → "skip" ∉ xs →
    (parseTokens xs ret).ignore = ret.ignore ∧ (parseTokens xs ret).skip = ret.skip
  | [], _, _, _ => ⟨rfl, rfl⟩
  | v :: xs, ret, h1, h2 => by
    have hv1 : v ≠ "-" := fun e => h1 (by simp [e])
    have hv2 : v ≠ "skip" := fun e => h2 (by simp [e])
    have hx1 : "-" ∉ xs := fun e => h1 (List.mem_cons_of_mem _ e)
    have hx2 : "skip" ∉ xs := fun e => h2 (List.mem_cons_of_mem _ e)
    simp only [parseTokens, hv1, hv2, if_false]
    split
    · exact parseTokens_no_terminal xs _ hx1 hx2
    · split
      · exact parseTokens_no_terminal xs _ hx1 hx2
      · exact parseTokens_no_terminal xs _ hx1 hx2

theorem parseTokens_not_both : ∀ (ts : List String) (ret : tagConfig),
    ret.ignore = false → ret.skip = false →
    ¬ ((parseTokens ts ret).ignore = true ∧ (parseTokens ts ret).skip = true)
  | [], ret, hi, hs => by simp [parseTokens, hi, hs]
  | v :: ts, ret, hi, hs => by
    simp only [parseTokens]
    split
    · simp [hs]
    · split
      · simp [hi]
      · split
        · exact parseTokens_not_both ts _ hi hs
        · split
          · exact parseTokens_not_both ts _ hi hs
          · exact parseTokens_not_both ts _ hi hs

theorem parseStructTag_joinComma (ts : List String) (ht : ∀ t ∈ ts, isToken t = true) :
    parseStructTag (some (joinComma ts)) = some (parseTokens ts blankConfig) := by
  cases ts with
  | nil =>
    have : stringsSplit (joinComma []) = [""] := by decide
    simp only [parseStructTag, this]
    rw [parseTokens_unrecognized "" [] _ (by decide)]
    rfl
  | cons t ts =>
    simp only [parseStructTag, stringsSplit_joinComma (t :: ts) (by simp) ht]
    rfl

theorem isToken_of_recognized (t : String) (h : recognized t = true) : isToken t = true := by
  simp only [recognized, Bool.or_eq_true, decide_eq_true_eq] at h
  rcases h with ((h | h) | h) | h <;> subst h <;> decide

/-- C18: for all token lists `xs` and `ys` where `xs` contains neither `-` nor
`skip`, `parseStructTag` of `xs` followed by `-` followed by `ys` is
`parseStructTag` of `xs` with ignore set, and `parseStructTag` of `xs` followed by
`skip` followed by `ys` is `parseStructTag` of `xs` with skip set: no token after the
first `-` or `skip` has any effect, the forced order of a `BE`/`LE` token before it
is retained, and for no annotation at all are ignore and skip both set. -/
theorem parseStructTag_short_circuit (xs ys : List String)
    (hx : ∀ t ∈ xs, isToken t = true) (hy : ∀ t ∈ ys, isToken t = true)
    (h1 : "-" ∉ xs) (h2 : "skip" ∉ xs) :
    parseStructTag (some (joinComma (xs ++ "-" :: ys)))
      = (parseStructTag (some (joinComma xs))).map (fun c => ⟨true, c.skip, c.endian⟩) ∧
    parseStructTag (some (joinComma (xs ++ "skip" :: ys)))
      = (parseStructTag (some (joinComma xs))).map (fun c => ⟨c.ignore, true, c.endian⟩) ∧
    (parseStructTag (some (joinComma xs))).map (fun c => (c.ignore, c.skip))
      = some (false, false) ∧
    (∀ s c, parseStructTag (some s) = some c → ¬ (c.ignore = true ∧ c.skip = true)) := by
  have hxs := parseStructTag_joinComma xs hx
  have hnt := parseTokens_no_terminal xs blankConfig h1 h2
  have htok : ∀ (v : String), isToken v = true → ∀ t ∈ xs ++ v :: ys, isToken t = true := by
    intro v hv t ht
    rcases List.mem_append.mp ht with h | h
    · exact hx t h
    · rcases List.mem_cons.mp h with rfl | h
      · exact hv
      · exact hy t h
  refine ⟨?_, ?_, ?_, ?_⟩
  · rw [parseStructTag_joinComma _ (htok "-" (by decide)), hxs,
      parseTokens_append_ignore xs ys _ h1 h2]
    rfl
  · rw [parseStructTag_joinComma _ (htok "skip" (by decide)), hxs,
      parseTokens_append_skip xs ys _ h1 h2]
    rfl
  · rw [hxs]
    simp only [Option.map_some', hnt.1, hnt.2]
    rfl
  · intro s c hc
    simp only [parseStructTag, Option.some.injEq] at hc
    subst hc
    exact parseTokens_not_both _ _ rfl rfl

/-- Witness of `parseStructTag_short_circuit` with a `BE` token and an unknown token
before the terminal token and `LE`, `skip` after it. -/
theorem parseStructTag_short_circuit_witness :
    (∀ t ∈ ["BE", "x"], isToken t = true) ∧ (∀ t ∈ ["LE", "skip"], isToken t = true) ∧
    "-" ∉ ["BE", "x"] ∧ "skip" ∉ ["BE", "x"] ∧
    (parseStructTag (some (joinComma (["BE", "x"] ++ "-" :: ["LE", "skip"])))
      = (parseStructTag (some (joinComma ["BE", "x"]))).map
          (fun c => ⟨true, c.skip, c.endian⟩) ∧
    parseStructTag (some (joinComma (["BE", "x"] ++ "skip" :: ["LE", "skip"])))
      = (parseStructTag (some (joinComma ["BE", "x"]))).map
          (fun c => ⟨c.ignore, true, c.endian⟩) ∧
    (parseStructTag (some (joinComma ["BE", "x"]))).map (fun c => (c.ignore, c.skip))
      = some (false, false) ∧
    (∀ s c, parseStructTag (some s) = some c → ¬ (c.ignore = true ∧ c.skip = true))) ∧
    joinComma (["BE", "x"] ++ "-" :: ["LE", "skip"]) = "BE,x,-,LE,skip" ∧
    parseStructTag (some "BE,x,-,LE,skip") = some ⟨true, false, Endian_Type_BE⟩ :=
  ⟨by decide, by decide, by decide, by decide,
    parseStructTag_short_circuit ["BE", "x"] ["LE", "skip"] (by decide) (by decide)
      (by decide) (by decide),
    by decide, by decide⟩

/-- C19: `parseStructTag` never fails: every annotation gives a directive; deleting
every token other than `-`, `skip`, `BE` and `LE` from the annotation does not
change the result; an annotation made only of unrecognized tokens, such as the
empty string, gives the directive with ignore false, skip false and no forced
order. -/
theorem parseStructTag_permissive (s : String) :
    (parseStructTag (some s)).isSome = true ∧
    parseStructTag (some (joinComma ((stringsSplit s).filter recognized)))
      = parseStructTag (some s) ∧
    ((∀ t ∈ stringsSplit s, recognized t = false) →
      parseStructTag (some s) = some ⟨false, false, Endian_Type_BLANK⟩) ∧
    parseStructTag (some "") = some ⟨false, false, Endian_Type_BLANK⟩ := by
  refine ⟨rfl, ?_, ?_, by decide⟩
  · rw [parseStructTag_joinComma _
      (fun t ht => isToken_of_recognized t (List.mem_filter.mp ht).2), parseTokens_filter]
    rfl
  · intro h
    simp only [parseStructTag]
    rw [parseTokens_all_unrecognized _ _ h]

/-- Witness of `parseStructTag_permissive` on the annotation `foo,,Skip`. -/
theorem parseStructTag_permissive_witness :
    (∀ t ∈ stringsSplit "foo,,Skip", recognized t = false) ∧
    ((parseStructTag (some "foo,,Skip")).isSome = true ∧
    parseStructTag (some (joinComma ((stringsSplit "foo,,Skip").filter recognized)))
      = parseStructTag (some "foo,,Skip") ∧
    ((∀ t ∈ stringsSplit "foo,,Skip", recognized t = false) →
      parseStructTag (some "foo,,Skip") = some ⟨false, false, Endian_Type_BLANK⟩) ∧
    parseStructTag (some "") = some ⟨false, false, Endian_Type_BLANK⟩) ∧
    parseStructTag (some "foo,BE,bar,-,zzz") = parseStructTag (some "BE,-") :=
  ⟨by decide, parseStructTag_permissive "foo,,Skip", by decide⟩

/-! ## Encode is compositional -/

theorem orderUnder_of_untagged {f : StructField} (h : f.Tag = none) (o : ByteOrder) :
    f.orderUnder o = o := by
  simp [StructField.orderUnder, h, parseStructTag]

theorem writeElems_cons (e : Value) (es : List Value) (o : ByteOrder) (b : List Nat) (i : Nat) :
    writeElems (e :: es) o b i =
      match write e o b true i with
      | none => none
      | some r => if fatal r.err then some r else writeElems es o r.val r.index := by
  rw [writeElems]

theorem writeFields_untagged : ∀ (fs : List (StructField × Value)) (o : ByteOrder)
    (b : List Nat) (i : Nat), (∀ fx ∈ fs, fx.1.exported = true ∧ fx.1.Tag = none) →
    writeFields fs o b i = writeElems (fs.map Prod.snd) o b i
  | [], o, b, i, _ => by simp [writeFields, writeElems]
  | (f, x) :: rest, o, b, i, h => by
    have hf := h (f, x) (by simp)
    have hr : ∀ fx ∈ rest, fx.1.exported = true ∧ fx.1.Tag = none :=
      fun fx hfx => h fx (List.mem_cons_of_mem _ hfx)
    rw [writeFields_through f x rest o b i (ignored_of_untagged hf.2)
      (skipped_of_untagged hf.2), orderUnder_of_untagged hf.2, hf.1, List.map_cons,
      writeElems_cons]
    cases write x o b true i with
    | none => rfl
    | some r =>
      simp only
      rw [writeFields_untagged rest o r.val r.index hr]

theorem writeElems_produces (o : ByteOrder) : ∀ (es : List Value) (ws : List (List Nat)),
    List.Forall₂ (fun e w => Produces e o w) es ws →
    ∀ (pre mid post : List Nat) (i : Nat), pre.length = i → mid.length = ws.flatten.length →
    writeElems es o (pre ++ (mid ++ post)) i
      = some ⟨pre ++ (ws.flatten ++ post), i + ws.flatten.length, none⟩
  | [], ws, h, pre, mid, post, i, hi, hm => by
    cases h
    simp only [List.flatten_nil, List.length_nil] at hm
    have : mid = [] := List.length_eq_zero.mp hm
    simp [writeElems, this]
  | e :: es, ws, h, pre, mid, post, i, hi, hm => by
    cases h with
    | cons hw hrest =>
      rename_i w ws1
      simp only [List.flatten_cons, List.length_append] at hm
      obtain ⟨m1, m2, rfl, h1, h2⟩ := split_length mid _ _ hm
      have hw1 := hw pre m1 (m2 ++ post) i hi h1
      have hr := writeElems_produces o es ws1 hrest (pre ++ w) m2 post (i + w.length)
        (by simp [hi]) h2
      simp only [List.append_assoc] at hw1 hr ⊢
      rw [writeElems_cons, hw1]
      simp only [fatal_none, Bool.false_eq_true, if_false, hr, List.flatten_cons,
        List.append_assoc, List.length_append, Nat.add_assoc]

theorem produces_coded (v : Value) (o : ByteOrder) (h : Coded v = true) :
    Produces v o (enc o v) :=
  fun pre mid post i hi hm => write_coded v h o pre mid post i hi hm

/-- C20: for every struct whose fields are all exported and carry no annotation,
the bytes `write` produces are the concatenation, in declaration order, of the
bytes `write` produces for each field under the same order; and for every non-empty
array whose elements are not bytes they are the concatenation of the bytes of the
elements in ascending index order, each under the ambient order, under big-endian
as under little-endian. -/
theorem write_compositional (o : ByteOrder) :
    (∀ (fs : List (StructField × Value)) (ws : List (List Nat)),
      (∀ fx ∈ fs, fx.1.exported = true ∧ fx.1.Tag = none) →
      List.Forall₂ (fun fx w => Produces fx.2 o w) fs ws →
      Produces (.struct fs) o ws.flatten) ∧
    (∀ (s : Bool) (e : Value) (es : List Value) (ws : List (List Nat)),
      e.isUint8 = false →
      List.Forall₂ (fun x w => Produces x o w) (e :: es) ws →
      Produces (.array s (e :: es)) o ws.flatten) := by
  constructor
  · intro fs ws hf hp pre mid post i hi hm
    have hp2 : List.Forall₂ (fun e w => Produces e o w) (fs.map Prod.snd) ws := by
      rw [List.forall₂_map_left_iff]
      exact hp
    simp only [write]
    rw [writeFields_untagged fs o _ i hf]
    exact writeElems_produces o _ ws hp2 pre mid post i hi hm
  · intro s e es ws hu hp pre mid post i hi hm
    simp only [write, hu, Bool.false_eq_true, if_false]
    exact writeElems_produces o _ ws hp pre mid post i hi hm

/-- Witness of `write_compositional` on the test vector of the repository: the
struct `{B uint8; U16 uint16; A []uint8}` under little-endian. -/
theorem write_compositional_witness :
    (∀ fx ∈ [((⟨none, true⟩ : StructField), Value.uint8 0xaa), (⟨none, true⟩, .uint16 0xbbcc),
        (⟨none, true⟩, .array true [.uint8 0xdd, .uint8 0xee, .uint8 0xff, .uint8 0x00,
          .uint8 0x11])], fx.1.exported = true ∧ fx.1.Tag = none) ∧
    Produces (.struct [(⟨none, true⟩, .uint8 0xaa), (⟨none, true⟩, .uint16 0xbbcc),
        (⟨none, true⟩, .array true [.uint8 0xdd, .uint8 0xee, .uint8 0xff, .uint8 0x00,
          .uint8 0x11])]) .LittleEndian
      [enc .LittleEndian (.uint8 0xaa), enc .LittleEndian (.uint16 0xbbcc),
        enc .LittleEndian (.array true [.uint8 0xdd, .uint8 0xee, .uint8 0xff, .uint8 0x00,
          .uint8 0x11])].flatten ∧
    [enc .LittleEndian (.uint8 0xaa), enc .LittleEndian (.uint16 0xbbcc),
        enc .LittleEndian (.array true [.uint8 0xdd, .uint8 0xee, .uint8 0xff, .uint8 0x00,
          .uint8 0x11])].flatten = [0xaa, 0xcc, 0xbb, 0xdd, 0xee, 0xff, 0x00, 0x11] ∧
    write (.array false [.uint16 0x0102, .uint16 0x0304]) .BigEndian [0, 0, 0, 0] true 0
      = some ⟨[1, 2, 3, 4], 4, none⟩ :=
  ⟨by decide,
    (write_compositional .LittleEndian).1 _ _ (by decide)
      (List.Forall₂.cons (produces_coded _ _ (by decide))
        (List.Forall₂.cons (produces_coded _ _ (by decide))
          (List.Forall₂.cons (produces_coded _ _ (by decide)) List.Forall₂.nil))),
    by decide, by decide⟩

/-! ## The cursor of `write` never decreases -/

mutual
theorem write_cursor_mono : ∀ (v : Value) (o : ByteOrder) (b : List Nat) (ci : Bool) (i : Nat)
    (r : Outcome (List Nat)), write v o b ci i = some r → i ≤ r.index
  | v, o, b, false, i, r, h => by
    rw [write_inaccessible] at h
    cases hn : sizeOfValue v false with
    | none => rw [hn] at h; cases h
    | some n =>
      rw [hn] at h
      simp only [Option.some.injEq] at h
      subst h; exact Nat.le_add_right _ _
  | .uint8 x, o, b, true, i, r, h => by
    simp only [write] at h
    cases hs : setIdx b i x with
    | none => rw [hs] at h; cases h
    | some b1 =>
      rw [hs] at h
      simp only [Option.some.injEq] at h
      subst h
      exact Nat.le_add_right _ _
  | .uint16 x, o, b, true, i, r, h => by
    simp only [write] at h
    cases hs : putWindow b i (o.PutUint16 x) with
    | none => rw [hs] at h; cases h
    | some b1 =>
      rw [hs] at h
      simp only [Option.some.injEq] at h
      subst h
      exact Nat.le_add_right _ _
  | .uint32 x, o, b, true, i, r, h => by
    simp only [write] at h
    cases hs : putWindow b i (o.PutUint32 x) with
    | none => rw [hs] at h; cases h
    | some b1 =>
      rw [hs] at h
      simp only [Option.some.injEq] at h
      subst h
      exact Nat.le_add_right _ _
  | .uint64 x, o, b, true, i, r, h => by
    simp only [write] at h
    cases hs : putWindow b i (o.PutUint64 x) with
    | none => rw [hs] at h; cases h
    | some b1 =>
      rw [hs] at h
      simp only [Option.some.injEq] at h
      subst h
      exact Nat.le_add_right _ _
  | .other _, o, b, true, i, r, h => by
    simp only [write, Option.some.injEq] at h
    subst h; exact Nat.le_refl _
  | .array _ [], o, b, true, i, r, h => by
    simp only [write, Option.some.injEq] at h
    subst h; exact Nat.le_refl _
  | .array s (e :: es), o, b, true, i, r, h => by
    simp only [write] at h
    cases hu : e.isUint8
    · rw [hu] at h
      simp only [Bool.false_eq_true, if_false] at h
      exact writeElems_cursor_mono (e :: es) o b i r h
    · rw [hu] at h
      simp only [if_true] at h
      generalize hpos : (if o = ByteOrder.BigEndian then fun i_1 => i + (es.length + 1) - 1 - i_1
        else fun i_1 => i + i_1) = pos at h
      cases hs : putBytes pos (e :: es) 0 b with
      | none => rw [hs] at h; cases h
      | some b1 =>
        rw [hs] at h
        simp only [Option.some.injEq] at h
        subst h
        exact Nat.le_add_right _ _
  | .struct fs, o, b, true, i, r, h => by
    simp only [write] at h
    exact writeFields_cursor_mono fs o b i r h
theorem writeElems_cursor_mono : ∀ (es : List Value) (o : ByteOrder) (b : List Nat) (i : Nat)
    (r : Outcome (List Nat)), writeElems es o b i = some r → i ≤ r.index
  | [], o, b, i, r, h => by
    simp only [writeElems, Option.some.injEq] at h
    subst h; exact Nat.le_refl _
  | e :: es, o, b, i, r, h => by
    simp only [writeElems] at h
    cases hw : write e o b true i with
    | none => rw [hw] at h; cases h
    | some r1 =>
      rw [hw] at h
      simp only at h
      have h1 := write_cursor_mono e o b true i r1 hw
      cases hf : fatal r1.err
      · rw [hf] at h
        simp only [Bool.false_eq_true, if_false] at h
        exact Nat.le_trans h1 (writeElems_cursor_mono es o r1.val r1.index r h)
      · rw [hf] at h
        simp only [if_true, Option.some.injEq] at h
        subst h
        exact h1
theorem writeFields_cursor_mono : ∀ (fs : List (StructField × Value)) (o : ByteOrder)
    (b : List Nat) (i : Nat) (r : Outcome (List Nat)),
    writeFields fs o b i = some r → i ≤ r.index
  | [], o, b, i, r, h => by
    simp only [writeFields, Option.some.injEq] at h
    subst h; exact Nat.le_refl _
  | (f, x) :: rest, o, b, i, r, h => by
    rw [writeFields_cons_cases] at h
    cases hig : f.ignored
    · rw [hig] at h
      simp only [Bool.false_eq_true, if_false] at h
      cases hsk : f.skipped
      · rw [hsk] at h
        simp only [Bool.false_eq_true, if_false] at h
        cases hw : write x (f.orderUnder o) b f.exported i with
        | none => rw [hw] at h; cases h
        | some r1 =>
          rw [hw] at h
          simp only at h
          have h1 := write_cursor_mono x (f.orderUnder o) b f.exported i r1 hw
          cases hf : fatal r1.err
          · rw [hf] at h
            simp only [Bool.false_eq_true, if_false] at h
            exact Nat.le_trans h1 (writeFields_cursor_mono rest o r1.val r1.index r h)
          · rw [hf] at h
            simp only [if_true, Option.some.injEq] at h
            subst h
            exact h1
      · rw [hsk] at h
        simp only [if_true] at h
        cases hn : sizeOfValue x true with
        | none => rw [hn] at h; cases h
        | some n =>
          rw [hn] at h
          exact Nat.le_trans (Nat.le_add_right _ _) (writeFields_cursor_mono rest o b (i + n) r h)
    · rw [hig] at h
      simp only [if_true] at h
      exact writeFields_cursor_mono rest o b i r h
end

/-! ## Decode stays inside the buffer -/

theorem readP_inaccessible (b : List Nat) (o : ByteOrder) (v : Value) (cs : Bool) (i : Nat) :
    readP b o v false cs i =
      match sizeOfValue v false with
      | none => .error .reflect
      | some n => .ok ⟨v, i + n, some .errCannotInterface⟩ := by
  cases v with
  | array s es => cases es <;> rw [readP]
  | _ => rw [readP]

theorem readElemsP_cons (b : List Nat) (o : ByteOrder) (e : Value) (es : List Value)
    (cs : Bool) (i : Nat) :
    readElemsP b o (e :: es) cs i =
      match readP b o e true cs i with
      | .error p => .error p
      | .ok r =>
        if fatal r.err then .ok ⟨r.val :: es, r.index, r.err⟩
        else
          match readElemsP b o es cs r.index with
          | .error p => .error p
          | .ok rs => .ok ⟨r.val :: rs.val, rs.index, rs.err⟩ := by
  rw [readElemsP]

theorem readFieldsP_cons (b : List Nat) (o : ByteOrder) (f : StructField) (x : Value)
    (rest : List (StructField × Value)) (cs : Bool) (i : Nat) :
    readFieldsP b o ((f, x) :: rest) cs i =
      if f.ignored then
        match readFieldsP b o rest cs i with
        | .error p => .error p
        | .ok rs => .ok ⟨(f, x) :: rs.val, rs.index, rs.err⟩
      else if f.skipped then
        match sizeOfValue x true with
        | none => .error .reflect
        | some n =>
          match readFieldsP b o rest cs n with
          | .error p => .error p
          | .ok rs => .ok ⟨(f, x) :: rs.val, rs.index, rs.err⟩
      else
        match readP b (f.orderUnder o) x f.exported (cs && f.exported) i with
        | .error p => .error p
        | .ok r =>
          if fatal r.err then .ok ⟨(f, r.val) :: rest, r.index, r.err⟩
          else
            match readFieldsP b o rest cs r.index with
            | .error p => .error p
            | .ok rs => .ok ⟨(f, r.val) :: rs.val, rs.index, rs.err⟩ := by
  rw [readFieldsP]

theorem setBytes_eq_setBytesP : ∀ (es : List Value) (w : List Nat),
    setBytes es w = (setBytesP es w).toOption
  | [], _ => by simp [setBytes, setBytesP, Except.toOption]
  | _ :: _, [] => by simp [setBytes, setBytesP, Except.toOption]
  | e :: es, x :: xs => by
    cases e with
    | uint8 y =>
      simp only [setBytes, setBytesP]
      rw [setBytes_eq_setBytesP es xs]
      cases setBytesP es xs <;> simp [Except.toOption]
    | _ => simp [setBytes, setBytesP, Except.toOption]

mutual
theorem read_eq_readP (b : List Nat) (o : ByteOrder) :
    ∀ (v : Value) (ci cs : Bool) (i : Nat),
      read b o v ci cs i = (readP b o v ci cs i).toOption
  | v, false, cs, i => by
    rw [read_inaccessible, readP_inaccessible]
    cases sizeOfValue v false <;> rfl
  | .uint8 x, true, cs, i => by
    simp only [read, readP]
    cases b[i]? <;> rfl
  | .uint16 x, true, cs, i => by
    simp only [read, readP]
    cases slice b i (i + 2) <;> rfl
  | .uint32 x, true, cs, i => by
    simp only [read, readP]
    cases slice b i (i + 4) <;> rfl
  | .uint64 x, true, cs, i => by
    simp only [read, readP]
    cases slice b i (i + 8) <;> rfl
  | .array s [], true, cs, i => by
    simp only [read, readP]
    cases cs <;> rfl
  | .array s (e :: es), true, cs, i => by
    simp only [read, readP]
    cases hu : e.isUint8
    · simp only [Bool.false_eq_true, if_false]
      rw [readElems_eq_readElemsP b o (e :: es) (s || cs) i]
      cases readElemsP b o (e :: es) (s || cs) i <;> rfl
    · simp only [if_true]
      cases slice b i (i + (es.length + 1)) with
      | none => rfl
      | some ret =>
        simp only
        cases hc : (s || cs)
        · simp only [Bool.false_eq_true, if_false]; rfl
        · simp only [if_true]
          rw [setBytes_eq_setBytesP]
          cases setBytesP (e :: es) (if o = .BigEndian then ret.reverse else ret) <;> rfl
  | .struct fs, true, cs, i => by
    simp only [read, readP]
    rw [readFields_eq_readFieldsP b o fs cs i]
    cases readFieldsP b o fs cs i <;> rfl
  | .other bits, true, cs, i => by
    simp only [read, readP]; rfl
theorem readElems_eq_readElemsP (b : List Nat) (o : ByteOrder) :
    ∀ (es : List Value) (cs : Bool) (i : Nat),
      readElems b o es cs i = (readElemsP b o es cs i).toOption
  | [], cs, i => by simp only [readElems, readElemsP]; rfl
  | e :: es, cs, i => by
    rw [readElems_cons, readElemsP_cons, read_eq_readP b o e true cs i]
    cases readP b o e true cs i with
    | error p => rfl
    | ok r =>
      simp only [Except.toOption]
      cases fatal r.err
      · simp only [Bool.false_eq_true, if_false]
        rw [readElems_eq_readElemsP b o es cs r.index]
        cases readElemsP b o es cs r.index <;> rfl
      · simp only [if_true]
theorem readFields_eq_readFieldsP (b : List Nat) (o : ByteOrder) :
    ∀ (fs : List (StructField × Value)) (cs : Bool) (i : Nat),
      readFields b o fs cs i = (readFieldsP b o fs cs i).toOption
  | [], cs, i => by simp only [readFields, readFieldsP]; rfl
  | (f, x) :: rest, cs, i => by
    rw [readFields_cons_cases, readFieldsP_cons]
    cases f.ignored
    · simp only [Bool.false_eq_true, if_false]
      cases f.skipped
      · simp only [Bool.false_eq_true, if_false]
        rw [read_eq_readP b (f.orderUnder o) x f.exported (cs && f.exported) i]
        cases readP b (f.orderUnder o) x f.exported (cs && f.exported) i with
        | error p => rfl
        | ok r =>
          simp only [Except.toOption]
          cases fatal r.err
          · simp only [Bool.false_eq_true, if_false]
            rw [readFields_eq_readFieldsP b o rest cs r.index]
            cases readFieldsP b o rest cs r.index <;> rfl
          · simp only [if_true]
      · simp only [if_true]
        cases sizeOfValue x true with
        | none => rfl
        | some n =>
          simp only
          rw [readFields_eq_readFieldsP b o rest cs n]
          cases readFieldsP b o rest cs n <;> rfl
    · simp only [if_true]
      rw [readFields_eq_readFieldsP b o rest cs i]
      cases readFieldsP b o rest cs i <;> rfl
end

theorem sizeOfValue_struct (fs : List (StructField × Value)) (t : Bool) :
    sizeOfValue (.struct fs) t = sizeOfFields 0 fs t := by
  rw [sizeOfValue, sizeOfValueRecursive]

mutual
theorem sizeOfValue_true_le : ∀ (v : Value) (P : Nat), sizeOfValue v false = some P →
    ∃ L, sizeOfValue v true = some L ∧ L ≤ P
  | .uint8 _, P, h => ⟨P, h, Nat.le_refl P⟩
  | .uint16 _, P, h => ⟨P, h, Nat.le_refl P⟩
  | .uint32 _, P, h => ⟨P, h, Nat.le_refl P⟩
  | .uint64 _, P, h => ⟨P, h, Nat.le_refl P⟩
  | .other _, P, h => ⟨P, h, Nat.le_refl P⟩
  | .array _ [], P, h => ⟨P, h, Nat.le_refl P⟩
  | .array s (e :: es), P, h => by
    rw [sizeOfValue_array_cons] at h
    rw [sizeOfValue_array_cons]
    cases hk : sizeOfValue e false with
    | none => simp [hk] at h
    | some k =>
      simp only [hk, Option.some.injEq] at h
      obtain ⟨l, hl, hle⟩ := sizeOfValue_true_le e k hk
      exact ⟨l * (es.length + 1), by simp [hl], by rw [← h]; exact Nat.mul_le_mul_right _ hle⟩
  | .struct fs, P, h => by
    rw [sizeOfValue_struct] at h
    rw [sizeOfValue_struct]
    exact sizeOfFields_true_le fs P h
theorem sizeOfFields_true_le : ∀ (fs : List (StructField × Value)) (P : Nat),
    sizeOfFields 0 fs false = some P → ∃ L, sizeOfFields 0 fs true = some L ∧ L ≤ P
  | [], P, h => ⟨P, by simpa [sizeOfFields] using h, Nat.le_refl P⟩
  | (f, x) :: rest, P, h => by
    rw [sizeOfFields_cons_false] at h
    cases hn : sizeOfValue x false with
    | none => simp [hn] at h
    | some n =>
      simp only [hn, Nat.zero_add] at h
      rw [sizeOfFields_zero_acc] at h
      cases hr : sizeOfFields 0 rest false with
      | none => simp [hr] at h
      | some Pr =>
        simp only [hr, Option.map_some', Option.some.injEq] at h
        obtain ⟨Lr, hLr, hler⟩ := sizeOfFields_true_le rest Pr hr
        obtain ⟨l, hl, hle⟩ := sizeOfValue_true_le x n hn
        rw [sizeOfFields_cons_true]
        cases f.ignored
        · simp only [Bool.false_eq_true, if_false, hl, Nat.zero_add]
          rw [sizeOfFields_zero_acc, hLr]
          exact ⟨l + Lr, rfl, by omega⟩
        · simp only [if_true]
          exact ⟨Lr, hLr, by omega⟩
end

theorem sizeOfFields_false_split (f : StructField) (x : Value)
    (rest : List (StructField × Value)) (P : Nat)
    (h : sizeOfFields 0 ((f, x) :: rest) false = some P) :
    ∃ n Pr, sizeOfValue x false = some n ∧ sizeOfFields 0 rest false = some Pr ∧ P = n + Pr := by
  rw [sizeOfFields_cons_false] at h
  cases hn : sizeOfValue x false with
  | none => simp [hn] at h
  | some n =>
    simp only [hn, Nat.zero_add] at h
    rw [sizeOfFields_zero_acc] at h
    cases hr : sizeOfFields 0 rest false with
    | none => simp [hr] at h
    | some Pr =>
      simp only [hr, Option.map_some', Option.some.injEq] at h
      exact ⟨n, Pr, rfl, rfl, h.symm⟩

theorem InBounds_ok {α : Type} (r : Outcome α) (n : Nat) :
    InBounds (.ok r) n ↔ r.index ≤ n := Iff.rfl

theorem InBounds_reflect {α : Type} (n : Nat) :
    InBounds (.error .reflect : Except Panic (Outcome α)) n := trivial

theorem InBounds_mono {α : Type} {res : Except Panic (Outcome α)} {m n : Nat}
    (h : InBounds res m) (hmn : m ≤ n) : InBounds res n := by
  cases res with
  | error p => cases p <;> exact h
  | ok r => exact Nat.le_trans h hmn

theorem InBounds_not_indexOutOfRange {α : Type} {res : Except Panic (Outcome α)} {n : Nat}
    (h : InBounds res n) : res ≠ .error .indexOutOfRange := by
  intro he
  rw [he] at h
  exact h

theorem slice_some (b : List Nat) (i n : Nat) (h : i + n ≤ b.length) :
    ∃ w, slice b i (i + n) = some w ∧ w.length = n := by
  refine ⟨(b.drop i).take (i + n - i), by simp [slice, h], ?_⟩
  simp only [List.length_take, List.length_drop]
  omega

theorem setBytesP_inRange : ∀ (es : List Value) (w : List Nat), es.length ≤ w.length →
    setBytesP es w ≠ .error .indexOutOfRange
  | [], _, _ => by simp [setBytesP]
  | _ :: _, [], h => by simp at h
  | e :: es, x :: xs, h => by
    have ih := setBytesP_inRange es xs (by simpa using h)
    cases e with
    | uint8 y =>
      simp only [setBytesP]
      cases hs : setBytesP es xs with
      | error p =>
        rw [hs] at ih
        simpa using ih
      | ok r => simp
    | _ => simp [setBytesP]

theorem sizeOfValue_of_isUint8 {e : Value} (h : e.isUint8 = true) (t : Bool) :
    sizeOfValue e t = some 1 := by
  cases e <;> simp [Value.isUint8] at h
  simp [sizeOfValue, sizeOfValueRecursive]

theorem sizeOfValue_zero (v : Value) (t : Bool) : sizeOfValue v.zero t = sizeOfValue v t :=
  sizeOfValueRecursive_zero v 0 t

theorem setPrimitive_index (v val : Value) (cs : Bool) (i : Nat) :
    (setPrimitive v val cs i).index = i := by
  cases cs <;> rfl

mutual
theorem readP_inBounds (b : List Nat) (o : ByteOrder) :
    ∀ (v : Value) (ci cs : Bool) (i P : Nat), Homogeneous v = true →
      sizeOfValue v false = some P → i + P ≤ b.length →
      InBounds (readP b o v ci cs i) (i + P)
  | v, false, cs, i, P, _, hs, _ => by
    rw [readP_inaccessible, hs]
    exact Nat.le_refl _
  | .uint8 x, true, cs, i, P, _, hs, hb => by
    simp [sizeOfValue, sizeOfValueRecursive] at hs
    subst hs
    simp only [readP]
    have hi : i < b.length := by omega
    rw [List.getElem?_eq_getElem hi]
    simp only [InBounds_ok, setPrimitive_index]
    exact Nat.le_refl _
  | .uint16 x, true, cs, i, P, _, hs, hb => by
    simp [sizeOfValue, sizeOfValueRecursive] at hs
    subst hs
    simp only [readP]
    obtain ⟨w, hw, _⟩ := slice_some b i 2 hb
    rw [hw]
    simp only [InBounds_ok, setPrimitive_index]
    exact Nat.le_refl _
  | .uint32 x, true, cs, i, P, _, hs, hb => by
    simp [sizeOfValue, sizeOfValueRecursive] at hs
    subst hs
    simp only [readP]
    obtain ⟨w, hw, _⟩ := slice_some b i 4 hb
    rw [hw]
    simp only [InBounds_ok, setPrimitive_index]
    exact Nat.le_refl _
  | .uint64 x, true, cs, i, P, _, hs, hb => by
    simp [sizeOfValue, sizeOfValueRecursive] at hs
    subst hs
    simp only [readP]
    obtain ⟨w, hw, _⟩ := slice_some b i 8 hb
    rw [hw]
    simp only [InBounds_ok, setPrimitive_index]
    exact Nat.le_refl _
  | .array s [], true, cs, i, P, _, _, _ => by
    simp only [readP]
    cases cs
    · simp only [Bool.false_eq_true, if_false, InBounds_ok]
      omega
    · simp only [if_true]
      exact InBounds_reflect _
  | .array s (e :: es), true, cs, i, P, hh, hs, hb => by
    simp only [Homogeneous, Bool.and_eq_true] at hh
    rw [sizeOfValue_array_cons] at hs
    cases hk : sizeOfValue e false with
    | none => simp [hk] at hs
    | some k =>
      simp only [hk, Option.some.injEq] at hs
      subst hs
      simp only [readP]
      cases hu : e.isUint8
      · simp only [Bool.false_eq_true, if_false]
        have hz : sizeOfValue e.zero false = some k := by rw [sizeOfValue_zero, hk]
        have hel : HomogeneousElems e.zero (e :: es) = true := by
          simp [HomogeneousElems, hh.1, hh.2]
        have ih := readElemsP_inBounds b o (e :: es) e.zero (s || cs) i k hel hz
          (by simpa using hb)
        simp only [List.length_cons] at ih
        cases hr : readElemsP b o (e :: es) (s || cs) i with
        | error p =>
          rw [hr] at ih
          cases p
          · exact ih
          · exact InBounds_reflect _
        | ok r =>
          rw [hr] at ih
          exact ih
      · simp only [if_true]
        have h1 : k = 1 := by
          have := sizeOfValue_of_isUint8 hu false
          rw [hk] at this
          exact Option.some.inj this
        subst h1
        simp only [Nat.one_mul] at hb ⊢
        obtain ⟨w, hw, hwl⟩ := slice_some b i (es.length + 1) hb
        rw [hw]
        simp only
        cases hc : (s || cs)
        · simp only [Bool.false_eq_true, if_false, InBounds_ok]
          exact Nat.le_refl _
        · simp only [if_true]
          have hne := setBytesP_inRange (e :: es) (if o = .BigEndian then w.reverse else w)
            (by split <;> simp [hwl])
          cases hsb : setBytesP (e :: es) (if o = .BigEndian then w.reverse else w) with
          | error p =>
            cases p
            · exact absurd hsb hne
            · exact InBounds_reflect _
          | ok r =>
            simp only [InBounds_ok]
            exact Nat.le_refl _
  | .struct fs, true, cs, i, P, hh, hs, hb => by
    simp only [Homogeneous] at hh
    rw [sizeOfValue_struct] at hs
    have ih := readFieldsP_inBounds b o fs cs i P hh hs hb
    simp only [readP]
    cases hr : readFieldsP b o fs cs i with
    | error p =>
      rw [hr] at ih
      cases p
      · exact ih
      · exact InBounds_reflect _
    | ok r =>
      rw [hr] at ih
      exact ih
  | .other bits, true, cs, i, P, _, _, _ => by
    simp only [readP, InBounds_ok]
    omega
theorem readElemsP_inBounds (b : List Nat) (o : ByteOrder) :
    ∀ (es : List Value) (z : Value) (cs : Bool) (i k : Nat), HomogeneousElems z es = true →
      sizeOfValue z false = some k → i + k * es.length ≤ b.length →
      InBounds (readElemsP b o es cs i) (i + k * es.length)
  | [], _, cs, i, k, _, _, _ => by
    simp only [readElemsP, InBounds_ok]
    omega
  | e :: es, z, cs, i, k, hh, hz, hb => by
    simp only [HomogeneousElems, Bool.and_eq_true, decide_eq_true_eq] at hh
    obtain ⟨⟨he, hez⟩, hes⟩ := hh
    have hk : sizeOfValue e false = some k := by rw [← sizeOfValue_zero, hez, hz]
    simp only [List.length_cons, Nat.mul_add, Nat.mul_one] at hb ⊢
    have ih1 := readP_inBounds b o e true cs i k he hk (by omega)
    rw [readElemsP_cons]
    cases hr : readP b o e true cs i with
    | error p =>
      rw [hr] at ih1
      cases p
      · exact ih1
      · exact InBounds_reflect _
    | ok r =>
      rw [hr, InBounds_ok] at ih1
      simp only
      cases fatal r.err
      · simp only [Bool.false_eq_true, if_false]
        have ih2 := readElemsP_inBounds b o es z cs r.index k hes hz (by omega)
        cases hr2 : readElemsP b o es cs r.index with
        | error p =>
          rw [hr2] at ih2
          cases p
          · exact ih2
          · exact InBounds_reflect _
        | ok rs =>
          rw [hr2, InBounds_ok] at ih2
          simp only [InBounds_ok]
          omega
      · simp only [if_true, InBounds_ok]
        omega
theorem readFieldsP_inBounds (b : List Nat) (o : ByteOrder) :
    ∀ (fs : List (StructField × Value)) (cs : Bool) (i P : Nat), HomogeneousFields fs = true →
      sizeOfFields 0 fs false = some P → i + P ≤ b.length →
      InBounds (readFieldsP b o fs cs i) (i + P)
  | [], cs, i, P, _, _, _ => by
    simp only [readFieldsP, InBounds_ok]
    omega
  | (f, x) :: rest, cs, i, P, hh, hs, hb => by
    simp only [HomogeneousFields, Bool.and_eq_true] at hh
    obtain ⟨n, Pr, hn, hPr, rfl⟩ := sizeOfFields_false_split f x rest P hs
    rw [readFieldsP_cons]
    cases f.ignored
    · simp only [Bool.false_eq_true, if_false]
      cases f.skipped
      · simp only [Bool.false_eq_true, if_false]
        have ih1 := readP_inBounds b (f.orderUnder o) x f.exported (cs && f.exported) i n
          hh.1 hn (by omega)
        cases hr : readP b (f.orderUnder o) x f.exported (cs && f.exported) i with
        | error p =>
          rw [hr] at ih1
          cases p
          · exact ih1
          · exact InBounds_reflect _
        | ok r =>
          rw [hr, InBounds_ok] at ih1
          simp only
          cases fatal r.err
          · simp only [Bool.false_eq_true, if_false]
            have ih2 := readFieldsP_inBounds b o rest cs r.index Pr hh.2 hPr (by omega)
            cases hr2 : readFieldsP b o rest cs r.index with
            | error p =>
              rw [hr2] at ih2
              cases p
              · exact ih2
              · exact InBounds_reflect _
            | ok rs =>
              rw [hr2, InBounds_ok] at ih2
              simp only [InBounds_ok]
              omega
          · simp only [if_true, InBounds_ok]
            omega
      · simp only [if_true]
        obtain ⟨l, hl, hle⟩ := sizeOfValue_true_le x n hn
        rw [hl]
        simp only
        have ih2 := readFieldsP_inBounds b o rest cs l Pr hh.2 hPr (by omega)
        cases hr2 : readFieldsP b o rest cs l with
        | error p =>
          rw [hr2] at ih2
          cases p
          · exact ih2
          · exact InBounds_reflect _
        | ok rs =>
          rw [hr2, InBounds_ok] at ih2
          simp only [InBounds_ok]
          omega
    · simp only [if_true]
      have ih2 := readFieldsP_inBounds b o rest cs i Pr hh.2 hPr (by omega)
      cases hr2 : readFieldsP b o rest cs i with
      | error p =>
        rw [hr2] at ih2
        cases p
        · exact ih2
        · exact InBounds_reflect _
      | ok rs =>
        rw [hr2, InBounds_ok] at ih2
        simp only [InBounds_ok]
        omega
end

/-! ## Decode is compositional -/

theorem readElems_steps (b : List Nat) (o : ByteOrder) (cs : Bool) :
    ∀ (ts : List Value) (ns : List Nat) (rs : List Value) (i : Nat),
      DecodeSteps b o cs ts ns rs i → readElems b o ts cs i = some ⟨rs, i + ns.sum, none⟩
  | [], [], [], i, _ => by simp [readElems]
  | [], [], _ :: _, _, h => by simp [DecodeSteps] at h
  | [], _ :: _, _, _, h => by simp [DecodeSteps] at h
  | _ :: _, [], _, _, h => by simp [DecodeSteps] at h
  | _ :: _, _ :: _, [], _, h => by simp [DecodeSteps] at h
  | t :: ts, n :: ns, r :: rs, i, h => by
    simp only [DecodeSteps] at h
    rw [readElems_cons, h.1]
    simp only [fatal_none, Bool.false_eq_true, if_false]
    rw [readElems_steps b o cs ts ns rs (i + n) h.2]
    simp [Nat.add_assoc]

theorem readFields_steps (b : List Nat) (o : ByteOrder) (cs : Bool) :
    ∀ (fs : List (StructField × Value)) (ns : List Nat) (rs : List Value) (i : Nat),
      (∀ fx ∈ fs, fx.1.exported = true ∧ fx.1.Tag = none) →
      DecodeSteps b o cs (fs.map Prod.snd) ns rs i →
      readFields b o fs cs i = some ⟨withValues fs rs, i + ns.sum, none⟩
  | [], [], [], i, _, _ => by simp [readFields, withValues]
  | [], [], _ :: _, _, _, h => by simp [DecodeSteps] at h
  | [], _ :: _, _, _, _, h => by simp [DecodeSteps] at h
  | _ :: _, [], _, _, _, h => by simp [DecodeSteps] at h
  | _ :: _, _ :: _, [], _, _, h => by simp [DecodeSteps] at h
  | (f, x) :: rest, n :: ns, r :: rs, i, hf, h => by
    have hfx := hf (f, x) (by simp)
    have hr : ∀ fx ∈ rest, fx.1.exported = true ∧ fx.1.Tag = none :=
      fun fx hfx => hf fx (List.mem_cons_of_mem _ hfx)
    simp only [List.map_cons, DecodeSteps] at h
    rw [readFields_cons_cases, ignored_of_untagged hfx.2, skipped_of_untagged hfx.2,
      orderUnder_of_untagged hfx.2, hfx.1, Bool.and_true]
    simp only [Bool.false_eq_true, if_false, h.1, fatal_none]
    rw [readFields_steps b o cs rest ns rs (i + n) hr h.2]
    simp [withValues, Nat.add_assoc]

theorem sizeOfFields_untagged_split : ∀ (fs : List (StructField × Value)) (c n : Nat),
    (∀ fx ∈ fs, fx.1.Tag = none) → sizeOfFields c fs true = some n →
    ∃ ns, List.Forall₂ (fun fx m => sizeOfValue fx.2 true = some m) fs ns ∧ c + ns.sum = n
  | [], c, n, _, h => by
    simp only [sizeOfFields, Option.some.injEq] at h
    exact ⟨[], List.Forall₂.nil, by simpa using h⟩
  | (f, x) :: rest, c, n, hf, h => by
    rw [sizeOfFields_cons_true, ignored_of_untagged (hf (f, x) (by simp))] at h
    simp only [Bool.false_eq_true, if_false] at h
    cases hm : sizeOfValue x true with
    | none => simp [hm] at h
    | some m =>
      simp only [hm] at h
      obtain ⟨ns, hns, hsum⟩ := sizeOfFields_untagged_split rest (c + m) n
        (fun fx hfx => hf fx (List.mem_cons_of_mem _ hfx)) h
      exact ⟨m :: ns, List.Forall₂.cons hm hns, by simp only [List.sum_cons]; omega⟩

theorem FixedLayoutElems_mem : ∀ (es : List Value) (z : Value), FixedLayoutElems z es = true →
    ∀ e ∈ es, FixedLayout e = true ∧ e.zero = z
  | [], _, _ => by simp
  | e :: es, z, h => by
    simp only [FixedLayoutElems, Bool.and_eq_true, decide_eq_true_eq] at h
    intro e' he'
    rcases List.mem_cons.mp he' with rfl | hm
    · exact ⟨h.1.1, h.1.2⟩
    · exact FixedLayoutElems_mem es z h.2 e' hm

mutual
theorem read_fixed (b : List Nat) (o : ByteOrder) : ∀ (v : Value), FixedLayout v = true →
    ∀ (i n : Nat), sizeOfValue v true = some n → i + n ≤ b.length →
    ∃ r, read b o v true true i = some ⟨r, i + n, none⟩
  | .uint8 x, _, i, n, hn, hb => by
    simp [sizeOfValue, sizeOfValueRecursive] at hn
    subst hn
    have hi : i < b.length := by omega
    exact ⟨.uint8 b[i], by simp only [read, List.getElem?_eq_getElem hi, setPrimitive_true]⟩
  | .uint16 x, _, i, n, hn, hb => by
    simp [sizeOfValue, sizeOfValueRecursive] at hn
    subst hn
    obtain ⟨w, hw, _⟩ := slice_some b i 2 hb
    exact ⟨.uint16 (o.Uint16 w), by simp only [read, hw, setPrimitive_true]⟩
  | .uint32 x, _, i, n, hn, hb => by
    simp [sizeOfValue, sizeOfValueRecursive] at hn
    subst hn
    obtain ⟨w, hw, _⟩ := slice_some b i 4 hb
    exact ⟨.uint32 (o.Uint32 w), by simp only [read, hw, setPrimitive_true]⟩
  | .uint64 x, _, i, n, hn, hb => by
    simp [sizeOfValue, sizeOfValueRecursive] at hn
    subst hn
    obtain ⟨w, hw, _⟩ := slice_some b i 8 hb
    exact ⟨.uint64 (o.Uint64 w), by simp only [read, hw, setPrimitive_true]⟩
  | .array s [], h, _, _, _, _ => by simp [FixedLayout] at h
  | .array s (e :: es), h, i, n, hn, hb => by
    simp only [FixedLayout, Bool.and_eq_true] at h
    rw [sizeOfValue_array_cons] at hn
    cases hk : sizeOfValue e true with
    | none => simp [hk] at hn
    | some k =>
      simp only [hk, Option.some.injEq] at hn
      subst hn
      cases hu : e.isUint8
      · have hz : sizeOfValue e.zero true = some k := by rw [sizeOfValue_zero, hk]
        have hel : FixedLayoutElems e.zero (e :: es) = true := by
          simp [FixedLayoutElems, h.1, h.2]
        obtain ⟨rs, hrs⟩ := readElems_fixed b o (e :: es) e.zero hel i k hz
          (by simpa using hb)
        refine ⟨.array s rs, ?_⟩
        simp only [read, hu, Bool.false_eq_true, if_false, Bool.or_true, hrs,
          List.length_cons]
      · have h1 : k = 1 := by
          have := sizeOfValue_of_isUint8 hu true
          rw [hk] at this
          exact Option.some.inj this
        subst h1
        simp only [Nat.one_mul] at hb ⊢
        obtain ⟨w, hw, hwl⟩ := slice_some b i (es.length + 1) hb
        have hall : ∀ e' ∈ e :: es, e'.isUint8 = true := by
          intro e' he'
          rcases List.mem_cons.mp he' with rfl | hm
          · exact hu
          · rw [isUint8_of_zero_eq (FixedLayoutElems_mem es e.zero h.2 e' hm).2]
            exact hu
        have hsb := setBytes_uint8 (e :: es) (if o = .BigEndian then w.reverse else w)
          (by split <;> simp [hwl]) hall
        refine ⟨.array s ((if o = .BigEndian then w.reverse else w).map Value.uint8), ?_⟩
        simp only [read, hu, if_true, hw, Bool.or_true, hsb]
  | .struct fs, h, i, n, hn, hb => by
    simp only [FixedLayout] at h
    rw [sizeOfValue_struct] at hn
    obtain ⟨rs, hrs⟩ := readFields_fixed b o fs h i n hn hb
    exact ⟨.struct rs, by simp only [read, hrs]⟩
  | .other _, h, _, _, _, _ => by simp [FixedLayout] at h
theorem readElems_fixed (b : List Nat) (o : ByteOrder) : ∀ (es : List Value) (z : Value),
    FixedLayoutElems z es = true →
    ∀ (i k : Nat), sizeOfValue z true = some k → i + k * es.length ≤ b.length →
    ∃ rs, readElems b o es true i = some ⟨rs, i + k * es.length, none⟩
  | [], _, _, i, k, _, _ => ⟨[], by simp [readElems]⟩
  | e :: es, z, h, i, k, hz, hb => by
    simp only [FixedLayoutElems, Bool.and_eq_true, decide_eq_true_eq] at h
    obtain ⟨⟨he, hez⟩, hes⟩ := h
    have hk : sizeOfValue e true = some k := by rw [← sizeOfValue_zero, hez, hz]
    simp only [List.length_cons, Nat.mul_add, Nat.mul_one] at hb ⊢
    obtain ⟨r, hr⟩ := read_fixed b o e he i k hk (by omega)
    obtain ⟨rs, hrs⟩ := readElems_fixed b o es z hes (i + k) k hz (by omega)
    refine ⟨r :: rs, ?_⟩
    rw [readElems_cons, hr]
    simp only [fatal_none, Bool.false_eq_true, if_false, hrs]
    have : i + k + k * es.length = i + (k * es.length + k) := by omega
    rw [this]
theorem readFields_fixed (b : List Nat) (o : ByteOrder) :
    ∀ (fs : List (StructField × Value)), FixedLayoutFields fs = true →
    ∀ (i n : Nat), sizeOfFields 0 fs true = some n → i + n ≤ b.length →
    ∃ rs, readFields b o fs true i = some ⟨rs, i + n, none⟩
  | [], _, i, n, hn, _ => by
    simp only [sizeOfFields, Option.some.injEq] at hn
    subst hn
    exact ⟨[], by simp [readFields]⟩
  | (f, x) :: rest, h, i, n, hn, hb => by
    simp only [FixedLayoutFields, Bool.and_eq_true, Bool.or_eq_true, decide_eq_true_eq] at h
    obtain ⟨hor, hrest⟩ := h
    rw [sizeOfFields_cons_true] at hn
    rw [readFields_cons_cases]
    cases hig : f.ignored
    · rw [hig] at hn
      simp only [Bool.false_eq_true, if_false] at hn ⊢
      rcases hor with hi | ⟨⟨hex, htag⟩, hx⟩
      · rw [hig] at hi
        cases hi
      · cases hm : sizeOfValue x true with
        | none => simp [hm] at hn
        | some m =>
          simp only [hm, Nat.zero_add] at hn
          rw [sizeOfFields_zero_acc] at hn
          cases hr : sizeOfFields 0 rest true with
          | none => simp [hr] at hn
          | some nr =>
            simp only [hr, Option.map_some', Option.some.injEq] at hn
            subst hn
            obtain ⟨r, hrd⟩ := read_fixed b o x hx i m hm (by omega)
            obtain ⟨rs, hrs⟩ := readFields_fixed b o rest hrest (i + m) nr hr (by omega)
            refine ⟨(f, r) :: rs, ?_⟩
            rw [skipped_of_untagged htag, orderUnder_of_untagged htag, hex]
            simp only [Bool.false_eq_true, if_false, Bool.and_true, hrd, fatal_none, hrs,
              Nat.add_assoc]
    · rw [hig] at hn
      simp only [if_true] at hn ⊢
      obtain ⟨rs, hrs⟩ := readFields_fixed b o rest hrest i n hn hb
      exact ⟨(f, x) :: rs, by simp only [hrs]⟩
end

theorem decodeSteps_fixed (b : List Nat) (o : ByteOrder) :
    ∀ (ts : List Value) (ns : List Nat) (i : Nat), (∀ t ∈ ts, FixedLayout t = true) →
    List.Forall₂ (fun t m => sizeOfValue t true = some m) ts ns → i + ns.sum ≤ b.length →
    ∃ rs, DecodeSteps b o true ts ns rs i
  | [], _, i, _, hz, _ => by
    cases hz
    exact ⟨[], trivial⟩
  | t :: ts, _, i, hf, hz, hb => by
    cases hz with
    | cons h1 h2 =>
      rename_i m ns
      simp only [List.sum_cons] at hb
      obtain ⟨r, hr⟩ := read_fixed b o t (hf t (by simp)) i m h1 (by omega)
      obtain ⟨rs, hrs⟩ := decodeSteps_fixed b o ts ns (i + m)
        (fun t1 ht1 => hf t1 (List.mem_cons_of_mem _ ht1)) h2 (by omega)
      exact ⟨r :: rs, by simp only [DecodeSteps]; exact ⟨hr, hrs⟩⟩

theorem offsets_of_decodeSteps (b : List Nat) (o : ByteOrder) (cs : Bool) (k : Nat) :
    ∀ (ts rs : List Value) (i : Nat),
    DecodeSteps b o cs ts (List.replicate ts.length k) rs i →
    rs.length = ts.length ∧ ∀ (j : Nat) (t : Value), ts[j]? = some t →
      ∃ r, rs[j]? = some r ∧ read b o t true cs (i + j * k) = some ⟨r, i + j * k + k, none⟩
  | [], [], _, _ => ⟨rfl, by simp⟩
  | [], _ :: _, _, h => by simp [DecodeSteps] at h
  | _ :: _, [], _, h => by simp [List.replicate_succ, DecodeSteps] at h
  | t :: ts, r :: rs, i, h => by
    simp only [List.length_cons, List.replicate_succ, DecodeSteps] at h
    obtain ⟨hl, hrest⟩ := offsets_of_decodeSteps b o cs k ts rs (i + k) h.2
    refine ⟨by simp [hl], ?_⟩
    intro j t1 h1
    cases j with
    | zero =>
      simp only [List.getElem?_cons_zero, Option.some.injEq] at h1
      subst h1
      exact ⟨r, by simp, by simpa using h.1⟩
    | succ j =>
      simp only [List.getElem?_cons_succ] at h1 ⊢
      obtain ⟨r1, hr1, hrd⟩ := hrest j t1 h1
      refine ⟨r1, hr1, ?_⟩
      have : i + (j + 1) * k = i + k + j * k := by rw [Nat.add_mul, Nat.one_mul]; omega
      rw [this]
      exact hrd

theorem forall₂_replicate {α : Type} (P : α → Nat → Prop) (k : Nat) : ∀ (ts : List α),
    (∀ t ∈ ts, P t k) → List.Forall₂ P ts (List.replicate ts.length k)
  | [], _ => List.Forall₂.nil
  | t :: ts, h => by
    simp only [List.length_cons, List.replicate_succ]
    exact List.Forall₂.cons (h t (by simp))
      (forall₂_replicate P k ts (fun t1 ht1 => h t1 (List.mem_cons_of_mem _ ht1)))

/-- C21 (counterexample): `read` on a struct with exported untagged fields, or on a
non-empty array of non-bytes, does not always decode every part at the sum of the
sizes before it.  A field of an unsupported kind stops the loop with an error
(`{A int32; B uint8}`: `B` is not decoded and the cursor stays at 0); in a slice of
slices of different lengths (`{{_}, {_, _}, {_}}`, element size 1) element 2 is
decoded from offset 3, not 2, and the cursor ends at 4, not 3; a field that is an
empty array makes `read` panic (`{A [0]uint8; B uint8}`); and a field whose struct
holds a skipped field consumes 1 byte where its size is 2
(`{A uint8; In struct{P uint8 "skip"; Q uint8}}`: the cursor ends at 2, the size is
3). -/
theorem read_fields_not_by_sizes :
    read [1, 2, 3, 4, 5] .LittleEndian
        (.struct [(⟨none, true⟩, .other (some 32)), (⟨none, true⟩, .uint8 0)]) true true 0
      = some ⟨.struct [(⟨none, true⟩, .other (some 32)), (⟨none, true⟩, .uint8 0)], 0,
          some .notSupported⟩ ∧
    sizeOfValue (.array true [.array true [.uint8 0], .array true [.uint8 0, .uint8 0],
        .array true [.uint8 0]]) true = some 3 ∧
    read [1, 2, 3, 4] .LittleEndian (.array true [.array true [.uint8 0],
        .array true [.uint8 0, .uint8 0], .array true [.uint8 0]]) true true 0
      = some ⟨.array true [.array true [.uint8 1], .array true [.uint8 2, .uint8 3],
          .array true [.uint8 4]], 4, none⟩ ∧
    read [7] .LittleEndian
        (.struct [(⟨none, true⟩, .array false []), (⟨none, true⟩, .uint8 0)]) true true 0
      = none ∧
    sizeOfValue (.struct [(⟨none, true⟩, .uint8 0), (⟨none, true⟩,
        .struct [(⟨some "skip", true⟩, .uint8 0), (⟨none, true⟩, .uint8 0)])]) true
      = some 3 ∧
    read [0xaa, 0xbb, 0xcc] .LittleEndian (.struct [(⟨none, true⟩, .uint8 0), (⟨none, true⟩,
        .struct [(⟨some "skip", true⟩, .uint8 0), (⟨none, true⟩, .uint8 0)])]) true true 0
      = some ⟨.struct [(⟨none, true⟩, .uint8 0xaa), (⟨none, true⟩,
          .struct [(⟨some "skip", true⟩, .uint8 0), (⟨none, true⟩, .uint8 0xbb)])], 2,
          none⟩ :=
  ⟨rfl, rfl, rfl, rfl, rfl, rfl⟩

/-- C21 (amended): decode is compositional on targets of a fixed layout.  For every
struct whose fields are all exported and untagged and hold values of a fixed layout
(unsigned scalars, non-empty arrays and slices whose elements all have the same
shape, structs whose fields are exported and untagged, or ignored), every byte
order, and every buffer with at least `sizeOfValue(v, true)` bytes from the cursor
`i`: `read` on the settable struct decodes the fields in declaration order, field
`j` from the offset where field `j - 1` ended, consuming `sizeOfValue(field j, true)`
bytes without error, returns these values and no error, and ends with the cursor
advanced by the sum of the sizes of the fields, which is the size of the struct.
For every non-empty array of a fixed layout whose elements are not bytes and have
size `k`, element `j` is decoded under the ambient order, little-endian or
big-endian, from offset `i + j * k` to `i + j * k + k`, the array is decoded to
these elements in the same positions and the cursor ends at `i + len * k`. -/
theorem read_compositional (b : List Nat) (o : ByteOrder) (i : Nat) :
    (∀ (fs : List (StructField × Value)) (n : Nat),
      (∀ fx ∈ fs, fx.1.exported = true ∧ fx.1.Tag = none ∧ FixedLayout fx.2 = true) →
      sizeOfValue (.struct fs) true = some n → i + n ≤ b.length →
      ∃ ns rs, List.Forall₂ (fun fx m => sizeOfValue fx.2 true = some m) fs ns ∧
        ns.sum = n ∧ DecodeSteps b o true (fs.map Prod.snd) ns rs i ∧
        read b o (.struct fs) true true i
          = some ⟨.struct (withValues fs rs), i + n, none⟩) ∧
    (∀ (s : Bool) (e : Value) (es : List Value) (k : Nat),
      e.isUint8 = false → FixedLayout (.array s (e :: es)) = true →
      sizeOfValue e true = some k → i + (es.length + 1) * k ≤ b.length →
      ∃ rs, rs.length = es.length + 1 ∧
        (∀ (j : Nat) (t : Value), (e :: es)[j]? = some t →
          ∃ r, rs[j]? = some r ∧
            read b o t true true (i + j * k) = some ⟨r, i + j * k + k, none⟩) ∧
        read b o (.array s (e :: es)) true true i
          = some ⟨.array s rs, i + (es.length + 1) * k, none⟩) := by
  constructor
  · intro fs n hf hn hb
    rw [sizeOfValue_struct] at hn
    obtain ⟨ns, hns, hsum⟩ := sizeOfFields_untagged_split fs 0 n
      (fun fx hfx => (hf fx hfx).2.1) hn
    rw [Nat.zero_add] at hsum
    have hns2 : List.Forall₂ (fun t m => sizeOfValue t true = some m) (fs.map Prod.snd) ns := by
      rw [List.forall₂_map_left_iff]
      exact hns
    obtain ⟨rs, hrs⟩ := decodeSteps_fixed b o (fs.map Prod.snd) ns i
      (fun t ht => by
        obtain ⟨fx, hfx, rfl⟩ := List.mem_map.mp ht
        exact (hf fx hfx).2.2)
      hns2 (by omega)
    refine ⟨ns, rs, hns, hsum, hrs, ?_⟩
    simp only [read]
    rw [readFields_steps b o true fs ns rs i (fun fx hfx => ⟨(hf fx hfx).1, (hf fx hfx).2.1⟩)
      hrs, hsum]
  · intro s e es k hu hfl hk hb
    simp only [FixedLayout, Bool.and_eq_true] at hfl
    have hmem := FixedLayoutElems_mem es e.zero hfl.2
    have hall : ∀ t ∈ e :: es, FixedLayout t = true ∧ sizeOfValue t true = some k := by
      intro t ht
      rcases List.mem_cons.mp ht with rfl | hm
      · exact ⟨hfl.1, hk⟩
      · exact ⟨(hmem t hm).1, by rw [sizeOfValue_of_zero_eq (hmem t hm).2, hk]⟩
    have hz := forall₂_replicate (fun (t : Value) m => sizeOfValue t true = some m) k (e :: es)
      (fun t ht => (hall t ht).2)
    have hsum : (List.replicate (e :: es).length k).sum = (es.length + 1) * k := by simp
    obtain ⟨rs, hrs⟩ := decodeSteps_fixed b o (e :: es) _ i (fun t ht => (hall t ht).1) hz
      (by rw [hsum]; exact hb)
    obtain ⟨hl, hoff⟩ := offsets_of_decodeSteps b o true k (e :: es) rs i hrs
    refine ⟨rs, by simpa using hl, hoff, ?_⟩
    simp only [read, hu, Bool.false_eq_true, if_false, Bool.or_true]
    rw [readElems_steps b o true (e :: es) _ rs i hrs, hsum]

/-- Witness of `read_compositional`: the test vector of the repository (`7f ff ff 51 aa
bb cc dd` decoded under little-endian into `{Header uint8; Reserved uint16; Rev uint8;
Data [4]uint8}`, of size 8) with the values the test expects, and the array
`[2]uint16` decoded from `01 02 03 04` under big-endian, element 0 from offset 0 and
element 1 from offset 2. -/
theorem read_compositional_witness :
    (∀ fx ∈ [((⟨none, true⟩ : StructField), Value.uint8 0), (⟨none, true⟩, .uint16 0),
        (⟨none, true⟩, .uint8 0),
        (⟨none, true⟩, .array false [.uint8 0, .uint8 0, .uint8 0, .uint8 0])],
      fx.1.exported = true ∧ fx.1.Tag = none ∧ FixedLayout fx.2 = true) ∧
    (∃ ns rs, List.Forall₂ (fun fx m => sizeOfValue fx.2 true = some m)
          [((⟨none, true⟩ : StructField), Value.uint8 0), (⟨none, true⟩, .uint16 0),
            (⟨none, true⟩, .uint8 0),
            (⟨none, true⟩, .array false [.uint8 0, .uint8 0, .uint8 0, .uint8 0])] ns ∧
        ns.sum = 8 ∧
        DecodeSteps [0x7f, 0xff, 0xff, 0x51, 0xaa, 0xbb, 0xcc, 0xdd] .LittleEndian true
          [.uint8 0, .uint16 0, .uint8 0, .array false [.uint8 0, .uint8 0, .uint8 0, .uint8 0]]
          ns rs 0 ∧
        read [0x7f, 0xff, 0xff, 0x51, 0xaa, 0xbb, 0xcc, 0xdd] .LittleEndian
            (.struct [(⟨none, true⟩, .uint8 0), (⟨none, true⟩, .uint16 0),
              (⟨none, true⟩, .uint8 0),
              (⟨none, true⟩, .array false [.uint8 0, .uint8 0, .uint8 0, .uint8 0])])
            true true 0
          = some ⟨.struct (withValues [(⟨none, true⟩, .uint8 0), (⟨none, true⟩, .uint16 0),
              (⟨none, true⟩, .uint8 0),
              (⟨none, true⟩, .array false [.uint8 0, .uint8 0, .uint8 0, .uint8 0])] rs),
            0 + 8, none⟩) ∧
    read [0x7f, 0xff, 0xff, 0x51, 0xaa, 0xbb, 0xcc, 0xdd] .LittleEndian
        (.struct [(⟨none, true⟩, .uint8 0), (⟨none, true⟩, .uint16 0),
          (⟨none, true⟩, .uint8 0),
          (⟨none, true⟩, .array false [.uint8 0, .uint8 0, .uint8 0, .uint8 0])]) true true 0
      = some ⟨.struct [(⟨none, true⟩, .uint8 0x7f), (⟨none, true⟩, .uint16 0xffff),
          (⟨none, true⟩, .uint8 0x51),
          (⟨none, true⟩, .array false [.uint8 0xaa, .uint8 0xbb, .uint8 0xcc, .uint8 0xdd])],
        8, none⟩ ∧
    (∃ rs : List Value, rs.length = 1 + 1 ∧
        (∀ (j : Nat) (t : Value), [Value.uint16 0, .uint16 0][j]? = some t →
          ∃ r, rs[j]? = some r ∧
            read [1, 2, 3, 4] .BigEndian t true true (0 + j * 2)
              = some ⟨r, 0 + j * 2 + 2, none⟩) ∧
        read [1, 2, 3, 4] .BigEndian (.array false [.uint16 0, .uint16 0]) true true 0
          = some ⟨.array false rs, 0 + (1 + 1) * 2, none⟩) ∧
    read [1, 2, 3, 4] .BigEndian (.array false [.uint16 0, .uint16 0]) true true 0
      = some ⟨.array false [.uint16 0x0102, .uint16 0x0304], 4, none⟩ :=
  ⟨by decide,
    (read_compositional [0x7f, 0xff, 0xff, 0x51, 0xaa, 0xbb, 0xcc, 0xdd] .LittleEndian 0).1
      _ 8 (by decide) rfl (by decide),
    rfl,
    (read_compositional [1, 2, 3, 4] .BigEndian 0).2 false (.uint16 0) [.uint16 0] 2 rfl rfl
      rfl (by decide),
    rfl⟩

/-! ## Decode under the precondition of the specification -/

theorem sizeOfValue_supported (v : Value) (h : Bool) (hs : Supported v = true) :
    sizeOfValue v h = some (sizeRef v h) := by
  rw [sizeOfValue, sizeOfValueRecursive_ref v h 0 hs, Nat.zero_add]

/-- C22: decode stays in bounds under the precondition of the specification.  For
every value `v` whose arrays are homogeneous and whose physical size
`sizeOfValue(v, false)` is defined (as it is for every value of a supported shape,
`sizeOfValue_supported`), every byte order, accessibility and settability, every
buffer `b` and entry cursor `i` with `len(b) - i >= sizeOfValue(v, false)`, the run of
`read` never ends in an index or slice expression out of range, whatever directives
and inaccessible fields `v` contains: `readP`, which is `read` with the kind of panic
recorded, is not `indexOutOfRange`, and when it returns the cursor is at most
`i + sizeOfValue(v, false)`, inside the buffer. -/
theorem read_stays_in_bounds (b : List Nat) (o : ByteOrder) (v : Value) (ci cs : Bool)
    (i P : Nat) (hh : Homogeneous v = true) (hs : sizeOfValue v false = some P)
    (hp : (P : Int) ≤ (b.length : Int) - (i : Int)) :
    readP b o v ci cs i ≠ .error .indexOutOfRange ∧
    read b o v ci cs i = (readP b o v ci cs i).toOption ∧
    (∀ r, read b o v ci cs i = some r → r.index ≤ i + P ∧ r.index ≤ b.length) := by
  have hb : i + P ≤ b.length := by omega
  have hin := readP_inBounds b o v ci cs i P hh hs hb
  refine ⟨InBounds_not_indexOutOfRange hin, read_eq_readP b o v ci cs i, ?_⟩
  intro r hr
  rw [read_eq_readP] at hr
  cases hq : readP b o v ci cs i with
  | error p => simp [hq, Except.toOption] at hr
  | ok q =>
    rw [hq] at hin hr
    simp only [Except.toOption, Option.some.injEq] at hr
    subst hr
    rw [InBounds_ok] at hin
    exact ⟨hin, Nat.le_trans hin hb⟩

/-- Witness of `read_stays_in_bounds`: the struct `sampleNested`, of a supported shape
with a skipped field, a field forced to big-endian, an unexported field, an ignored
field and an array of `uint16`, of physical size 11, decoded from eleven bytes at
cursor 0. -/
theorem read_stays_in_bounds_witness :
    Supported sampleNested = true ∧ Homogeneous sampleNested = true ∧
    sizeOfValue sampleNested false = some 11 ∧
    (readP [0, 1, 2, 3, 4, 5, 6, 7, 8, 9, 10] .LittleEndian sampleNested true true 0
        ≠ .error .indexOutOfRange ∧
      read [0, 1, 2, 3, 4, 5, 6, 7, 8, 9, 10] .LittleEndian sampleNested true true 0
        = (readP [0, 1, 2, 3, 4, 5, 6, 7, 8, 9, 10] .LittleEndian sampleNested true true
            0).toOption ∧
      (∀ r, read [0, 1, 2, 3, 4, 5, 6, 7, 8, 9, 10] .LittleEndian sampleNested true true 0
          = some r → r.index ≤ 0 + 11 ∧ r.index ≤ 11)) ∧
    read [0, 1, 2, 3, 4, 5, 6, 7, 8, 9, 10] .LittleEndian sampleNested true true 0
      = some ⟨.struct [(⟨none, true⟩, .uint16 0x0100),
          (⟨none, true⟩,
            .struct [(⟨some "skip", true⟩, .uint8 0), (⟨some "BE", true⟩, .uint16 0x0102)]),
          (⟨none, false⟩, .uint8 0), (⟨some "-", true⟩, .uint8 0),
          (⟨none, true⟩, .array false [.uint16 0x0504, .uint16 0x0706])], 8, none⟩ :=
  ⟨by decide, by decide, by decide,
    read_stays_in_bounds [0, 1, 2, 3, 4, 5, 6, 7, 8, 9, 10] .LittleEndian sampleNested true
      true 0 11 (by decide) (by decide) (by decide),
    rfl⟩

/-! ## Encode against the buffer that `Write` allocates -/

/-- C23 (code at the failing input): the struct `sampleHidden`,
`{a struct{X uint8 "-"; Y uint8}; B uint8}`, has a supported shape and the logical size
2, so `Write` allocates two bytes; `write` finds the field `a` inaccessible and adds
its physical size `sizeOfValue(a, false) = 2` to the cursor, then stores `B` at offset
2 of the two-byte buffer: the index is out of range, `write` and `Write` panic.  With
the fields in the other order, `{B uint8; a struct{...}}`, nothing is stored out of
range but the cursor ends at 3 on the two-byte buffer. -/
theorem write_overruns_allocated_buffer :
    Supported sampleHidden = true ∧ Homogeneous sampleHidden = true ∧
    sizeOfValue sampleHidden true = some 2 ∧
    sizeOfValue (.struct [(⟨some "-", true⟩, .uint8 1), (⟨none, true⟩, .uint8 2)]) true
      = some 1 ∧
    write (.struct [(⟨some "-", true⟩, .uint8 1), (⟨none, true⟩, .uint8 2)]) .LittleEndian
      [0, 0] false 0 = some ⟨[0, 0], 2, some .errCannotInterface⟩ ∧
    setIdx [0, 0] 2 7 = none ∧
    write sampleHidden .LittleEndian (List.replicate 2 0) true 0 = none ∧
    Write (fun _ => none) (fun _ _ => none) .LittleEndian (.ptr sampleHidden) = none ∧
    sizeOfValue (.struct [(⟨none, true⟩, .uint8 7), (⟨none, false⟩,
        .struct [(⟨some "-", true⟩, .uint8 1), (⟨none, true⟩, .uint8 2)])]) true = some 2 ∧
    write (.struct [(⟨none, true⟩, .uint8 7), (⟨none, false⟩,
        .struct [(⟨some "-", true⟩, .uint8 1), (⟨none, true⟩, .uint8 2)])]) .LittleEndian
      (List.replicate 2 0) true 0 = some ⟨[7, 0], 3, none⟩ :=
  ⟨by decide, by decide, rfl, rfl, rfl, rfl, rfl, rfl, rfl, rfl⟩

/-! ## Zero-length arrays -/

/-- C24 (code at the failing input): on an array or slice of length 0 `sizeOfValue`
is 0 and `write` returns no error and leaves buffer and cursor as they were, but
`read` does not: it leaves the `switch` without returning and reaches `v.Set(val)`
with the zero `reflect.Value`, which panics when the array is settable, and returns
the error 'can not set' when it is not.  `Read` with a pointer to
`struct{A [0]uint8; B uint8}` panics, where `Write` on it emits the byte of `B`. -/
theorem read_empty_array_not_noop (s : Bool) (o : ByteOrder) (b : List Nat) (i : Nat)
    (h : Bool) :
    sizeOfValue (.array s []) h = some 0 ∧
    write (.array s []) o b true i = some ⟨b, i, none⟩ ∧
    read b o (.array s []) true true i = none ∧
    readP b o (.array s []) true true i = .error .reflect ∧
    read b o (.array s []) true false i = some ⟨.array s [], i, some .canNotSet⟩ ∧
    ReadValue (bytesReader [7]) .LittleEndian
      (.struct [(⟨none, true⟩, .array false []), (⟨none, true⟩, .uint8 0)]) = none ∧
    WriteValue (fun _ => none) .LittleEndian
      (.struct [(⟨none, true⟩, .array false []), (⟨none, true⟩, .uint8 7)])
      = some ⟨[7], none⟩ := by
  refine ⟨?_, ?_, ?_, ?_, ?_, rfl, rfl⟩
  · simp [sizeOfValue, sizeOfValueRecursive]
  · simp [write]
  · simp [read]
  · simp [readP]
  · simp [read]

end Endian
